import Mathlib

/-!
Shallow embedding of the maze generator/solver (Wilson's algorithm) from
the `maze` Go package.

Cells are addressed by flat row-major index `i = row * width + col` into
the grid's cell list, mirroring the `[][]*cell` layout; Go pointers to
cells become `Option Nat` indices (`none` embeds `nil`).  Mutation of the
heap becomes explicit state passing of the `Grid` value.  The ambient
`math/rand` source becomes an explicit infinite stream of naturals that
is threaded through every operation: each draw `rand.Intn n` consumes the
head of the stream modulo `n` (this realizes every possible sequence of
choices, so quantifying over streams quantifies over all behaviours of
the random source).  Go panics and loops whose termination is not
structural are embedded with an `Except` result and a fuel parameter:
`.panic` embeds a Go runtime panic, `.outOfFuel` marks exhausted fuel
(claims about completed runs are conditioned on an `.ok` result).
-/

namespace Maze

/-- Abnormal outcomes of an embedded Go computation. -/
inductive Abort where
  | panic (msg : String)
  | outOfFuel
deriving Repr, DecidableEq

/-- The state of the pseudo-random source: an infinite stream of raw
draw values `f 0, f 1, f 2, ...` together with the position of the next
draw.  Advancing the state increments the position; this is the
global `math/rand` state threaded explicitly. -/
structure RNG where
  f : Nat → Nat
  pos : Nat

/-- The stream with position `0` for a given value function. -/
def mkRNG (f : Nat → Nat) : RNG := ⟨f, 0⟩

/-- Advance the stream past one draw. -/
def rngTail (r : RNG) : RNG := ⟨r.f, r.pos + 1⟩

/-- Embeds `rand.Intn n` for `n > 0`: result in `[0, n)` plus the advanced
stream.  Call sites where the Go code can reach `n ≤ 0` (which panics)
check for that case explicitly. -/
def randIntn (n : Nat) (r : RNG) : Nat × RNG := (r.f r.pos % n, rngTail r)

/-- Embeds the `walls` struct of `cell` (cell.go). -/
structure Walls where
  north : Bool
  east : Bool
  south : Bool
  west : Bool
deriving Repr, DecidableEq

/-- Embeds the `neighbors` struct of `cell` (cell.go): directional
references, `none` at grid boundaries. -/
structure Neighbors where
  north : Option Nat
  east : Option Nat
  south : Option Nat
  west : Option Nat
deriving Repr, DecidableEq

/-- Embeds `cell` (cell.go).  Go's `in` field is `inMaze` (`in` is a Lean
keyword). -/
structure Cell where
  row : Nat
  col : Nat
  neighbors : Neighbors
  walls : Walls
  neighborhood : List Nat
  entrance : Bool
  exit : Bool
  inMaze : Bool
  onPath : Bool
  visited : Bool
  toPtr : Option Nat
deriving Repr, DecidableEq

instance : Inhabited Cell :=
  ⟨{ row := 0, col := 0, neighbors := ⟨none, none, none, none⟩,
     walls := ⟨true, true, true, true⟩, neighborhood := [],
     entrance := false, exit := false, inMaze := false,
     onPath := false, visited := false, toPtr := none }⟩

/-- Embeds `grid` (grid.go). -/
structure Grid where
  height : Nat
  width : Nat
  cells : List Cell
deriving Repr, DecidableEq

/-- Number of cells of the grid. -/
def gsize (g : Grid) : Nat := g.height * g.width

/-- Read the cell at flat index `i` (indices are in bounds in every run;
out-of-bounds reads return the default cell). -/
def getCell (g : Grid) (i : Nat) : Cell := g.cells.getD i default

/-- Write the cell at flat index `i` (no-op out of bounds, mirroring that
Go never indexes out of bounds here). -/
def setCell (g : Grid) (i : Nat) (c : Cell) : Grid :=
  { g with cells := g.cells.set i c }

/-- Field update of one cell, the shape of every Go statement
`g.cells[r][c].f = v`. -/
def modifyCell (g : Grid) (i : Nat) (f : Cell → Cell) : Grid :=
  setCell g i (f (getCell g i))

/-- The cell built by `createGrid` (grid.go) at flat index `i`: fully
walled, linked to its in-bounds neighbors, with the neighborhood list
appended in the source's north, east, south, west order.  (The Go code
allocates all cells first and links them in a second pass; the links
depend only on row/col geometry, so the two passes fuse into one cell
constructor.) -/
def mkCell (height width i : Nat) : Cell :=
  let row := i / width
  let col := i % width
  let nN : Option Nat := if 0 < row then some (i - width) else none
  let nE : Option Nat := if col < width - 1 then some (i + 1) else none
  let nS : Option Nat := if row < height - 1 then some (i + width) else none
  let nW : Option Nat := if 0 < col then some (i - 1) else none
  { row := row, col := col,
    neighbors := ⟨nN, nE, nS, nW⟩,
    walls := ⟨true, true, true, true⟩,
    neighborhood := nN.toList ++ nE.toList ++ nS.toList ++ nW.toList,
    entrance := false, exit := false, inMaze := false,
    onPath := false, visited := false, toPtr := none }

/-- Embeds `createGrid` (grid.go). -/
def createGrid (height width : Nat) : Grid :=
  { height := height, width := width,
    cells := (List.range (height * width)).map (mkCell height width) }

/-- Embeds `allCells` (grid.go): all cell indices in row-major order. -/
def allCells (g : Grid) : List Nat := List.range (gsize g)

/-- Embeds `clearWalk` (grid.go): reset every cell's `to` pointer. -/
def clearWalk (g : Grid) : Grid :=
  { g with cells := g.cells.map fun c => { c with toPtr := none } }

/-- Swap two positions of a list (the swap callback of `rand.Shuffle`). -/
def swapList (l : List Nat) (i j : Nat) : List Nat :=
  let a := l.getD i 0
  let b := l.getD j 0
  (l.set i b).set j a

/-- The Fisher-Yates loop inside `rand.Shuffle`: swap index `i` with a
random `j ≤ i`, for `i` from `n-1` down to `1`. -/
def shuffleLoop (l : List Nat) (r : RNG) : Nat → List Nat × RNG
  | 0 => (l, r)
  | i + 1 =>
    let j := (randIntn (i + 2) r).1
    shuffleLoop (swapList l (i + 1) j) (randIntn (i + 2) r).2 i

/-- Embeds `rand.Shuffle` over a list of cell indices. -/
def shuffle (l : List Nat) (r : RNG) : List Nat × RNG :=
  shuffleLoop l r (l.length - 1)

/-- Embeds the random walk of `RectangleMaze` (maze.go lines 51-56)
together with `randomNeighbor` (cell.go): starting at `cur`, repeatedly
record on the current cell an exit pointer to a random neighbor and move
there, until the current cell is already in the maze.  `rand.Intn` on an
empty neighborhood embeds as the corresponding Go panic. -/
def walkLoop (g : Grid) (cur : Nat) (r : RNG) : Nat → Except Abort (Grid × Nat × RNG)
  | 0 => .error .outOfFuel
  | fuel + 1 =>
    if (getCell g cur).inMaze then .ok (g, cur, r)
    else
      match (getCell g cur).neighborhood with
      | [] => .error (.panic "Intn n out of range")
      | _ :: _ =>
        let len := (getCell g cur).neighborhood.length
        let j := (randIntn len r).1
        let nb := (getCell g cur).neighborhood.getD j 0
        walkLoop (modifyCell g cur fun c => { c with toPtr := some nb }) nb
          (randIntn len r).2 fuel

/-- Embeds the wall-removal if-chain of the retrace (maze.go lines
61-74): clear the matching wall flag on both endpoint cells, according to
which directional neighbor of `src` the cell `dst` is. -/
def removeWallBetween (g : Grid) (src dst : Nat) : Grid :=
  let f := getCell g src
  if f.neighbors.north = some dst then
    modifyCell (modifyCell g src fun c => { c with walls.north := false })
      dst fun c => { c with walls.south := false }
  else if f.neighbors.east = some dst then
    modifyCell (modifyCell g src fun c => { c with walls.east := false })
      dst fun c => { c with walls.west := false }
  else if f.neighbors.south = some dst then
    modifyCell (modifyCell g src fun c => { c with walls.south := false })
      dst fun c => { c with walls.north := false }
  else if f.neighbors.west = some dst then
    modifyCell (modifyCell g src fun c => { c with walls.west := false })
      dst fun c => { c with walls.east := false }
  else g

/-- Embeds the retrace loop of `RectangleMaze` (maze.go lines 59-79):
walk the recorded exit pointers from `src`, removing the wall to the
pointed-to cell and marking each visited cell as in the maze, until
reaching a cell that is already in the maze.  A `nil` exit pointer would
dereference `nil` in Go (unreachable after a completed walk) and embeds
as a panic. -/
def retraceLoop (g : Grid) (src : Nat) : Nat → Except Abort Grid
  | 0 => .error .outOfFuel
  | fuel + 1 =>
    if (getCell g src).inMaze then .ok g
    else
      match (getCell g src).toPtr with
      | none => .error (.panic "nil pointer dereference")
      | some dst =>
        retraceLoop
          (modifyCell (removeWallBetween g src dst) src fun c => { c with inMaze := true })
          dst fuel

/-- Embeds the outer queue loop of `RectangleMaze` (maze.go lines 38-80):
pop the next start cell, clear the walk pointers, random-walk until
hitting the maze, then retrace. -/
def wilsonLoop (g : Grid) (stack : List Nat) (r : RNG) (fuel : Nat) :
    Except Abort (Grid × RNG) :=
  match stack with
  | [] => .ok (g, r)
  | src :: rest =>
    match walkLoop (clearWalk g) src r fuel with
    | .error e => .error e
    | .ok (g2, _, r2) =>
      match retraceLoop g2 src fuel with
      | .error e => .error e
      | .ok g3 => wilsonLoop g3 rest r2 fuel

/-- Embeds the entrance/exit placement of `RectangleMaze` (maze.go lines
82-100).  `rand.Intn theGate` with `theGate = width/6 = 0` panics in Go. -/
def placeGates (g : Grid) (r : RNG) : Except Abort (Grid × Nat × Nat × RNG) :=
  let north := 0
  let east := g.width - 1
  let south := g.height - 1
  let west := 0
  let theGate := g.width / 6
  if theGate = 0 then .error (.panic "Intn n out of range")
  else
    let d1 := (randIntn theGate r).1
    let r1 := (randIntn theGate r).2
    let entranceRow := north
    let entranceCol := west + d1
    let d2 := (randIntn theGate r1).1
    let r2 := (randIntn theGate r1).2
    let exitRow := south
    let exitCol := east - d2
    let entranceI := entranceRow * g.width + entranceCol
    let exitI := exitRow * g.width + exitCol
    let g1 := modifyCell g entranceI fun c =>
      { c with entrance := true, walls.north := false }
    let g2 := modifyCell g1 exitI fun c =>
      { c with exit := true, walls.south := false }
    .ok (g2, entranceI, exitI, r2)

/-- Embeds `hasBeenVisited` (cell.go): nil-safe visited test. -/
def hasBeenVisited (g : Grid) : Option Nat → Bool
  | none => false
  | some i => (getCell g i).visited

/-- Embeds `isExit` (cell.go): nil-safe exit-flag test. -/
def isExitCell (g : Grid) : Option Nat → Bool
  | none => false
  | some i => (getCell g i).exit

/-- The four directions, for the solver's fixed expansion order. -/
inductive Dir where
  | north | east | south | west
deriving Repr, DecidableEq

/-- The directional neighbor reference of a cell. -/
def dirNeighbor (c : Cell) : Dir → Option Nat
  | .north => c.neighbors.north
  | .east => c.neighbors.east
  | .south => c.neighbors.south
  | .west => c.neighbors.west

/-- The directional wall flag of a cell. -/
def dirWall (c : Cell) : Dir → Bool
  | .north => c.walls.north
  | .east => c.walls.east
  | .south => c.walls.south
  | .west => c.walls.west

/-- Embeds `northIsOpen`/`eastIsOpen`/`southIsOpen`/`westIsOpen`
(cell.go): a neighbor exists in that direction and the wall is down. -/
def dirIsOpen (c : Cell) (d : Dir) : Bool :=
  (dirNeighbor c d).isSome && !(dirWall c d)

/-- One `if current.dirIsOpen() { if neighbor := ...; !neighbor.hasBeenVisited() {...} }`
block of the solver (maze.go lines 205-232): push the unvisited open
neighbor in direction `d`, marking it visited and recording `current` as
its predecessor.  The stack is embedded head-topmost. -/
def tryPushDir (g : Grid) (stack : List Nat) (current : Nat) (d : Dir) :
    Grid × List Nat :=
  let c := getCell g current
  if dirIsOpen c d then
    match dirNeighbor c d with
    | none => (g, stack)
    | some nb =>
      if !hasBeenVisited g (some nb) then
        (modifyCell g nb fun x => { x with visited := true, toPtr := some current },
         nb :: stack)
      else (g, stack)
  else (g, stack)

/-- Embeds the depth-first-search loop of the solver (maze.go lines
187-233, duplicated inline at lines 110-158): while the stack's top is
not the exit, pop it; if its open south neighbor is the exit, push that
and stop; otherwise push its unvisited open neighbors in north, east,
south, west order. -/
def dfsLoop (g : Grid) (stack : List Nat) : Nat → Except Abort (Grid × List Nat)
  | 0 => .error .outOfFuel
  | fuel + 1 =>
    match stack with
    | [] => .error (.panic "index out of range")
    | top :: rest =>
      if (getCell g top).exit then .ok (g, top :: rest)
      else
        let current := top
        let c := getCell g current
        let shortcut : Option Nat :=
          if dirIsOpen c .south && isExitCell g c.neighbors.south then
            c.neighbors.south
          else none
        match shortcut with
        | some nb =>
          .ok (modifyCell g nb fun x => { x with visited := true, toPtr := some current },
               nb :: rest)
        | none =>
          let p1 := tryPushDir g rest current .north
          let p2 := tryPushDir p1.1 p1.2 current .east
          let p3 := tryPushDir p2.1 p2.2 current .south
          let p4 := tryPushDir p3.1 p3.2 current .west
          dfsLoop p4.1 p4.2 fuel

/-- Embeds the path-marking loop (maze.go lines 237-239): from the exit,
follow predecessor pointers, marking every cell on path, until `nil`. -/
def markPath (g : Grid) (c? : Option Nat) : Nat → Except Abort Grid
  | 0 => .error .outOfFuel
  | fuel + 1 =>
    match c? with
    | none => .ok g
    | some c =>
      let nxt := (getCell g c).toPtr
      markPath (modifyCell g c fun x => { x with onPath := true }) nxt fuel

/-- The whole solving phase: clear walk pointers, run the DFS from the
entrance, then mark the entrance-to-exit path.  Shared by the inline
`solve` branch of `RectangleMaze` (maze.go lines 102-165) and the
`Solve` method (lines 174-242), whose loop bodies are textually
identical. -/
def solveGrid (g : Grid) (entranceI exitI : Nat) (fuel : Nat) : Except Abort Grid :=
  let g1 := clearWalk g
  let g2 := modifyCell g1 entranceI fun c => { c with visited := true }
  match dfsLoop g2 [entranceI] fuel with
  | .error e => .error e
  | .ok (g3, _) =>
    markPath g3 (some exitI) fuel

/-- Embeds `Rectangle` (maze.go): the generated maze with its entrance
and exit cells. -/
structure Rectangle where
  g : Grid
  entrance : Nat
  exit : Nat
  solved : Bool
deriving Repr, DecidableEq

/-- Embeds `RectangleMaze` (maze.go lines 19-172).  The `Option String`
component of the result embeds Go's `error` return value (`none` is
`nil`); the returned `RNG` is the advanced state of the ambient global
random source. -/
def RectangleMaze (height width : Nat) (solve : Bool) (r : RNG) (fuel : Nat) :
    Except Abort (Rectangle × Option String × RNG) :=
  let g := createGrid height width
  let sh := shuffle (allCells g) r
  let stack := sh.1
  let r1 := sh.2
  match stack with
  | [] => .error (.panic "index out of range")
  | s0 :: rest =>
    let g1 := modifyCell g s0 fun c => { c with inMaze := true }
    match wilsonLoop g1 rest r1 fuel with
    | .error e => .error e
    | .ok (g2, r2) =>
      match placeGates g2 r2 with
      | .error e => .error e
      | .ok (g3, entranceI, exitI, r3) =>
        if solve then
          match solveGrid g3 entranceI exitI fuel with
          | .error e => .error e
          | .ok g4 =>
            .ok ({ g := g4, entrance := entranceI, exit := exitI, solved := false },
                 none, r3)
        else
          .ok ({ g := g3, entrance := entranceI, exit := exitI, solved := false },
               none, r3)

/-- Embeds the `Solve` method (maze.go lines 174-242). -/
def Solve (rect : Rectangle) (fuel : Nat) : Except Abort Rectangle :=
  if rect.solved then .ok rect
  else
    match solveGrid rect.g rect.entrance rect.exit fuel with
    | .error e => .error e
    | .ok g => .ok { rect with g := g, solved := true }

/-- The immutable part of a cell: its identity and its links, fixed at
grid construction. -/
def skeleton (c : Cell) : Nat × Nat × Neighbors × List Nat :=
  (c.row, c.col, c.neighbors, c.neighborhood)

/-- Two grids with the same dimensions and the same immutable geometry. -/
def SameSkel (g g' : Grid) : Prop :=
  g'.height = g.height ∧ g'.width = g.width ∧
  g'.cells.length = g.cells.length ∧
  ∀ i, skeleton (getCell g' i) = skeleton (getCell g i)

/-- A cell update that touches only mutable fields. -/
def SkelPres (f : Cell → Cell) : Prop := ∀ c, skeleton (f c) = skeleton c

/-- A grid with the geometry `createGrid` gives it: the cell list has
exactly `height * width` entries and every cell keeps the links and
identity built by `createGrid`. -/
def WF (g : Grid) : Prop :=
  g.cells.length = gsize g ∧
  ∀ i, i < gsize g → skeleton (getCell g i) = skeleton (mkCell g.height g.width i)

/-- Geometric grid adjacency between flat indices: an in-bounds cell
sharing an edge (same row, adjacent columns, or same column, adjacent
rows). -/
def IsGridNbr (h w i j : Nat) : Prop :=
  j < h * w ∧
    ((j = i + 1 ∧ j / w = i / w) ∨ (i = j + 1 ∧ i / w = j / w) ∨
     (j = i + w) ∨ (i = j + w))

instance (h w i j : Nat) : Decidable (IsGridNbr h w i j) := by
  unfold IsGridNbr; infer_instance

/-- The opposite direction, for wall symmetry. -/
def oppDir : Dir → Dir
  | .north => .south
  | .south => .north
  | .east => .west
  | .west => .east

/-- Wall-state symmetry: for every cell and every existing directional
neighbor, the two facing wall flags agree. -/
def WallSym (g : Grid) : Prop :=
  ∀ i d j, dirNeighbor (getCell g i) d = some j →
    dirWall (getCell g i) d = dirWall (getCell g j) (oppDir d)

/-- Wall monotonicity: every wall standing in `g2` was standing in `g1`. -/
def wallsLe (g2 g1 : Grid) : Prop :=
  ∀ i d, dirWall (getCell g2 i) d = true → dirWall (getCell g1 i) d = true

/-- Identical wall state. -/
def sameWalls (g2 g1 : Grid) : Prop :=
  ∀ i, (getCell g2 i).walls = (getCell g1 i).walls

/-- An open passage eastwards out of cell `i` (canonical orientation:
the wall flag is read on the western endpoint). -/
def openPairE (g : Grid) (i : Nat) : Prop :=
  i < gsize g ∧ i % g.width + 1 < g.width ∧ (getCell g i).walls.east = false

instance (g : Grid) (i : Nat) : Decidable (openPairE g i) := by
  unfold openPairE; infer_instance

/-- An open passage southwards out of cell `i` (canonical orientation:
the wall flag is read on the northern endpoint). -/
def openPairS (g : Grid) (i : Nat) : Prop :=
  i + g.width < gsize g ∧ 0 < g.width ∧ (getCell g i).walls.south = false

instance (g : Grid) (i : Nat) : Decidable (openPairS g i) := by
  unfold openPairS; infer_instance

/-- `p` is an open wall-pair in canonical order: two adjacent in-bounds
cells whose shared wall is down. -/
def openPair (g : Grid) (p : Nat × Nat) : Prop :=
  (p.2 = p.1 + 1 ∧ openPairE g p.1) ∨ (p.2 = p.1 + g.width ∧ openPairS g p.1)

instance (g : Grid) (p : Nat × Nat) : Decidable (openPair g p) := by
  unfold openPair; infer_instance

/-- The set of all open wall-pairs of the grid, canonically ordered. -/
def openEdgeSet (g : Grid) : Finset (Nat × Nat) :=
  (Finset.range (gsize g) ×ˢ Finset.range (gsize g)).filter fun p => openPair g p

/-- The number of open wall-pairs. -/
def edgeCount (g : Grid) : Nat := (openEdgeSet g).card

/-- Two cells joined by an edge of `E`, in either orientation. -/
def edgeRel (E : Finset (Nat × Nat)) (a b : Nat) : Prop := (a, b) ∈ E ∨ (b, a) ∈ E

/-- Reachability along edges of `E`. -/
def EReach (E : Finset (Nat × Nat)) : Nat → Nat → Prop :=
  Relation.ReflTransGen (edgeRel E)

/-- Two cells of the grid joined by an open passage. -/
def adjOpen (g : Grid) (a b : Nat) : Prop := edgeRel (openEdgeSet g) a b

/-- Reachability through open passages of the grid. -/
def Reach (g : Grid) : Nat → Nat → Prop := Relation.ReflTransGen (adjOpen g)

/-- Certificate that `(S, E)` is a tree: grown from a single vertex by
repeatedly attaching a fresh vertex by one edge to the existing tree. -/
inductive TreeCert : Finset Nat → Finset (Nat × Nat) → Prop where
  | single (v : Nat) : TreeCert {v} ∅
  | leaf {S : Finset Nat} {E : Finset (Nat × Nat)} (v u : Nat) (p : Nat × Nat) :
      TreeCert S E → v ∉ S → u ∈ S → p = (v, u) ∨ p = (u, v) →
      TreeCert (insert v S) (insert p E)

/-- Simple path along symmetric edges of `E` from `a` to `b`, listing its
vertices. -/
inductive EPath (E : Finset (Nat × Nat)) : Nat → Nat → List Nat → Prop where
  | nil (a : Nat) : EPath E a a [a]
  | cons {b c : Nat} {l : List Nat} (a : Nat) :
      edgeRel E a b → EPath E b c l → a ∉ l → EPath E a c (a :: l)

/-- A chain of recorded walk exit pointers from a cell, through cells not
yet in the maze, ending at the first cell already in the maze. -/
inductive PtrChain (g : Grid) : Nat → List Nat → Prop where
  | last (v : Nat) : (getCell g v).inMaze = true → PtrChain g v [v]
  | step {u : Nat} {l : List Nat} (v : Nat) :
      (getCell g v).inMaze = false → (getCell g v).toPtr = some u →
      u ∈ (getCell g v).neighborhood → PtrChain g u l → v ∉ l →
      PtrChain g v (v :: l)

/-- A chain of solver predecessor pointers from a cell down to the cell
with no predecessor. -/
inductive DownChain (g : Grid) : Nat → List Nat → Prop where
  | last (v : Nat) : (getCell g v).toPtr = none → DownChain g v [v]
  | step {u : Nat} {l : List Nat} (v : Nat) :
      (getCell g v).toPtr = some u → DownChain g u l → v ∉ l →
      DownChain g v (v :: l)

/-- The cells currently in the maze (tree members). -/
def inSet (g : Grid) : Finset Nat :=
  (Finset.range (gsize g)).filter fun i => (getCell g i).inMaze = true

/-- The cells flagged as on the entrance-to-exit path. -/
def onPathSet (g : Grid) : Finset Nat :=
  (Finset.range (gsize g)).filter fun i => (getCell g i).onPath = true

instance : Inhabited Rectangle :=
  ⟨{ g := createGrid 0 0, entrance := 0, exit := 0, solved := false }⟩

/-- The canonical (smaller-first) ordering of an adjacent pair. -/
def canonPair (a b : Nat) : Nat × Nat := if a < b then (a, b) else (b, a)

/-- The canonical edges along a list of successively adjacent cells. -/
def pathEdges : List Nat → Finset (Nat × Nat)
  | [] => ∅
  | [_] => ∅
  | a :: b :: rest => insert (canonPair a b) (pathEdges (b :: rest))

/-- Non-wall dynamic fields of a cell. -/
def restFields (c : Cell) :
    Option Nat × Bool × Bool × Bool × Bool × Bool :=
  (c.toPtr, c.inMaze, c.entrance, c.exit, c.visited, c.onPath)

/-- Bundled postcondition of one two-sided wall removal. -/
structure RemovePost (g g' : Grid) (src dst : Nat) : Prop where
  skel : SameSkel g g'
  rest : ∀ i, restFields (getCell g' i) = restFields (getCell g i)
  wmono : wallsLe g' g
  sym : WallSym g → WallSym g'
  edges : openEdgeSet g' = insert (canonPair src dst) (openEdgeSet g)
  dstLt : dst < gsize g
  dstNe : dst ≠ src

/-- Postcondition of a completed retrace along the pointer chain `l`:
geometry, pointers and flags other than `inMaze` untouched, the chain
cells except the terminal marked in-maze, and exactly the chain's walls
opened. -/
structure RetracePost (g g' : Grid) (l : List Nat) : Prop where
  skel : SameSkel g g'
  ptr : ∀ i, (getCell g' i).toPtr = (getCell g i).toPtr
  inM : ∀ i, (getCell g' i).inMaze = true ↔
    ((getCell g i).inMaze = true ∨ i ∈ l.dropLast)
  entF : ∀ i, (getCell g' i).entrance = (getCell g i).entrance
  exitF : ∀ i, (getCell g' i).exit = (getCell g i).exit
  vis : ∀ i, (getCell g' i).visited = (getCell g i).visited
  onP : ∀ i, (getCell g' i).onPath = (getCell g i).onPath
  wmono : wallsLe g' g
  sym : WallSym g → WallSym g'
  edges : openEdgeSet g' = openEdgeSet g ∪ pathEdges l

/-- Postcondition of a completed random walk from `start`, ending on the
in-maze cell `t`: all fields except the exit pointers are untouched, and
the written exit pointers form loop-free chains (witnessed by a rank
function increasing along pointers) that lead to `t` through cells not in
the maze. -/
structure WalkPost (g g2 : Grid) (start t : Nat) : Prop where
  skel : SameSkel g g2
  walls : ∀ i, (getCell g2 i).walls = (getCell g i).walls
  inM : ∀ i, (getCell g2 i).inMaze = (getCell g i).inMaze
  entF : ∀ i, (getCell g2 i).entrance = (getCell g i).entrance
  exitF : ∀ i, (getCell g2 i).exit = (getCell g i).exit
  vis : ∀ i, (getCell g2 i).visited = (getCell g i).visited
  onP : ∀ i, (getCell g2 i).onPath = (getCell g i).onPath
  tIn : (getCell g t).inMaze = true
  chain : ∃ W : Finset Nat, ∃ rank : Nat → Nat,
    (∀ v, (getCell g2 v).toPtr ≠ (getCell g v).toPtr → v ∈ W) ∧
    ((getCell g start).inMaze = false → start ∈ W) ∧
    (∀ v ∈ W, (getCell g v).inMaze = false ∧
      ∃ u, (getCell g2 v).toPtr = some u ∧ u ∈ (getCell g v).neighborhood ∧
        (u = t ∨ (u ∈ W ∧ rank v < rank u)))

/-- Postconditions of a completed `RectangleMaze` generation run of a
height `h`, width `w` maze: well-formed geometry, symmetric walls, the
open-passage graph certified a spanning tree of all cells, and the
entrance and exit placed and flagged as the source places them. -/
structure GenPost (h w : Nat) (rect : Rectangle) : Prop where
  hpos : 1 ≤ h
  wmin : 6 ≤ w
  dimH : rect.g.height = h
  dimW : rect.g.width = w
  wf : WF rect.g
  sym : WallSym rect.g
  cert : TreeCert (Finset.range (h * w)) (openEdgeSet rect.g)
  entCol : rect.entrance < w / 6
  entFlag : (getCell rect.g rect.entrance).entrance = true
  entWall : (getCell rect.g rect.entrance).walls.north = false
  entUnique : ∀ i, (getCell rect.g i).entrance = true → i = rect.entrance
  exitCol : ∃ xc, rect.exit = (h - 1) * w + xc ∧ w - 1 - w / 6 < xc ∧ xc ≤ w - 1
  exitFlag : (getCell rect.g rect.exit).exit = true
  exitWall : (getCell rect.g rect.exit).walls.south = false
  exitUnique : ∀ i, (getCell rect.g i).exit = true → i = rect.exit
  unsolved : rect.solved = false

/-- Invariant of the solver's depth-first-search loop over the fixed
open-edge set `E0` with entrance cell `ent`: the entrance keeps no
predecessor and stays visited; no recorded predecessor is the exit cell;
every visited cell other than the entrance has a visited predecessor
across an open passage, with a rank function decreasing toward the
entrance; and every stacked cell is visited and in bounds. -/
structure DfsInv (E0 : Finset (Nat × Nat)) (ent : Nat) (g : Grid)
    (stack : List Nat) : Prop where
  entNone : (getCell g ent).toPtr = none
  entVis : (getCell g ent).visited = true
  entNoExit : (getCell g ent).exit = false
  noExitParent : ∀ v u, (getCell g v).toPtr = some u → (getCell g u).exit = false
  chain : ∃ rank : Nat → Nat, ∀ v, (getCell g v).visited = true → v = ent ∨
    ∃ u, (getCell g v).toPtr = some u ∧ (getCell g u).visited = true ∧
      edgeRel E0 u v ∧ rank u < rank v ∧ u < gsize g ∧ v < gsize g
  stackVis : ∀ s ∈ stack, (getCell g s).visited = true ∧ s < gsize g

/-! Concrete runs used as witnesses. -/

/-- A concrete draw stream. -/
def demoStream : Nat → Nat := fun n => n / 5

/-- A complete 2 by 6 generation run on `demoStream`. -/
def demoRun : Except Abort (Rectangle × Option String × RNG) :=
  RectangleMaze 2 6 false (mkRNG demoStream) 30

/-- The maze produced by `demoRun`. -/
def demoRect : Rectangle := (demoRun.toOption.map fun t => t.1).getD default

/-- The error value returned by `demoRun`. -/
def demoErr : Option String := (demoRun.toOption.map fun t => t.2.1).getD (some "x")

/-- The state of the random source after `demoRun`. -/
def demoRNG : RNG := (demoRun.toOption.map fun t => t.2.2).getD (mkRNG demoStream)

/-- A second generation run continuing on the same ambient source state. -/
def demoRun2 : Except Abort (Rectangle × Option String × RNG) :=
  RectangleMaze 2 6 false demoRNG 30

/-- The maze produced by `demoRun2`. -/
def demoRect2 : Rectangle := (demoRun2.toOption.map fun t => t.1).getD default

/-- A 2 by 6 run with the inline solve phase enabled. -/
def demoRunS : Except Abort (Rectangle × Option String × RNG) :=
  RectangleMaze 2 6 true (mkRNG (fun n => n / 3)) 30

/-- The maze produced by `demoRunS`. -/
def demoRectS : Rectangle := (demoRunS.toOption.map fun t => t.1).getD default

/-- Running the solver on `demoRect`. -/
def demoSolve : Except Abort Rectangle := Solve demoRect 40

/-- The solved maze. -/
def demoSolved : Rectangle := demoSolve.toOption.getD default


end Maze

namespace Maze

/-! ### Basic access lemmas -/

theorem getCell_def (g : Grid) (i : Nat) : getCell g i = (g.cells[i]?).getD default :=
  List.getD_eq_getElem?_getD ..

theorem height_modifyCell (g : Grid) (i : Nat) (f : Cell → Cell) :
    (modifyCell g i f).height = g.height := rfl

theorem width_modifyCell (g : Grid) (i : Nat) (f : Cell → Cell) :
    (modifyCell g i f).width = g.width := rfl

theorem gsize_modifyCell (g : Grid) (i : Nat) (f : Cell → Cell) :
    gsize (modifyCell g i f) = gsize g := rfl

theorem length_modifyCell (g : Grid) (i : Nat) (f : Cell → Cell) :
    (modifyCell g i f).cells.length = g.cells.length := List.length_set ..

theorem getCell_modifyCell (g : Grid) (i j : Nat) (f : Cell → Cell) :
    getCell (modifyCell g i f) j =
      if j = i ∧ i < g.cells.length then f (getCell g i) else getCell g j := by
  by_cases hij : j = i
  · subst hij
    by_cases hlt : j < g.cells.length
    · simp only [hlt, and_true, if_pos rfl, true_and, if_true]
      rw [getCell_def, modifyCell, setCell]
      simp only [List.getElem?_set_eq_of_lt _ hlt, Option.getD_some]
    · simp only [hlt, and_false, if_false]
      rw [getCell_def, getCell_def, modifyCell, setCell]
      simp only [List.getElem?_set, if_pos rfl, if_neg hlt]
      rw [List.getElem?_eq_none (by omega)]
      simp
  · simp only [hij, false_and, if_false]
    rw [getCell_def, getCell_def, modifyCell, setCell]
    rw [List.getElem?_set_ne (by omega)]

theorem getCell_modifyCell_self (g : Grid) (i : Nat) (f : Cell → Cell)
    (h : i < g.cells.length) :
    getCell (modifyCell g i f) i = f (getCell g i) := by
  rw [getCell_modifyCell, if_pos ⟨rfl, h⟩]

theorem getCell_modifyCell_ne (g : Grid) (i j : Nat) (f : Cell → Cell)
    (h : j ≠ i) :
    getCell (modifyCell g i f) j = getCell g j := by
  rw [getCell_modifyCell, if_neg (by intro hc; exact h hc.1)]

theorem getCell_clearWalk (g : Grid) (i : Nat) :
    getCell (clearWalk g) i = { getCell g i with toPtr := none } := by
  rw [getCell_def, getCell_def, clearWalk]
  simp only [List.getElem?_map]
  cases g.cells[i]? <;> rfl

theorem height_clearWalk (g : Grid) : (clearWalk g).height = g.height := rfl
theorem width_clearWalk (g : Grid) : (clearWalk g).width = g.width := rfl
theorem gsize_clearWalk (g : Grid) : gsize (clearWalk g) = gsize g := rfl

theorem length_clearWalk (g : Grid) : (clearWalk g).cells.length = g.cells.length :=
  List.length_map ..

theorem height_createGrid (h w : Nat) : (createGrid h w).height = h := rfl
theorem width_createGrid (h w : Nat) : (createGrid h w).width = w := rfl
theorem gsize_createGrid (h w : Nat) : gsize (createGrid h w) = h * w := rfl

theorem length_createGrid (h w : Nat) : (createGrid h w).cells.length = h * w := by
  simp [createGrid]

theorem getCell_createGrid (h w i : Nat) (hi : i < h * w) :
    getCell (createGrid h w) i = mkCell h w i := by
  rw [getCell_def, createGrid]
  simp only [List.getElem?_map, List.getElem?_range hi, Option.map_some', Option.getD_some]

theorem getCell_oob (g : Grid) (i : Nat) (hi : ¬ i < g.cells.length) :
    getCell g i = default := by
  rw [getCell_def, List.getElem?_eq_none (by omega), Option.getD_none]

/-! ### Skeleton (immutable geometry) and well-formedness -/

theorem SameSkel.refl (g : Grid) : SameSkel g g := ⟨rfl, rfl, rfl, fun _ => rfl⟩

theorem SameSkel.trans {g1 g2 g3 : Grid} (h12 : SameSkel g1 g2) (h23 : SameSkel g2 g3) :
    SameSkel g1 g3 :=
  ⟨h23.1.trans h12.1, h23.2.1.trans h12.2.1, h23.2.2.1.trans h12.2.2.1,
   fun i => (h23.2.2.2 i).trans (h12.2.2.2 i)⟩

theorem sameSkel_modifyCell (g : Grid) (i : Nat) (f : Cell → Cell)
    (hf : SkelPres f) : SameSkel g (modifyCell g i f) := by
  refine ⟨rfl, rfl, length_modifyCell .., fun j => ?_⟩
  rw [getCell_modifyCell]
  split
  · next hc => rw [hf, hc.1]
  · rfl

theorem sameSkel_clearWalk (g : Grid) : SameSkel g (clearWalk g) := by
  refine ⟨rfl, rfl, length_clearWalk g, fun i => ?_⟩
  rw [getCell_clearWalk]
  rfl

theorem wf_createGrid (h w : Nat) : WF (createGrid h w) := by
  refine ⟨length_createGrid h w, fun i hi => ?_⟩
  rw [getCell_createGrid h w i hi]
  rfl

theorem WF.of_sameSkel {g g' : Grid} (hwf : WF g) (hs : SameSkel g g') : WF g' := by
  obtain ⟨hh, hw, hl, hc⟩ := hs
  refine ⟨by rw [hl, hwf.1]; simp [gsize, hh, hw], fun i hi => ?_⟩
  have hi' : i < gsize g := by simpa [gsize, hh, hw] using hi
  rw [hc i, hwf.2 i hi', hh, hw]

end Maze

namespace Maze

/-! ### Geometry of `mkCell` -/

theorem mkCell_row (h w i : Nat) : (mkCell h w i).row = i / w := rfl
theorem mkCell_col (h w i : Nat) : (mkCell h w i).col = i % w := rfl

theorem mkCell_nbrN (h w i : Nat) :
    (mkCell h w i).neighbors.north = if 0 < i / w then some (i - w) else none := rfl
theorem mkCell_nbrE (h w i : Nat) :
    (mkCell h w i).neighbors.east = if i % w < w - 1 then some (i + 1) else none := rfl
theorem mkCell_nbrS (h w i : Nat) :
    (mkCell h w i).neighbors.south = if i / w < h - 1 then some (i + w) else none := rfl
theorem mkCell_nbrW (h w i : Nat) :
    (mkCell h w i).neighbors.west = if 0 < i % w then some (i - 1) else none := rfl

theorem mkCell_neighborhood (h w i : Nat) :
    (mkCell h w i).neighborhood =
      (if 0 < i / w then some (i - w) else none).toList ++
      (if i % w < w - 1 then some (i + 1) else none).toList ++
      (if i / w < h - 1 then some (i + w) else none).toList ++
      (if 0 < i % w then some (i - 1) else none).toList := rfl

theorem div_lt_of_flat {h w i : Nat} (hi : i < h * w) : i / w < h := by
  rcases Nat.eq_zero_or_pos w with hw | hw
  · subst hw; omega
  · exact Nat.div_lt_of_lt_mul (by rw [Nat.mul_comm] at hi; exact hi)

theorem flat_lt_of_div_lt {h w i : Nat} (hw : 0 < w) (hd : i / w < h) : i < h * w := by
  have h1 : w * (i / w) + i % w = i := Nat.div_add_mod i w
  have h2 : i % w < w := Nat.mod_lt i hw
  have h3 : w * (i / w + 1) ≤ w * h := Nat.mul_le_mul_left w (by omega)
  have h4 : w * (i / w + 1) = w * (i / w) + w := by ring
  have h5 : w * h = h * w := Nat.mul_comm w h
  omega

theorem div_pos_iff_le {w i : Nat} (hw : 0 < w) : 0 < i / w ↔ w ≤ i := by
  constructor
  · intro hp
    by_contra hlt
    rw [Nat.div_eq_of_lt (by omega)] at hp
    omega
  · intro hle
    exact Nat.div_pos hle hw

theorem succ_same_row {w i : Nat} (hw : 0 < w) (hc : i % w < w - 1) :
    (i + 1) / w = i / w ∧ (i + 1) % w = i % w + 1 := by
  have h1 : w * (i / w) + i % w = i := Nat.div_add_mod i w
  have heq : i + 1 = (i % w + 1) + w * (i / w) := by omega
  constructor
  · rw [heq, Nat.add_mul_div_left _ _ hw, Nat.div_eq_of_lt (by omega)]
    omega
  · rw [heq, Nat.add_mul_mod_self_left, Nat.mod_eq_of_lt (by omega)]

theorem succ_next_row {w i : Nat} (hw : 0 < w) (hc : i % w = w - 1) :
    (i + 1) / w = i / w + 1 := by
  have h1 : w * (i / w) + i % w = i := Nat.div_add_mod i w
  have heq : i + 1 = w * (i / w + 1) := by
    have hx : w * (i / w + 1) = w * (i / w) + w := by ring
    omega
  rw [heq, Nat.mul_div_cancel_left _ hw]

theorem add_w_div {w i : Nat} (hw : 0 < w) : (i + w) / w = i / w + 1 :=
  Nat.add_div_right i hw

theorem pred_same_row {w i : Nat} (hw : 0 < w) (hc : 0 < i % w) :
    (i - 1) / w = i / w ∧ 0 < i := by
  have h1 : w * (i / w) + i % w = i := Nat.div_add_mod i w
  have h2 : i % w < w := Nat.mod_lt i hw
  have hi : 0 < i := by omega
  have heq : i - 1 = (i % w - 1) + w * (i / w) := by omega
  refine ⟨?_, hi⟩
  rw [heq, Nat.add_mul_div_left _ _ hw, Nat.div_eq_of_lt (by omega)]
  omega

theorem north_case {h w i j : Nat} (hw : 0 < w) (hi : i < h * w) :
    (0 < i / w ∧ j = i - w) ↔ (i = j + w ∧ j < h * w) := by
  rw [div_pos_iff_le hw]
  omega

theorem south_case {h w i j : Nat} (hw : 0 < w) (hi : i < h * w) :
    (i / w < h - 1 ∧ j = i + w) ↔ (j = i + w ∧ j < h * w) := by
  constructor
  · rintro ⟨hr, rfl⟩
    refine ⟨rfl, flat_lt_of_div_lt hw ?_⟩
    rw [add_w_div hw]
    have : 0 < h := by
      by_contra h0
      have : h = 0 := by omega
      subst this
      omega
    omega
  · rintro ⟨rfl, hj⟩
    have h1 : (i + w) / w < h := div_lt_of_flat hj
    rw [add_w_div hw] at h1
    exact ⟨by omega, rfl⟩

theorem east_case {h w i j : Nat} (hw : 0 < w) (hi : i < h * w) :
    (i % w < w - 1 ∧ j = i + 1) ↔ (j = i + 1 ∧ j / w = i / w ∧ j < h * w) := by
  constructor
  · rintro ⟨hc, rfl⟩
    have h1 := (succ_same_row hw hc).1
    exact ⟨rfl, h1, flat_lt_of_div_lt hw (by rw [h1]; exact div_lt_of_flat hi)⟩
  · rintro ⟨rfl, hdiv, hj⟩
    refine ⟨?_, rfl⟩
    by_contra hc
    have h2 : i % w < w := Nat.mod_lt i hw
    have h3 : i % w = w - 1 := by omega
    have := succ_next_row hw h3
    omega

theorem west_case {h w i j : Nat} (hw : 0 < w) (hi : i < h * w) :
    (0 < i % w ∧ j = i - 1) ↔ (i = j + 1 ∧ i / w = j / w ∧ j < h * w) := by
  constructor
  · rintro ⟨hc, rfl⟩
    obtain ⟨hdiv, hpos⟩ := pred_same_row hw hc
    exact ⟨by omega, hdiv.symm, by omega⟩
  · rintro ⟨hij, hdiv, hj⟩
    have hji : j = i - 1 := by omega
    refine ⟨?_, hji⟩
    by_contra hc
    have h1 : w * (i / w) + i % w = i := Nat.div_add_mod i w
    have h0 : i % w = 0 := by omega
    have hq : 0 < i / w := by
      rcases Nat.eq_zero_or_pos (i / w) with hz | hp
      · exfalso
        rw [hz, Nat.mul_zero] at h1
        omega
      · exact hp
    have hjlt : j < w * (i / w) := by omega
    have : j / w < i / w := Nat.div_lt_of_lt_mul hjlt
    omega

theorem mem_neighborhood_iff {h w i : Nat} (hi : i < h * w) (j : Nat) :
    j ∈ (mkCell h w i).neighborhood ↔ IsGridNbr h w i j := by
  have hw : 0 < w := by
    rcases Nat.eq_zero_or_pos w with h0 | h0
    · subst h0; omega
    · exact h0
  rw [mkCell_neighborhood, IsGridNbr]
  simp only [List.mem_append, Option.mem_toList, Option.mem_def]
  constructor
  · intro hmem
    rcases hmem with ((hN | hE) | hS) | hW
    · rcases Nat.decLt 0 (i / w) with hr | hr
      · rw [if_neg hr] at hN; cases hN
      · rw [if_pos hr] at hN
        have := (north_case hw hi (j := j)).mp ⟨hr, by cases hN; rfl⟩
        exact ⟨this.2, Or.inr (Or.inr (Or.inr this.1))⟩
    · rcases Nat.decLt (i % w) (w - 1) with hc | hc
      · rw [if_neg hc] at hE; cases hE
      · rw [if_pos hc] at hE
        have := (east_case hw hi (j := j)).mp ⟨hc, by cases hE; rfl⟩
        exact ⟨this.2.2, Or.inl ⟨this.1, this.2.1⟩⟩
    · rcases Nat.decLt (i / w) (h - 1) with hr | hr
      · rw [if_neg hr] at hS; cases hS
      · rw [if_pos hr] at hS
        have := (south_case hw hi (j := j)).mp ⟨hr, by cases hS; rfl⟩
        exact ⟨this.2, Or.inr (Or.inr (Or.inl this.1))⟩
    · rcases Nat.decLt 0 (i % w) with hc | hc
      · rw [if_neg hc] at hW; cases hW
      · rw [if_pos hc] at hW
        have := (west_case hw hi (j := j)).mp ⟨hc, by cases hW; rfl⟩
        exact ⟨this.2.2, Or.inr (Or.inl ⟨this.1, this.2.1⟩)⟩
  · rintro ⟨hj, hcase⟩
    rcases hcase with ⟨he1, he2⟩ | ⟨hw1, hw2⟩ | hs1 | hn1
    · have := (east_case hw hi (j := j)).mpr ⟨he1, he2, hj⟩
      exact Or.inl (Or.inl (Or.inr (by rw [if_pos this.1, this.2])))
    · have := (west_case hw hi (j := j)).mpr ⟨hw1, hw2, hj⟩
      exact Or.inr (by rw [if_pos this.1, this.2])
    · have := (south_case hw hi (j := j)).mpr ⟨hs1, hj⟩
      exact Or.inl (Or.inr (by rw [if_pos this.1, this.2]))
    · have := (north_case hw hi (j := j)).mpr ⟨hn1, hj⟩
      exact Or.inl (Or.inl (Or.inl (by rw [if_pos this.1, this.2])))

end Maze

namespace Maze

theorem width_pos_of_flat {h w i : Nat} (hi : i < h * w) : 0 < w := by
  rcases Nat.eq_zero_or_pos w with h0 | h0
  · subst h0; omega
  · exact h0

theorem neighborhood_nodup {h w i : Nat} (hi : i < h * w) :
    (mkCell h w i).neighborhood.Nodup := by
  have hw : 0 < w := width_pos_of_flat hi
  have h2 : i % w < w := Nat.mod_lt i hw
  have h3 : i % w ≤ i := Nat.mod_le i w
  rw [mkCell_neighborhood]
  simp only [div_pos_iff_le hw]
  by_cases c1 : w ≤ i <;> by_cases c2 : i % w < w - 1 <;>
    by_cases c3 : i / w < h - 1 <;> by_cases c4 : 0 < i % w <;>
      simp [c1, c2, c3, c4] <;> omega

theorem neighborhood_len {h w i : Nat} (hh : 2 ≤ h) (hw2 : 2 ≤ w) (hi : i < h * w) :
    2 ≤ (mkCell h w i).neighborhood.length ∧
      (mkCell h w i).neighborhood.length ≤ 4 := by
  have hw : 0 < w := by omega
  have h2 : i % w < w := Nat.mod_lt i hw
  have hNS : 0 < i / w ∨ i / w < h - 1 := by
    rcases Nat.eq_zero_or_pos (i / w) with hz | hp
    · right; rw [hz]; omega
    · left; exact hp
  have hEW : i % w < w - 1 ∨ 0 < i % w := by omega
  rw [mkCell_neighborhood]
  simp only [div_pos_iff_le hw] at hNS ⊢
  rcases hNS with hN | hS <;> rcases hEW with hE | hW <;>
    by_cases c1 : w ≤ i <;> by_cases c2 : i % w < w - 1 <;>
      by_cases c3 : i / w < h - 1 <;> by_cases c4 : 0 < i % w <;>
        simp [c1, c2, c3, c4] <;> omega

end Maze

namespace Maze

/-! ### Claim C8: the neighborhood list -/

/-- C8 (amended): after grid construction, every in-bounds cell's
neighborhood list contains exactly the cell's existing in-bounds
grid-adjacent neighbors, with no duplicates; when both dimensions are at
least 2 its size is between 2 and 4.  (As literally stated the claim
fails on degenerate grids the constructor also accepts, e.g. 1 by 1; see
the counterexample.) -/
theorem claim_C8_neighborhood (h w i : Nat) (hi : i < h * w) :
    (∀ j, j ∈ (getCell (createGrid h w) i).neighborhood ↔ IsGridNbr h w i j) ∧
    (getCell (createGrid h w) i).neighborhood.Nodup ∧
    (2 ≤ h → 2 ≤ w →
      2 ≤ (getCell (createGrid h w) i).neighborhood.length ∧
      (getCell (createGrid h w) i).neighborhood.length ≤ 4) := by
  rw [getCell_createGrid h w i hi]
  exact ⟨fun j => mem_neighborhood_iff hi j, neighborhood_nodup hi,
         fun hh hw2 => neighborhood_len hh hw2 hi⟩

/-- C8 counterexample: the constructor accepts a 1 by 1 grid (`createGrid`
checks nothing), and there the single cell's neighborhood is empty --
its size is not between 2 and 4. -/
theorem claim_C8_counterexample :
    (getCell (createGrid 1 1) 0).neighborhood = [] ∧
    ¬ 2 ≤ (getCell (createGrid 1 1) 0).neighborhood.length := by decide

/-- C8 witness: the amended statement instantiated on a 2 by 2 grid. -/
theorem claim_C8_neighborhood_witness :
    0 < 2 * 2 ∧
    ((∀ j, j ∈ (getCell (createGrid 2 2) 0).neighborhood ↔ IsGridNbr 2 2 0 j) ∧
     (getCell (createGrid 2 2) 0).neighborhood.Nodup ∧
     (2 ≤ 2 → 2 ≤ 2 →
       2 ≤ (getCell (createGrid 2 2) 0).neighborhood.length ∧
       (getCell (createGrid 2 2) 0).neighborhood.length ≤ 4)) :=
  ⟨by decide, claim_C8_neighborhood 2 2 0 (by decide)⟩

/-! ### Claim C5: configuration errors -/

/-- C5: the code has no configuration-error path at all.  A 1 by 1 maze
request runs the whole generation phase and then panics inside
`rand.Intn(width/6)` (`width/6 = 0`), instead of reporting a
configuration error before generation begins; the spec requires a 1 by 1
grid not to crash and small widths to yield a configuration error. -/
theorem claim_C5_one_by_one_panics :
    RectangleMaze 1 1 false (mkRNG (fun n => n)) 100 =
      .error (.panic "Intn n out of range") ∧
    RectangleMaze 0 6 false (mkRNG (fun n => n)) 100 =
      .error (.panic "index out of range") := by
  constructor <;> rfl

/-! ### Claim C7: state reset at solver start -/

/-- C7 (amended): at the start of the solver the only reset performed is
`clearWalk`: every cell's transient exit pointer is cleared to `none`,
while the visited and on-path flags (and all other fields) are left
exactly as they were. -/
theorem claim_C7_solver_start (g : Grid) (i : Nat) :
    (getCell (clearWalk g) i).toPtr = none ∧
    (getCell (clearWalk g) i).visited = (getCell g i).visited ∧
    (getCell (clearWalk g) i).onPath = (getCell g i).onPath := by
  rw [getCell_clearWalk]
  exact ⟨rfl, rfl, rfl⟩

/-- C7 counterexample: on a maze generated with the inline solve phase
(which leaves `solved = false`, so `Solve` runs again), the state right
after the solver's initial `clearWalk` still has visited flags set: the
solver does not reset visited/on-path flags. -/
theorem claim_C7_counterexample :
    demoRunS.toOption.isSome = true ∧
    demoRectS.solved = false ∧
    ((List.range 12).filter fun i => (getCell (clearWalk demoRectS.g) i).visited = true) ≠
      [] := by
  refine ⟨by decide!, by decide!, by decide!⟩

/-! ### Claim C9: the error result is always nil -/

theorem no_error_aux (h w : Nat) (solve : Bool) (r : RNG) (fuel : Nat)
    (rect : Rectangle) (err : Option String) (r2 : RNG)
    (hok : RectangleMaze h w solve r fuel = .ok (rect, err, r2)) : err = none := by
  unfold RectangleMaze at hok
  simp only [] at hok
  repeat' split at hok
  all_goals simp_all

/-- C9: whenever `RectangleMaze` returns (rather than panicking or
diverging), the error component of its result is `nil`: the single
`return` site always pairs the maze with a `nil` error. -/
theorem claim_C9_no_error (h w : Nat) (solve : Bool) (r : RNG) (fuel : Nat)
    (err : Option String)
    (hok : (RectangleMaze h w solve r fuel).toOption.map (fun t => t.2.1) = some err) :
    err = none := by
  cases hrun : RectangleMaze h w solve r fuel with
  | error e => rw [hrun] at hok; cases hok
  | ok t =>
    obtain ⟨rect, e, r2⟩ := t
    have he := no_error_aux h w solve r fuel rect e r2 hrun
    rw [hrun] at hok
    simp only [Except.toOption, Option.map_some', Option.some.injEq] at hok
    rw [← hok, he]

/-- C9 witness: the concrete 2 by 6 run returns a `nil` error. -/
theorem claim_C9_no_error_witness : demoErr = none :=
  claim_C9_no_error 2 6 false (mkRNG demoStream) 30 demoErr (by decide!)

/-! ### Claim C3: explicit random state and determinism -/

/-- C3 (amended): generation is a deterministic function of the random
source state it reads: two runs from extensionally equal source states
with the same dimensions produce identical results (same shuffle, same
walks, same entrance/exit, same walls).  The generator itself, however,
takes no random-state parameter in the Go API: it reads the ambient
global source, which the run advances -- see the counterexample. -/
theorem claim_C3_deterministic (h w : Nat) (solve : Bool) (r r2 : RNG) (fuel : Nat)
    (hf : ∀ n, r.f n = r2.f n) (hp : r.pos = r2.pos) :
    RectangleMaze h w solve r fuel = RectangleMaze h w solve r2 fuel := by
  have hr : r = r2 := by
    cases r
    cases r2
    simp only [RNG.mk.injEq]
    exact ⟨funext hf, hp⟩
  rw [hr]

/-- C3 witness: determinism instantiated at the concrete demo stream. -/
theorem claim_C3_deterministic_witness :
    RectangleMaze 2 6 false (mkRNG demoStream) 30 =
      RectangleMaze 2 6 false (mkRNG demoStream) 30 :=
  claim_C3_deterministic 2 6 false (mkRNG demoStream) (mkRNG demoStream) 30
    (fun _ => rfl) rfl

/-- C3 counterexample: the claim as stated fails on the code because
randomness is ambient, not an explicit per-call state.  Two consecutive
calls in one process, under one seeding of the shared global source
(`demoRun`, then `demoRun2` which continues on the state `demoRun`
returned), both succeed yet produce different wall configurations: the
second "run with the same seed" does not reproduce the first. -/
theorem claim_C3_counterexample :
    demoRun2.toOption.isSome = true ∧
    demoRun.toOption.map (fun t => t.1.g) ≠ demoRun2.toOption.map (fun t => t.1.g) := by
  refine ⟨by decide!, by decide!⟩

end Maze

namespace Maze

/-! ### Generic single-field preservation -/

theorem modify_pres {α : Type} (sel : Cell → α) (g : Grid) (i : Nat) (f : Cell → Cell)
    (hf : ∀ c, sel (f c) = sel c) (j : Nat) :
    sel (getCell (modifyCell g i f) j) = sel (getCell g j) := by
  rw [getCell_modifyCell]
  split
  · next hc => rw [hf, hc.1]
  · rfl

/-! ### Well-formedness consequences -/

theorem wf_fields {g : Grid} (hwf : WF g) {i : Nat} (hi : i < gsize g) :
    (getCell g i).row = (mkCell g.height g.width i).row ∧
    (getCell g i).col = (mkCell g.height g.width i).col ∧
    (getCell g i).neighbors = (mkCell g.height g.width i).neighbors ∧
    (getCell g i).neighborhood = (mkCell g.height g.width i).neighborhood := by
  have h := hwf.2 i hi
  unfold skeleton at h
  exact ⟨congrArg (fun t => t.1) h, congrArg (fun t => t.2.1) h,
         congrArg (fun t => t.2.2.1) h, congrArg (fun t => t.2.2.2) h⟩

theorem wf_mem_nbhd {g : Grid} (hwf : WF g) {i : Nat} (hi : i < gsize g) (j : Nat) :
    j ∈ (getCell g i).neighborhood ↔ IsGridNbr g.height g.width i j := by
  rw [(wf_fields hwf hi).2.2.2]
  exact mem_neighborhood_iff (by rw [← gsize]; exact hi) j

theorem dirNeighbor_mkCell (h w i : Nat) (d : Dir) :
    dirNeighbor (mkCell h w i) d =
      match d with
      | .north => if 0 < i / w then some (i - w) else none
      | .east => if i % w < w - 1 then some (i + 1) else none
      | .south => if i / w < h - 1 then some (i + w) else none
      | .west => if 0 < i % w then some (i - 1) else none := by
  cases d <;> rfl

/-- A cell's direction-indexed neighbor fields and its neighborhood list
agree: `j` is listed iff it is some directional neighbor. -/
theorem wf_nbhd_iff_dir {g : Grid} (hwf : WF g) {i : Nat} (hi : i < gsize g) (j : Nat) :
    j ∈ (getCell g i).neighborhood ↔ ∃ d, dirNeighbor (getCell g i) d = some j := by
  rw [(wf_fields hwf hi).2.2.2]
  have hnb := (wf_fields hwf hi).2.2.1
  rw [mkCell_neighborhood]
  simp only [List.mem_append, Option.mem_toList, Option.mem_def]
  have hdir : ∀ d, dirNeighbor (getCell g i) d =
      dirNeighbor (mkCell g.height g.width i) d := by
    intro d
    cases d <;> simp only [dirNeighbor] <;> rw [hnb]
  constructor
  · rintro (((hN | hE) | hS) | hW)
    · exact ⟨.north, by rw [hdir, dirNeighbor_mkCell]; exact hN⟩
    · exact ⟨.east, by rw [hdir, dirNeighbor_mkCell]; exact hE⟩
    · exact ⟨.south, by rw [hdir, dirNeighbor_mkCell]; exact hS⟩
    · exact ⟨.west, by rw [hdir, dirNeighbor_mkCell]; exact hW⟩
  · rintro ⟨d, hd⟩
    rw [hdir, dirNeighbor_mkCell] at hd
    cases d
    · exact Or.inl (Or.inl (Or.inl hd))
    · exact Or.inl (Or.inl (Or.inr hd))
    · exact Or.inl (Or.inr hd)
    · exact Or.inr hd

/-- Directional neighbors are symmetric under well-formed geometry. -/
theorem wf_nbr_symm {g : Grid} (hwf : WF g) {i j : Nat} {d : Dir} (hi : i < gsize g)
    (hd : dirNeighbor (getCell g i) d = some j) :
    j < gsize g ∧ dirNeighbor (getCell g j) (oppDir d) = some i ∧ j ≠ i := by
  have hw : 0 < g.width := by
    have := hi
    unfold gsize at this
    exact width_pos_of_flat this
  have hnb := (wf_fields hwf hi).2.2.1
  have hdir : ∀ dd, dirNeighbor (getCell g i) dd =
      dirNeighbor (mkCell g.height g.width i) dd := by
    intro dd
    cases dd <;> simp only [dirNeighbor] <;> rw [hnb]
  rw [hdir, dirNeighbor_mkCell] at hd
  have hglt : i < g.height * g.width := hi
  cases d with
  | north =>
    simp only [] at hd
    split at hd
    · next hr =>
      cases hd
      have hcase := (north_case hw hglt (j := i - g.width)).mp ⟨hr, rfl⟩
      have hj : i - g.width < gsize g := hcase.2
      refine ⟨hj, ?_, by omega⟩
      have hdir2 : ∀ dd, dirNeighbor (getCell g (i - g.width)) dd =
          dirNeighbor (mkCell g.height g.width (i - g.width)) dd := by
        intro dd
        cases dd <;> simp only [dirNeighbor] <;> rw [(wf_fields hwf hj).2.2.1]
      rw [hdir2, dirNeighbor_mkCell]
      simp only [oppDir]
      have hs := (south_case hw (i := i - g.width) (j := i) hj).mpr ⟨by omega, hglt⟩
      rw [if_pos hs.1]
      exact congrArg some (by omega)
    · cases hd
  | east =>
    simp only [] at hd
    split at hd
    · next hc =>
      cases hd
      have hcase := (east_case hw hglt (j := i + 1)).mp ⟨hc, rfl⟩
      have hj : i + 1 < gsize g := hcase.2.2
      refine ⟨hj, ?_, by omega⟩
      have hdir2 : ∀ dd, dirNeighbor (getCell g (i + 1)) dd =
          dirNeighbor (mkCell g.height g.width (i + 1)) dd := by
        intro dd
        cases dd <;> simp only [dirNeighbor] <;> rw [(wf_fields hwf hj).2.2.1]
      rw [hdir2, dirNeighbor_mkCell]
      simp only [oppDir]
      have hwst := (west_case hw (i := i + 1) (j := i) hj).mpr ⟨rfl, hcase.2.1, hglt⟩
      rw [if_pos hwst.1]
      exact congrArg some (by omega)
    · cases hd
  | south =>
    simp only [] at hd
    split at hd
    · next hr =>
      cases hd
      have hcase := (south_case hw hglt (j := i + g.width)).mp ⟨hr, rfl⟩
      have hj : i + g.width < gsize g := hcase.2
      refine ⟨hj, ?_, by omega⟩
      have hdir2 : ∀ dd, dirNeighbor (getCell g (i + g.width)) dd =
          dirNeighbor (mkCell g.height g.width (i + g.width)) dd := by
        intro dd
        cases dd <;> simp only [dirNeighbor] <;> rw [(wf_fields hwf hj).2.2.1]
      rw [hdir2, dirNeighbor_mkCell]
      simp only [oppDir]
      have hn := (north_case hw (i := i + g.width) (j := i) hj).mpr ⟨rfl, hglt⟩
      rw [if_pos hn.1]
      exact congrArg some (by omega)
    · cases hd
  | west =>
    simp only [] at hd
    split at hd
    · next hc =>
      cases hd
      have hcase := (west_case hw hglt (j := i - 1)).mp ⟨hc, rfl⟩
      have hj : i - 1 < gsize g := hcase.2.2
      refine ⟨hj, ?_, by omega⟩
      have hdir2 : ∀ dd, dirNeighbor (getCell g (i - 1)) dd =
          dirNeighbor (mkCell g.height g.width (i - 1)) dd := by
        intro dd
        cases dd <;> simp only [dirNeighbor] <;> rw [(wf_fields hwf hj).2.2.1]
      rw [hdir2, dirNeighbor_mkCell]
      simp only [oppDir]
      have he := (east_case hw (i := i - 1) (j := i) hj).mpr
        ⟨by omega, hcase.2.1, hglt⟩
      rw [if_pos he.1]
      exact congrArg some (by omega)
    · cases hd

end Maze

namespace Maze

theorem getD_mem {l : List Nat} {j : Nat} (hj : j < l.length) : l.getD j 0 ∈ l := by
  rw [List.getD_eq_getElem?_getD, List.getElem?_eq_getElem hj]
  exact List.getElem_mem hj

/-! ### Unfolding equations for the walk loop -/

theorem walkLoop_zero (g : Grid) (start : Nat) (r : RNG) :
    walkLoop g start r 0 = .error .outOfFuel := rfl

theorem walkLoop_succ_in {g : Grid} {start : Nat} (r : RNG) (n : Nat)
    (hin : (getCell g start).inMaze = true) :
    walkLoop g start r (n + 1) = .ok (g, start, r) := by
  rw [walkLoop, if_pos hin]

theorem walkLoop_succ_nil {g : Grid} {start : Nat} (r : RNG) (n : Nat)
    (hin : (getCell g start).inMaze = false)
    (hnbd : (getCell g start).neighborhood = []) :
    walkLoop g start r (n + 1) = .error (.panic "Intn n out of range") := by
  rw [walkLoop, if_neg (by rw [hin]; simp), hnbd]

theorem walkLoop_succ_step {g : Grid} {start : Nat} (r : RNG) (n : Nat)
    (hin : (getCell g start).inMaze = false) {a : Nat} {as : List Nat}
    (hnbd : (getCell g start).neighborhood = a :: as) :
    walkLoop g start r (n + 1) =
      walkLoop
        (modifyCell g start fun c =>
          { c with toPtr := some ((a :: as).getD (r.f r.pos % (a :: as).length) 0) })
        ((a :: as).getD (r.f r.pos % (a :: as).length) 0) (rngTail r) n := by
  rw [walkLoop, if_neg (by rw [hin]; simp), hnbd]
  rfl

/-! ### The walk postcondition -/

set_option maxHeartbeats 2000000 in
theorem walkLoop_spec : ∀ (fuel : Nat) (g : Grid) (start : Nat) (r : RNG)
    (g2 : Grid) (t : Nat) (r2 : RNG),
    walkLoop g start r fuel = .ok (g2, t, r2) → WalkPost g g2 start t := by
  intro fuel
  induction fuel with
  | zero =>
    intro g start r g2 t r2 hok
    rw [walkLoop_zero] at hok
    exact Except.noConfusion hok
  | succ n ih =>
    intro g start r g2 t r2 hok
    rcases hb : (getCell g start).inMaze with _ | _
    · rcases hnbd : (getCell g start).neighborhood with _ | ⟨a, as⟩
      · rw [walkLoop_succ_nil r n hb hnbd] at hok
        exact Except.noConfusion hok
      · rw [walkLoop_succ_step r n hb hnbd] at hok
        have hsl : start < g.cells.length := by
          by_contra hoob
          rw [getCell_oob g start hoob] at hnbd
          have hempty : ([] : List Nat) = a :: as := hnbd
          cases hempty
        set nb := (a :: as).getD (r.f r.pos % (a :: as).length) 0 with hnbdef
        set m := modifyCell g start (fun c => { c with toPtr := some nb }) with hm
        have hnbmem : nb ∈ (getCell g start).neighborhood := by
          rw [hnbd, hnbdef]
          exact getD_mem (Nat.mod_lt _ (by simp))
        have hpres : ∀ i, (getCell m i).walls = (getCell g i).walls ∧
            (getCell m i).inMaze = (getCell g i).inMaze ∧
            (getCell m i).entrance = (getCell g i).entrance ∧
            (getCell m i).exit = (getCell g i).exit ∧
            (getCell m i).visited = (getCell g i).visited ∧
            (getCell m i).onPath = (getCell g i).onPath ∧
            (getCell m i).neighborhood = (getCell g i).neighborhood := by
          intro i
          rw [hm]
          exact ⟨modify_pres (fun c => c.walls) g start
                   (fun c => { c with toPtr := some nb }) (fun _ => rfl) i,
                 modify_pres (fun c => c.inMaze) g start
                   (fun c => { c with toPtr := some nb }) (fun _ => rfl) i,
                 modify_pres (fun c => c.entrance) g start
                   (fun c => { c with toPtr := some nb }) (fun _ => rfl) i,
                 modify_pres (fun c => c.exit) g start
                   (fun c => { c with toPtr := some nb }) (fun _ => rfl) i,
                 modify_pres (fun c => c.visited) g start
                   (fun c => { c with toPtr := some nb }) (fun _ => rfl) i,
                 modify_pres (fun c => c.onPath) g start
                   (fun c => { c with toPtr := some nb }) (fun _ => rfl) i,
                 modify_pres (fun c => c.neighborhood) g start
                   (fun c => { c with toPtr := some nb }) (fun _ => rfl) i⟩
        have hmto : ∀ i, i ≠ start → (getCell m i).toPtr = (getCell g i).toPtr := by
          intro i hne
          rw [hm, getCell_modifyCell_ne _ _ _ _ hne]
        have hmstart : (getCell m start).toPtr = some nb := by
          rw [hm, getCell_modifyCell_self _ _ _ hsl]
        have post := ih m nb (rngTail r) g2 t r2 hok
        have hskelgm : SameSkel g m := by
          rw [hm]
          exact sameSkel_modifyCell g start
            (fun c => { c with toPtr := some nb }) (fun _ => rfl)
        refine ⟨SameSkel.trans hskelgm post.skel,
                fun i => (post.walls i).trans (hpres i).1,
                fun i => (post.inM i).trans (hpres i).2.1,
                fun i => (post.entF i).trans (hpres i).2.2.1,
                fun i => (post.exitF i).trans (hpres i).2.2.2.1,
                fun i => (post.vis i).trans (hpres i).2.2.2.2.1,
                fun i => (post.onP i).trans (hpres i).2.2.2.2.2.1,
                (hpres t).2.1 ▸ post.tIn, ?_⟩
        obtain ⟨W1, rank1, hchg, hstart1, hmem1⟩ := post.chain
        by_cases hsW : start ∈ W1
        · refine ⟨W1, rank1, ?_, fun _ => hsW, ?_⟩
          · intro v hv
            by_cases hvs : v = start
            · exact hvs ▸ hsW
            · exact hchg v (by rw [← hmto v hvs] at hv; exact hv)
          · intro v hv
            obtain ⟨hvin, u, hu1, hu2, hu3⟩ := hmem1 v hv
            exact ⟨((hpres v).2.1).symm.trans hvin, u, hu1,
                   (hpres v).2.2.2.2.2.2 ▸ hu2, hu3⟩
        · refine ⟨insert start W1,
                  (fun v => if v = start then 0 else rank1 v + 1), ?_, ?_, ?_⟩
          · intro v hv
            by_cases hvs : v = start
            · exact hvs ▸ Finset.mem_insert_self start W1
            · exact Finset.mem_insert_of_mem
                (hchg v (by rw [← hmto v hvs] at hv; exact hv))
          · intro _
            exact Finset.mem_insert_self start W1
          · intro v hv
            rcases Finset.mem_insert.mp hv with hvs | hvW
            · subst hvs
              have hg2v : (getCell g2 v).toPtr = (getCell m v).toPtr := by
                by_contra hne
                exact hsW (hchg v hne)
              refine ⟨hb, nb, hg2v.trans hmstart, hnbmem, ?_⟩
              rcases hnbin : (getCell m nb).inMaze with _ | _
              · have hnbW1 : nb ∈ W1 := hstart1 hnbin
                have hnbne : nb ≠ v := fun hc => hsW (hc ▸ hnbW1)
                refine Or.inr ⟨Finset.mem_insert_of_mem hnbW1, ?_⟩
                simp [hnbne]
              · -- the sub-walk returned immediately: nb = t
                left
                cases n with
                | zero =>
                  rw [walkLoop_zero] at hok
                  exact Except.noConfusion hok
                | succ k =>
                  rw [walkLoop_succ_in (rngTail r) k hnbin] at hok
                  injection hok with hpair
                  exact congrArg (fun q => q.2.1) hpair
            · obtain ⟨hvin, u, hu1, hu2, hu3⟩ := hmem1 v hvW
              have hvne : v ≠ start := fun hc => hsW (hc ▸ hvW)
              refine ⟨((hpres v).2.1).symm.trans hvin, u, hu1,
                      (hpres v).2.2.2.2.2.2 ▸ hu2, ?_⟩
              rcases hu3 with hu3 | ⟨huW, hur⟩
              · exact Or.inl hu3
              · have hune : u ≠ start := fun hc => hsW (hc ▸ huW)
                refine Or.inr ⟨Finset.mem_insert_of_mem huW, ?_⟩
                simp only [if_neg hvne, if_neg hune]
                omega
    · rw [walkLoop_succ_in r n hb] at hok
      obtain ⟨rfl, rfl, rfl⟩ : g = g2 ∧ start = t ∧ r = r2 := by
        cases hok
        exact ⟨rfl, rfl, rfl⟩
      refine ⟨SameSkel.refl g, fun _ => rfl, fun _ => rfl, fun _ => rfl, fun _ => rfl,
        fun _ => rfl, fun _ => rfl, hb, ∅, fun _ => 0, ?_, ?_, ?_⟩
      · intro v hv
        exact absurd rfl hv
      · intro hfalse
        rw [hb] at hfalse
        cases hfalse
      · intro v hv
        cases hv

end Maze

namespace Maze

/-- A pointer chain can be extracted from the walk's rank-ordered
pointer structure: from any cell of `W` the recorded pointers lead to
`t` without revisiting a cell. -/
theorem chain_extract {g : Grid} {t : Nat} (W : Finset Nat) (rank : Nat → Nat)
    (htin : (getCell g t).inMaze = true)
    (hmem : ∀ v ∈ W, (getCell g v).inMaze = false ∧
      ∃ u, (getCell g v).toPtr = some u ∧ u ∈ (getCell g v).neighborhood ∧
        (u = t ∨ (u ∈ W ∧ rank v < rank u))) :
    ∀ v ∈ W, ∃ l, PtrChain g v (v :: l) ∧
      (∀ x ∈ v :: l, x = t ∨ (x ∈ W ∧ rank v ≤ rank x)) := by
  have main : ∀ (k : Nat) (v : Nat), v ∈ W →
      (W.filter fun x => rank v < rank x).card ≤ k →
      ∃ l, PtrChain g v (v :: l) ∧
        (∀ x ∈ v :: l, x = t ∨ (x ∈ W ∧ rank v ≤ rank x)) := by
    intro k
    induction k with
    | zero =>
      intro v hv hcard
      obtain ⟨hvin, u, hu1, hu2, hu3⟩ := hmem v hv
      rcases hu3 with rfl | ⟨huW, hur⟩
      · refine ⟨[u], PtrChain.step v hvin hu1 hu2 (PtrChain.last u htin) ?_, ?_⟩
        · intro hvu
          rw [List.mem_singleton] at hvu
          rw [hvu, htin] at hvin
          cases hvin
        · intro x hx
          rcases List.mem_cons.mp hx with rfl | hx
          · exact Or.inr ⟨hv, le_refl _⟩
          · rw [List.mem_singleton] at hx
            exact Or.inl hx
      · exfalso
        have : u ∈ W.filter fun x => rank v < rank x :=
          Finset.mem_filter.mpr ⟨huW, hur⟩
        have := Finset.card_pos.mpr ⟨u, this⟩
        omega
    | succ k ihk =>
      intro v hv hcard
      obtain ⟨hvin, u, hu1, hu2, hu3⟩ := hmem v hv
      rcases hu3 with rfl | ⟨huW, hur⟩
      · refine ⟨[u], PtrChain.step v hvin hu1 hu2 (PtrChain.last u htin) ?_, ?_⟩
        · intro hvu
          rw [List.mem_singleton] at hvu
          rw [hvu, htin] at hvin
          cases hvin
        · intro x hx
          rcases List.mem_cons.mp hx with rfl | hx
          · exact Or.inr ⟨hv, le_refl _⟩
          · rw [List.mem_singleton] at hx
            exact Or.inl hx
      · have hsub : (W.filter fun x => rank u < rank x) ⊆
            ((W.filter fun x => rank v < rank x).erase u) := by
          intro x hx
          obtain ⟨hxW, hxr⟩ := Finset.mem_filter.mp hx
          refine Finset.mem_erase.mpr ⟨?_, Finset.mem_filter.mpr ⟨hxW, by omega⟩⟩
          intro hxu
          rw [hxu] at hxr
          omega
        have hcard2 : (W.filter fun x => rank u < rank x).card ≤ k := by
          have h1 := Finset.card_le_card hsub
          have h2 : ((W.filter fun x => rank v < rank x).erase u).card <
              (W.filter fun x => rank v < rank x).card :=
            Finset.card_erase_lt_of_mem (Finset.mem_filter.mpr ⟨huW, hur⟩)
          omega
        obtain ⟨lu, hchu, hprop⟩ := ihk u huW hcard2
        have hvnotin : v ∉ u :: lu := by
          intro hvin2
          rcases hprop v hvin2 with rfl | ⟨_, hle⟩
          · rw [htin] at hvin
            cases hvin
          · omega
        refine ⟨u :: lu, PtrChain.step v hvin hu1 hu2 hchu hvnotin, ?_⟩
        intro x hx
        rcases List.mem_cons.mp hx with rfl | hx
        · exact Or.inr ⟨hv, le_refl _⟩
        · rcases hprop x hx with hxt | ⟨hxW, hxr⟩
          · exact Or.inl hxt
          · exact Or.inr ⟨hxW, by omega⟩
  intro v hv
  exact main _ v hv (le_refl _)

end Maze

namespace Maze

theorem mem_openEdgeSet {g : Grid} {p : Nat × Nat} :
    p ∈ openEdgeSet g ↔ openPair g p := by
  rw [openEdgeSet, Finset.mem_filter]
  constructor
  · exact fun h => h.2
  · intro hp
    refine ⟨Finset.mem_product.mpr ⟨Finset.mem_range.mpr ?_, Finset.mem_range.mpr ?_⟩, hp⟩
    · rcases hp with ⟨_, hE⟩ | ⟨_, hS⟩
      · exact hE.1
      · have := hS.1
        omega
    · rcases hp with ⟨h2, hE⟩ | ⟨h2, hS⟩
      · obtain ⟨h1, hcol, _⟩ := hE
        have hw : 0 < g.width := by omega
        rw [h2]
        have hdiv := (succ_same_row hw (by omega : p.1 % g.width < g.width - 1)).1
        exact flat_lt_of_div_lt hw (by rw [hdiv]; exact div_lt_of_flat h1)
      · rw [h2]
        exact hS.1

theorem openEdgeSet_clear_east {g g' : Grid} (a : Nat)
    (hh : g'.height = g.height) (hw : g'.width = g.width)
    (heast : ∀ i, (getCell g' i).walls.east =
      (if i = a then false else (getCell g i).walls.east))
    (hsouth : ∀ i, (getCell g' i).walls.south = (getCell g i).walls.south)
    (ha : a < gsize g) (hcol : a % g.width + 1 < g.width) :
    openEdgeSet g' = insert (a, a + 1) (openEdgeSet g) := by
  have hgs : gsize g' = gsize g := by rw [gsize, gsize, hh, hw]
  ext p
  rw [Finset.mem_insert, mem_openEdgeSet, mem_openEdgeSet]
  unfold openPair openPairE openPairS
  rw [hgs, hw, heast, hsouth]
  constructor
  · rintro (⟨h2, h1, hc, hflag⟩ | ⟨h2, h1, hwpos, hflag⟩)
    · by_cases hpa : p.1 = a
      · left
        rw [Prod.ext_iff]
        exact ⟨hpa, by rw [h2, hpa]⟩
      · right
        rw [if_neg hpa] at hflag
        exact Or.inl ⟨h2, h1, hc, hflag⟩
    · exact Or.inr (Or.inr ⟨h2, h1, hwpos, hflag⟩)
  · rintro (hp | (⟨h2, h1, hc, hflag⟩ | ⟨h2, h1, hwpos, hflag⟩))
    · rw [hp]
      refine Or.inl ⟨rfl, ha, hcol, by rw [if_pos rfl]⟩
    · refine Or.inl ⟨h2, h1, hc, ?_⟩
      split
      · rfl
      · exact hflag
    · exact Or.inr ⟨h2, h1, hwpos, hflag⟩

theorem openEdgeSet_clear_south {g g' : Grid} (a : Nat)
    (hh : g'.height = g.height) (hw : g'.width = g.width)
    (heast : ∀ i, (getCell g' i).walls.east = (getCell g i).walls.east)
    (hsouth : ∀ i, (getCell g' i).walls.south =
      (if i = a then false else (getCell g i).walls.south))
    (ha : a + g.width < gsize g) (hwpos : 0 < g.width) :
    openEdgeSet g' = insert (a, a + g.width) (openEdgeSet g) := by
  have hgs : gsize g' = gsize g := by rw [gsize, gsize, hh, hw]
  ext p
  rw [Finset.mem_insert, mem_openEdgeSet, mem_openEdgeSet]
  unfold openPair openPairE openPairS
  rw [hgs, hw, heast, hsouth]
  constructor
  · rintro (⟨h2, h1, hc, hflag⟩ | ⟨h2, h1, hwp, hflag⟩)
    · exact Or.inr (Or.inl ⟨h2, h1, hc, hflag⟩)
    · by_cases hpa : p.1 = a
      · left
        rw [Prod.ext_iff]
        exact ⟨hpa, by rw [h2, hpa]⟩
      · right
        rw [if_neg hpa] at hflag
        exact Or.inr ⟨h2, h1, hwp, hflag⟩
  · rintro (hp | (⟨h2, h1, hc, hflag⟩ | ⟨h2, h1, hwp, hflag⟩))
    · rw [hp]
      refine Or.inr ⟨rfl, ha, hwpos, by rw [if_pos rfl]⟩
    · exact Or.inl ⟨h2, h1, hc, hflag⟩
    · refine Or.inr ⟨h2, h1, hwp, ?_⟩
      split
      · rfl
      · exact hflag

end Maze

namespace Maze

theorem oppDir_oppDir (d : Dir) : oppDir (oppDir d) = d := by cases d <;> rfl

theorem oppDir_ne (d : Dir) : oppDir d ≠ d := by cases d <;> simp [oppDir]

theorem dirNeighbor_skel {g g' : Grid} (hs : SameSkel g g') (i : Nat) (d : Dir) :
    dirNeighbor (getCell g' i) d = dirNeighbor (getCell g i) d := by
  have h := hs.2.2.2 i
  unfold skeleton at h
  have hn : (getCell g' i).neighbors = (getCell g i).neighbors :=
    congrArg (fun t => t.2.2.1) h
  cases d <;> simp only [dirNeighbor] <;> rw [hn]

theorem dirNeighbor_oob {g : Grid} {i : Nat} (hi : ¬ i < g.cells.length) (d : Dir) :
    dirNeighbor (getCell g i) d = none := by
  rw [getCell_oob g i hi]
  cases d <;> rfl

/-- Flag bookkeeping for the two-sided wall clearing: only the `d` flag of
`src` and the opposite flag of `dst` change, both to `false`. -/
theorem clearPair_flags {g : Grid} {src dst : Nat} (hne : dst ≠ src)
    (hsl : src < g.cells.length) (hdl : dst < g.cells.length)
    (f1 f2 : Cell → Cell) (d : Dir)
    (h1 : ∀ c e, dirWall (f1 c) e = if e = d then false else dirWall c e)
    (h2 : ∀ c e, dirWall (f2 c) e = if e = oppDir d then false else dirWall c e) :
    ∀ i e, dirWall (getCell (modifyCell (modifyCell g src f1) dst f2) i) e =
      if (i = src ∧ e = d) ∨ (i = dst ∧ e = oppDir d) then false
      else dirWall (getCell g i) e := by
  intro i e
  have hdl2 : dst < (modifyCell g src f1).cells.length := by
    rw [length_modifyCell]
    exact hdl
  by_cases hid : i = dst
  · subst hid
    rw [getCell_modifyCell_self _ _ _ hdl2, h2,
        getCell_modifyCell_ne _ _ _ _ hne]
    by_cases hed : e = oppDir d
    · rw [if_pos hed, if_pos (Or.inr ⟨rfl, hed⟩)]
    · rw [if_neg hed]
      by_cases hes : i = src ∧ e = d
      · obtain ⟨his, hed2⟩ := hes
        exact absurd his hne
      · rw [if_neg (by rintro (⟨h1', h2'⟩ | ⟨h1', h2'⟩)
              <;> [exact hne h1'; exact hed h2'])]
  · rw [getCell_modifyCell_ne _ _ _ _ hid]
    by_cases his : i = src
    · subst his
      rw [getCell_modifyCell_self _ _ _ hsl, h1]
      by_cases hed : e = d
      · rw [if_pos hed, if_pos (Or.inl ⟨rfl, hed⟩)]
      · rw [if_neg hed,
            if_neg (by rintro (⟨h1', h2'⟩ | ⟨h1', h2'⟩)
              <;> [exact hed h2'; exact hid h1'])]
    · rw [getCell_modifyCell_ne _ _ _ _ his,
          if_neg (by rintro (⟨h1', h2'⟩ | ⟨h1', h2'⟩)
            <;> [exact his h1'; exact hid h1'])]

/-- Wall symmetry is preserved when the two facing flags of one wall are
cleared together. -/
theorem wallSym_pair_clear {g g' : Grid} (hwf : WF g) (hsym : WallSym g)
    {src dst : Nat} {d : Dir} (hsrc : src < gsize g)
    (hdir : dirNeighbor (getCell g src) d = some dst)
    (hskel : SameSkel g g')
    (hflags : ∀ i e, dirWall (getCell g' i) e =
      if (i = src ∧ e = d) ∨ (i = dst ∧ e = oppDir d) then false
      else dirWall (getCell g i) e) :
    WallSym g' := by
  have hsymdst := wf_nbr_symm hwf hsrc hdir
  intro i e j hj
  rw [dirNeighbor_skel hskel] at hj
  have hil : i < gsize g := by
    by_contra hoob
    rw [dirNeighbor_oob (by rw [hwf.1]; exact hoob) e] at hj
    cases hj
  rw [hflags, hflags]
  by_cases hc1 : i = src ∧ e = d
  · obtain ⟨rfl, rfl⟩ := hc1
    have hjd : j = dst := by
      rw [hdir] at hj
      exact (Option.some.injEq _ _).mp hj.symm
    rw [if_pos (Or.inl ⟨rfl, rfl⟩), if_pos (Or.inr ⟨hjd, rfl⟩)]
  · by_cases hc2 : i = dst ∧ e = oppDir d
    · obtain ⟨rfl, rfl⟩ := hc2
      have hjs : j = src := by
        rw [hsymdst.2.1] at hj
        exact (Option.some.injEq _ _).mp hj.symm
      rw [if_pos (Or.inr ⟨rfl, rfl⟩),
          if_pos (Or.inl ⟨hjs, by rw [oppDir_oppDir]⟩)]
    · rw [if_neg (by rintro (h | h) <;> [exact hc1 h; exact hc2 h])]
      have hjchanged : ¬ ((j = src ∧ oppDir e = d) ∨ (j = dst ∧ oppDir e = oppDir d)) := by
        rintro (⟨rfl, hde⟩ | ⟨rfl, hde⟩)
        · -- i's (oppDir d)-neighbor is src, so i must be dst
          have he : e = oppDir d := by rw [← hde, oppDir_oppDir]
          rw [he] at hj
          have := wf_nbr_symm hwf hil hj
          rw [oppDir_oppDir] at this
          have hisym := this.2.1
          rw [hdir] at hisym
          exact hc2 ⟨((Option.some.injEq _ _).mp hisym.symm).symm ▸ rfl, he⟩
        · -- i's e-neighbor is dst with oppDir e = oppDir d, so e = d and i = src
          have he : e = d := by
            have := congrArg oppDir hde
            rwa [oppDir_oppDir, oppDir_oppDir] at this
          rw [he] at hj
          have := wf_nbr_symm hwf hil hj
          have hisym := this.2.1
          rw [hsymdst.2.1] at hisym
          exact hc1 ⟨((Option.some.injEq _ _).mp hisym.symm).symm ▸ rfl, he⟩
      rw [if_neg hjchanged]
      exact hsym i e j hj

end Maze

namespace Maze

theorem removeWall_assemble {g : Grid} (hwf : WF g)
    {src dst : Nat} {d : Dir} (hsrc : src < gsize g)
    (hdir : dirNeighbor (getCell g src) d = some dst)
    {f1 f2 : Cell → Cell}
    (hsk1 : SkelPres f1) (hsk2 : SkelPres f2)
    (hrest1 : ∀ c, restFields (f1 c) = restFields c)
    (hrest2 : ∀ c, restFields (f2 c) = restFields c)
    (h1 : ∀ c e, dirWall (f1 c) e = if e = d then false else dirWall c e)
    (h2 : ∀ c e, dirWall (f2 c) e = if e = oppDir d then false else dirWall c e)
    (hopen : openEdgeSet (modifyCell (modifyCell g src f1) dst f2) =
      insert (canonPair src dst) (openEdgeSet g)) :
    RemovePost g (modifyCell (modifyCell g src f1) dst f2) src dst := by
  have hss := wf_nbr_symm hwf hsrc hdir
  have hne : dst ≠ src := hss.2.2
  have hsl : src < g.cells.length := by rw [hwf.1]; exact hsrc
  have hdl : dst < g.cells.length := by rw [hwf.1]; exact hss.1
  have hskel : SameSkel g (modifyCell (modifyCell g src f1) dst f2) :=
    SameSkel.trans (sameSkel_modifyCell g src f1 hsk1)
      (sameSkel_modifyCell _ dst f2 hsk2)
  have hflags := clearPair_flags hne hsl hdl f1 f2 d h1 h2
  refine ⟨hskel, ?_, ?_, ?_, hopen, hss.1, hne⟩
  · intro i
    rw [modify_pres restFields _ dst f2 hrest2 i, modify_pres restFields g src f1 hrest1 i]
  · intro i e htrue
    rw [hflags i e] at htrue
    split at htrue
    · cases htrue
    · exact htrue
  · intro hsym
    exact wallSym_pair_clear hwf hsym hsrc hdir hskel hflags

end Maze

namespace Maze

theorem removeWall_spec {g : Grid} (hwf : WF g) {src dst : Nat} (hsrc : src < gsize g)
    (hmem : dst ∈ (getCell g src).neighborhood) :
    RemovePost g (removeWallBetween g src dst) src dst := by
  obtain ⟨d, hdir⟩ := (wf_nbhd_iff_dir hwf hsrc dst).mp hmem
  have hw : 0 < g.width := width_pos_of_flat (show src < g.height * g.width from hsrc)
  have hdstlt : dst < gsize g := (wf_nbr_symm hwf hsrc hdir).1
  have hsl : src < g.cells.length := by rw [hwf.1]; exact hsrc
  have hdl : dst < g.cells.length := by rw [hwf.1]; exact hdstlt
  have hnbs := (wf_fields hwf hsrc).2.2.1
  have hN : (getCell g src).neighbors.north =
      (if 0 < src / g.width then some (src - g.width) else none) := by
    rw [hnbs]; rfl
  have hE : (getCell g src).neighbors.east =
      (if src % g.width < g.width - 1 then some (src + 1) else none) := by
    rw [hnbs]; rfl
  have hS : (getCell g src).neighbors.south =
      (if src / g.width < g.height - 1 then some (src + g.width) else none) := by
    rw [hnbs]; rfl
  have hW : (getCell g src).neighbors.west =
      (if 0 < src % g.width then some (src - 1) else none) := by
    rw [hnbs]; rfl
  cases d with
  | north =>
    have hd0 : (getCell g src).neighbors.north = some dst := hdir
    rw [hN] at hd0
    split at hd0
    case isFalse => exact Option.noConfusion hd0
    case isTrue hr =>
    have hvdst : dst = src - g.width := ((Option.some.injEq _ _).mp hd0).symm
    have hwle : g.width ≤ src := (div_pos_iff_le hw).mp hr
    have hrw : removeWallBetween g src dst =
        modifyCell (modifyCell g src fun c => { c with walls.north := false })
          dst fun c => { c with walls.south := false } := by
      simp only [removeWallBetween]
      rw [if_pos (show (getCell g src).neighbors.north = some dst from hdir)]
    rw [hrw]
    refine removeWall_assemble hwf hsrc hdir (fun _ => rfl) (fun _ => rfl)
      (fun _ => rfl) (fun _ => rfl)
      (fun c e => by cases e <;> simp [dirWall, oppDir])
      (fun c e => by cases e <;> simp [dirWall, oppDir]) ?_
    have hcp : canonPair src dst = (dst, dst + g.width) := by
      rw [canonPair, if_neg (by omega)]
      exact Prod.ext rfl (by omega)
    rw [hcp]
    refine openEdgeSet_clear_south dst rfl rfl ?_ ?_ (by omega) hw
    · intro i
      rw [modify_pres (fun c => c.walls.east) _ dst (fun c => { c with walls.south := false }) (fun _ => rfl) i,
          modify_pres (fun c => c.walls.east) g src (fun c => { c with walls.north := false }) (fun _ => rfl) i]
    · intro i
      by_cases hid : i = dst
      · rw [if_pos hid, hid, getCell_modifyCell_self _ dst _
              (by rw [length_modifyCell, hwf.1]; exact hdstlt)]
      · rw [getCell_modifyCell_ne _ dst i _ hid,
            modify_pres (fun c => c.walls.south) g src (fun c => { c with walls.north := false }) (fun _ => rfl) i,
            if_neg hid]
  | east =>
    have hd0 : (getCell g src).neighbors.east = some dst := hdir
    rw [hE] at hd0
    split at hd0
    case isFalse => exact Option.noConfusion hd0
    case isTrue hc =>
    have hvdst : dst = src + 1 := ((Option.some.injEq _ _).mp hd0).symm
    have hcN : ¬ (getCell g src).neighbors.north = some dst := by
      rw [hN]
      split
      · next hr =>
        have hwle : g.width ≤ src := (div_pos_iff_le hw).mp hr
        intro hcc
        have := (Option.some.injEq _ _).mp hcc
        omega
      · exact fun hcc => Option.noConfusion hcc
    have hrw : removeWallBetween g src dst =
        modifyCell (modifyCell g src fun c => { c with walls.east := false })
          dst fun c => { c with walls.west := false } := by
      simp only [removeWallBetween]
      rw [if_neg hcN, if_pos (show (getCell g src).neighbors.east = some dst from hdir)]
    rw [hrw]
    refine removeWall_assemble hwf hsrc hdir (fun _ => rfl) (fun _ => rfl)
      (fun _ => rfl) (fun _ => rfl)
      (fun c e => by cases e <;> simp [dirWall, oppDir])
      (fun c e => by cases e <;> simp [dirWall, oppDir]) ?_
    have hcp : canonPair src dst = (src, src + 1) := by
      rw [canonPair, if_pos (by omega)]
      exact Prod.ext rfl (by omega)
    rw [hcp]
    refine openEdgeSet_clear_east src rfl rfl ?_ ?_ hsrc (by omega)
    · intro i
      by_cases his : i = src
      · rw [if_pos his, his, getCell_modifyCell_ne _ dst src _ (show src ≠ dst by omega),
            getCell_modifyCell_self g src _ hsl]
      · rw [modify_pres (fun c => c.walls.east) _ dst (fun c => { c with walls.west := false }) (fun _ => rfl) i,
            getCell_modifyCell_ne g src i _ his, if_neg his]
    · intro i
      rw [modify_pres (fun c => c.walls.south) _ dst (fun c => { c with walls.west := false }) (fun _ => rfl) i,
          modify_pres (fun c => c.walls.south) g src (fun c => { c with walls.east := false }) (fun _ => rfl) i]
  | south =>
    have hd0 : (getCell g src).neighbors.south = some dst := hdir
    rw [hS] at hd0
    split at hd0
    case isFalse => exact Option.noConfusion hd0
    case isTrue hr =>
    have hvdst : dst = src + g.width := ((Option.some.injEq _ _).mp hd0).symm
    have hcN : ¬ (getCell g src).neighbors.north = some dst := by
      rw [hN]
      split
      · next hr2 =>
        have hwle : g.width ≤ src := (div_pos_iff_le hw).mp hr2
        intro hcc
        have := (Option.some.injEq _ _).mp hcc
        omega
      · exact fun hcc => Option.noConfusion hcc
    have hcE : ¬ (getCell g src).neighbors.east = some dst := by
      rw [hE]
      split
      · next hc2 =>
        intro hcc
        have := (Option.some.injEq _ _).mp hcc
        omega
      · exact fun hcc => Option.noConfusion hcc
    have hrw : removeWallBetween g src dst =
        modifyCell (modifyCell g src fun c => { c with walls.south := false })
          dst fun c => { c with walls.north := false } := by
      simp only [removeWallBetween]
      rw [if_neg hcN, if_neg hcE,
          if_pos (show (getCell g src).neighbors.south = some dst from hdir)]
    rw [hrw]
    refine removeWall_assemble hwf hsrc hdir (fun _ => rfl) (fun _ => rfl)
      (fun _ => rfl) (fun _ => rfl)
      (fun c e => by cases e <;> simp [dirWall, oppDir])
      (fun c e => by cases e <;> simp [dirWall, oppDir]) ?_
    have hcp : canonPair src dst = (src, src + g.width) := by
      rw [canonPair, if_pos (by omega)]
      exact Prod.ext rfl (by omega)
    rw [hcp]
    refine openEdgeSet_clear_south src rfl rfl ?_ ?_ (by omega) hw
    · intro i
      rw [modify_pres (fun c => c.walls.east) _ dst (fun c => { c with walls.north := false }) (fun _ => rfl) i,
          modify_pres (fun c => c.walls.east) g src (fun c => { c with walls.south := false }) (fun _ => rfl) i]
    · intro i
      by_cases his : i = src
      · rw [if_pos his, his, getCell_modifyCell_ne _ dst src _ (show src ≠ dst by omega),
            getCell_modifyCell_self g src _ hsl]
      · rw [modify_pres (fun c => c.walls.south) _ dst (fun c => { c with walls.north := false }) (fun _ => rfl) i,
            getCell_modifyCell_ne g src i _ his, if_neg his]
  | west =>
    have hd0 : (getCell g src).neighbors.west = some dst := hdir
    rw [hW] at hd0
    split at hd0
    case isFalse => exact Option.noConfusion hd0
    case isTrue hc =>
    have hvdst : dst = src - 1 := ((Option.some.injEq _ _).mp hd0).symm
    have hspos : 0 < src := by
      have := Nat.mod_le src g.width
      omega
    have hw2 : 2 ≤ g.width := by
      have := Nat.mod_lt src hw
      omega
    have hcN : ¬ (getCell g src).neighbors.north = some dst := by
      rw [hN]
      split
      · next hr2 =>
        have hwle : g.width ≤ src := (div_pos_iff_le hw).mp hr2
        intro hcc
        have := (Option.some.injEq _ _).mp hcc
        omega
      · exact fun hcc => Option.noConfusion hcc
    have hcE : ¬ (getCell g src).neighbors.east = some dst := by
      rw [hE]
      split
      · next hc2 =>
        intro hcc
        have := (Option.some.injEq _ _).mp hcc
        omega
      · exact fun hcc => Option.noConfusion hcc
    have hcS : ¬ (getCell g src).neighbors.south = some dst := by
      rw [hS]
      split
      · next hr2 =>
        intro hcc
        have := (Option.some.injEq _ _).mp hcc
        omega
      · exact fun hcc => Option.noConfusion hcc
    have hcol : dst % g.width + 1 < g.width := by
      have h1 : g.width * (src / g.width) + src % g.width = src :=
        Nat.div_add_mod src g.width
      have h2 : src % g.width < g.width := Nat.mod_lt src hw
      have heq : src - 1 = (src % g.width - 1) + g.width * (src / g.width) := by
        omega
      have hmodsub : (src - 1) % g.width = src % g.width - 1 := by
        rw [heq, Nat.add_mul_mod_self_left, Nat.mod_eq_of_lt (by omega)]
      rw [hvdst, hmodsub]
      omega
    have hrw : removeWallBetween g src dst =
        modifyCell (modifyCell g src fun c => { c with walls.west := false })
          dst fun c => { c with walls.east := false } := by
      simp only [removeWallBetween]
      rw [if_neg hcN, if_neg hcE, if_neg hcS,
          if_pos (show (getCell g src).neighbors.west = some dst from hdir)]
    rw [hrw]
    refine removeWall_assemble hwf hsrc hdir (fun _ => rfl) (fun _ => rfl)
      (fun _ => rfl) (fun _ => rfl)
      (fun c e => by cases e <;> simp [dirWall, oppDir])
      (fun c e => by cases e <;> simp [dirWall, oppDir]) ?_
    have hcp : canonPair src dst = (dst, dst + 1) := by
      rw [canonPair, if_neg (by omega)]
      exact Prod.ext rfl (by omega)
    rw [hcp]
    refine openEdgeSet_clear_east dst rfl rfl ?_ ?_ (by omega) hcol
    · intro i
      by_cases hid : i = dst
      · rw [if_pos hid, hid, getCell_modifyCell_self _ dst _
              (by rw [length_modifyCell, hwf.1]; exact hdstlt)]
      · rw [getCell_modifyCell_ne _ dst i _ hid,
            modify_pres (fun c => c.walls.east) g src (fun c => { c with walls.west := false }) (fun _ => rfl) i,
            if_neg hid]
    · intro i
      rw [modify_pres (fun c => c.walls.south) _ dst (fun c => { c with walls.east := false }) (fun _ => rfl) i,
          modify_pres (fun c => c.walls.south) g src (fun c => { c with walls.west := false }) (fun _ => rfl) i]

end Maze

namespace Maze

/-! ### Congruence lemmas for grids agreeing on walls or geometry -/

theorem sameSkel_neighborhood {g g' : Grid} (hs : SameSkel g g') (i : Nat) :
    (getCell g' i).neighborhood = (getCell g i).neighborhood :=
  congrArg (fun t => t.2.2.2) (hs.2.2.2 i)

theorem dirWall_congr {c c' : Cell} (h : c.walls = c'.walls) (d : Dir) :
    dirWall c d = dirWall c' d := by
  cases d <;> simp only [dirWall] <;> rw [h]

theorem wallsLe_of_sameWalls {g2 g1 : Grid}
    (h : ∀ i, (getCell g2 i).walls = (getCell g1 i).walls) : wallsLe g2 g1 :=
  fun i d ht => (dirWall_congr (h i) d).symm.trans ht

theorem wallsLe_trans {g3 g2 g1 : Grid} (h32 : wallsLe g3 g2) (h21 : wallsLe g2 g1) :
    wallsLe g3 g1 :=
  fun i d ht => h21 i d (h32 i d ht)

theorem openEdgeSet_congr {g g' : Grid} (hh : g'.height = g.height)
    (hw : g'.width = g.width)
    (hwalls : ∀ i, (getCell g' i).walls = (getCell g i).walls) :
    openEdgeSet g' = openEdgeSet g := by
  have hgs : gsize g' = gsize g := by rw [gsize, gsize, hh, hw]
  ext p
  rw [mem_openEdgeSet, mem_openEdgeSet]
  unfold openPair openPairE openPairS
  rw [hgs, hw, hwalls p.1]

theorem wallSym_congr {g g' : Grid} (hs : SameSkel g g')
    (hwalls : ∀ i, (getCell g' i).walls = (getCell g i).walls)
    (hsym : WallSym g) : WallSym g' := by
  intro i d j hj
  rw [dirNeighbor_skel hs i d] at hj
  rw [dirWall_congr (hwalls i), dirWall_congr (hwalls j)]
  exact hsym i d j hj

/-! ### Pointer chains under grid updates -/

theorem PtrChain.head_cons {g : Grid} {v : Nat} {l : List Nat}
    (h : PtrChain g v l) : ∃ m, l = v :: m := by
  cases h
  case last => exact ⟨[], rfl⟩
  case step => exact ⟨_, rfl⟩

theorem PtrChain.congr {g g' : Grid} (hs : SameSkel g g') {v : Nat} {l : List Nat}
    (h : PtrChain g v l)
    (hag : ∀ i ∈ l, (getCell g' i).toPtr = (getCell g i).toPtr ∧
      (getCell g' i).inMaze = (getCell g i).inMaze) :
    PtrChain g' v l := by
  induction h with
  | last v hin =>
    exact PtrChain.last v (by rw [(hag v (by simp)).2, hin])
  | step v hin hptr hnb hsub hnotin ih =>
    refine PtrChain.step v ?_ ?_ ?_ (ih fun i hi => hag i (by simp [hi])) hnotin
    · rw [(hag v (by simp)).2, hin]
    · rw [(hag v (by simp)).1, hptr]
    · rw [sameSkel_neighborhood hs v]
      exact hnb

/-! ### Unfolding equations for the retrace loop -/

theorem retraceLoop_zero (g : Grid) (src : Nat) :
    retraceLoop g src 0 = .error .outOfFuel := rfl

theorem retraceLoop_succ_in {g : Grid} {src : Nat} (n : Nat)
    (hin : (getCell g src).inMaze = true) :
    retraceLoop g src (n + 1) = .ok g := by
  rw [retraceLoop, if_pos hin]

theorem retraceLoop_succ_step {g : Grid} {src u : Nat} (n : Nat)
    (hin : (getCell g src).inMaze = false)
    (hptr : (getCell g src).toPtr = some u) :
    retraceLoop g src (n + 1) =
      retraceLoop
        (modifyCell (removeWallBetween g src u) src fun c => { c with inMaze := true })
        u n := by
  rw [retraceLoop, if_neg (by rw [hin]; simp), hptr]

end Maze

namespace Maze

/-- Retracing a recorded pointer chain succeeds given fuel for its length
and produces exactly the `RetracePost` effects: the chain's cells (bar
the already-in-maze terminal) join the maze and the chain's walls open. -/
theorem retrace_ok_spec : ∀ (l : List Nat) (g : Grid) (src : Nat) (fuel : Nat)
    (gF : Grid), WF g → PtrChain g src l → retraceLoop g src fuel = .ok gF →
    RetracePost g gF l := by
  intro l
  induction l with
  | nil =>
    intro g src fuel gF _ hch _
    cases hch
  | cons a tail ih =>
    intro g src fuel gF hwf hch hok
    cases fuel with
    | zero => exact Except.noConfusion hok
    | succ n =>
    cases hch with
    | last _ hin =>
      rw [retraceLoop_succ_in n hin] at hok
      injection hok with hg
      subst hg
      refine ⟨SameSkel.refl g, fun _ => rfl,
        fun i => by simp, fun _ => rfl, fun _ => rfl, fun _ => rfl, fun _ => rfl,
        fun i d h => h, id, ?_⟩
      rw [show pathEdges [a] = ∅ from rfl, Finset.union_empty]
    | step _ hin hptr hnb hsub hnotin =>
      rename_i u
      have hsl : a < g.cells.length := by
        by_contra hoob
        rw [getCell_oob g a hoob] at hptr
        exact Option.noConfusion hptr
      have hsrc : a < gsize g := by rw [← hwf.1]; exact hsl
      have hrp := removeWall_spec hwf hsrc hnb
      set gR := removeWallBetween g a u with hgR
      set g1 := modifyCell gR a (fun c => { c with inMaze := true }) with hg1
      have hskel1 : SameSkel g g1 :=
        SameSkel.trans hrp.skel (sameSkel_modifyCell gR a _ (fun _ => rfl))
      have hsRl : a < gR.cells.length := by rw [hrp.skel.2.2.1]; exact hsl
      have hptr1 : ∀ i, (getCell g1 i).toPtr = (getCell g i).toPtr := by
        intro i
        rw [hg1, modify_pres (fun c => c.toPtr) gR a (fun c => { c with inMaze := true }) (fun _ => rfl) i]
        exact congrArg (fun q => q.1) (hrp.rest i)
      have hent1 : ∀ i, (getCell g1 i).entrance = (getCell g i).entrance := by
        intro i
        rw [hg1, modify_pres (fun c => c.entrance) gR a (fun c => { c with inMaze := true }) (fun _ => rfl) i]
        exact congrArg (fun q => q.2.2.1) (hrp.rest i)
      have hexit1 : ∀ i, (getCell g1 i).exit = (getCell g i).exit := by
        intro i
        rw [hg1, modify_pres (fun c => c.exit) gR a (fun c => { c with inMaze := true }) (fun _ => rfl) i]
        exact congrArg (fun q => q.2.2.2.1) (hrp.rest i)
      have hvis1 : ∀ i, (getCell g1 i).visited = (getCell g i).visited := by
        intro i
        rw [hg1, modify_pres (fun c => c.visited) gR a (fun c => { c with inMaze := true }) (fun _ => rfl) i]
        exact congrArg (fun q => q.2.2.2.2.1) (hrp.rest i)
      have honp1 : ∀ i, (getCell g1 i).onPath = (getCell g i).onPath := by
        intro i
        rw [hg1, modify_pres (fun c => c.onPath) gR a (fun c => { c with inMaze := true }) (fun _ => rfl) i]
        exact congrArg (fun q => q.2.2.2.2.2) (hrp.rest i)
      have hwalls1 : ∀ i, (getCell g1 i).walls = (getCell gR i).walls := by
        intro i
        rw [hg1, modify_pres (fun c => c.walls) gR a (fun c => { c with inMaze := true }) (fun _ => rfl) i]
      have hinm1 : ∀ i, (getCell g1 i).inMaze = true ↔
          (i = a ∨ (getCell g i).inMaze = true) := by
        intro i
        by_cases his : i = a
        · rw [hg1, his, getCell_modifyCell_self gR a _ hsRl]
          simp
        · rw [hg1, getCell_modifyCell_ne gR a i _ his]
          rw [show (getCell gR i).inMaze = (getCell g i).inMaze from
            congrArg (fun q => q.2.1) (hrp.rest i)]
          constructor
          · exact Or.inr
          · rintro (h | h)
            · exact absurd h his
            · exact h
      have hwf1 : WF g1 := hwf.of_sameSkel hskel1
      have hch1 : PtrChain g1 u tail := by
        refine hsub.congr hskel1 (fun i hi => ⟨hptr1 i, ?_⟩)
        have hne : i ≠ a := fun hh => hnotin (hh ▸ hi)
        have := hinm1 i
        rcases hmi : (getCell g1 i).inMaze with _ | _
        · rcases hmg : (getCell g i).inMaze with _ | _
          · rfl
          · rw [hmi, hmg] at this
            exact absurd (this.mpr (Or.inr rfl)) (by simp)
        · rw [hmi] at this
          rcases this.mp rfl with h | h
          · exact absurd h hne
          · rw [h]
      obtain ⟨m, rfl⟩ := hsub.head_cons
      rw [retraceLoop_succ_step n hin hptr] at hok
      replace hok : retraceLoop g1 u n = .ok gF := hok
      have post' := ih g1 u n gF hwf1 hch1 hok
      constructor
      · exact SameSkel.trans hskel1 post'.skel
      · exact fun i => (post'.ptr i).trans (hptr1 i)
      · intro i
        rw [post'.inM i, hinm1 i,
            show (a :: u :: m).dropLast = a :: (u :: m).dropLast from rfl,
            List.mem_cons]
        tauto
      · exact fun i => (post'.entF i).trans (hent1 i)
      · exact fun i => (post'.exitF i).trans (hexit1 i)
      · exact fun i => (post'.vis i).trans (hvis1 i)
      · exact fun i => (post'.onP i).trans (honp1 i)
      · exact wallsLe_trans post'.wmono
          (wallsLe_trans (wallsLe_of_sameWalls hwalls1) hrp.wmono)
      · exact fun hs => post'.sym (wallSym_congr
          (sameSkel_modifyCell gR a _ (fun _ => rfl)) hwalls1 (hrp.sym hs))
      · rw [post'.edges,
            @openEdgeSet_congr gR g1 rfl rfl hwalls1, hrp.edges,
            show pathEdges (a :: u :: m) =
              insert (canonPair a u) (pathEdges (u :: m)) from rfl,
            Finset.insert_union, Finset.union_insert]

end Maze

namespace Maze

/-! ### Spanning-tree certificates: cardinality, connectivity, bridges -/

theorem edgeRel.swap {E : Finset (Nat × Nat)} {a b : Nat} (h : edgeRel E a b) :
    edgeRel E b a := Or.symm h

theorem EReach.mono {E F : Finset (Nat × Nat)} (hEF : E ⊆ F) {a b : Nat}
    (h : EReach E a b) : EReach F a b :=
  Relation.ReflTransGen.mono (fun _ _ hxy => hxy.imp (@hEF _) (@hEF _)) h

theorem EReach.rev {E : Finset (Nat × Nat)} {a b : Nat} (h : EReach E a b) :
    EReach E b a := by
  induction h with
  | refl => exact .refl
  | tail hstep hrel ih => exact Relation.ReflTransGen.head (edgeRel.swap hrel) ih

theorem TreeCert.endpoints {S : Finset Nat} {E : Finset (Nat × Nat)}
    (h : TreeCert S E) : ∀ p ∈ E, p.1 ∈ S ∧ p.2 ∈ S := by
  induction h with
  | single v =>
    intro p hp
    exact absurd hp (Finset.not_mem_empty p)
  | leaf v u p0 hc hv hu hp0 ih =>
    intro q hq
    rcases Finset.mem_insert.mp hq with rfl | hqE
    · rcases hp0 with rfl | rfl
      · exact ⟨Finset.mem_insert_self v _, Finset.mem_insert_of_mem hu⟩
      · exact ⟨Finset.mem_insert_of_mem hu, Finset.mem_insert_self v _⟩
    · exact ⟨Finset.mem_insert_of_mem (ih q hqE).1,
        Finset.mem_insert_of_mem (ih q hqE).2⟩

theorem TreeCert.fresh_edge {S : Finset Nat} {E : Finset (Nat × Nat)}
    (hc : TreeCert S E) {v u : Nat} {p0 : Nat × Nat}
    (hv : v ∉ S) (hp0 : p0 = (v, u) ∨ p0 = (u, v)) : p0 ∉ E := by
  intro hmem
  rcases hp0 with rfl | rfl
  · exact hv (hc.endpoints _ hmem).1
  · exact hv (hc.endpoints _ hmem).2

theorem TreeCert.card_eq {S : Finset Nat} {E : Finset (Nat × Nat)}
    (h : TreeCert S E) : S.card = E.card + 1 := by
  induction h with
  | single v => simp
  | leaf v u p0 hc hv hu hp0 ih =>
    rw [Finset.card_insert_of_not_mem hv,
        Finset.card_insert_of_not_mem (hc.fresh_edge hv hp0), ih]

theorem TreeCert.conn {S : Finset Nat} {E : Finset (Nat × Nat)}
    (h : TreeCert S E) : ∀ a ∈ S, ∀ b ∈ S, EReach E a b := by
  induction h with
  | single v =>
    intro a ha b hb
    rw [Finset.mem_singleton] at ha hb
    rw [ha, hb]
    exact Relation.ReflTransGen.refl
  | leaf v u p0 hc hv hu hp0 ih =>
    rename_i E2
    have hmono : ∀ {a b : Nat}, EReach E2 a b → EReach (insert p0 E2) a b :=
      fun h => h.mono (Finset.subset_insert p0 E2)
    have hedge : edgeRel (insert p0 E2) v u := by
      rcases hp0 with rfl | rfl
      · exact Or.inl (Finset.mem_insert_self _ E2)
      · exact Or.inr (Finset.mem_insert_self _ E2)
    intro a ha b hb
    rcases Finset.mem_insert.mp ha with rfl | haS <;>
      rcases Finset.mem_insert.mp hb with hb2 | hbS
    · rw [hb2]
      exact Relation.ReflTransGen.refl
    · exact Relation.ReflTransGen.head hedge (hmono (ih u hu b hbS))
    · rw [hb2]
      exact Relation.ReflTransGen.tail (hmono (ih a haS u hu)) hedge.swap
    · exact hmono (ih a haS b hbS)

theorem ereach_off_eq {S : Finset Nat} {E : Finset (Nat × Nat)}
    (hend : ∀ q ∈ E, q.1 ∈ S ∧ q.2 ∈ S) {v x : Nat} (hv : v ∉ S)
    (h : EReach E v x) : v = x := by
  rcases Relation.ReflTransGen.cases_head h with rfl | ⟨z, hedge, _⟩
  · rfl
  · rcases hedge with hm | hm
    · exact absurd (hend _ hm).1 hv
    · exact absurd (hend _ hm).2 hv

/-- A walk in a graph extended by one pendant edge `p0 = {v, u}` (with `v`
outside the vertex set) between vertices of the set never needs `p0`. -/
theorem reach_insert_avoid {S : Finset Nat} {F : Finset (Nat × Nat)}
    {p0 : Nat × Nat} {v u : Nat}
    (hend : ∀ q ∈ F, q.1 ∈ S ∧ q.2 ∈ S) (hv : v ∉ S) (hu : u ∈ S)
    (hp0 : p0 = (v, u) ∨ p0 = (u, v)) :
    ∀ x y, EReach (insert p0 F) x y → y ∈ S →
      (x ∈ S → EReach F x y) ∧ (x = v → EReach F u y) := by
  intro x y hreach hy
  induction hreach using Relation.ReflTransGen.head_induction_on with
  | refl => exact ⟨fun _ => .refl, fun hxv => absurd (hxv ▸ hy) hv⟩
  | head hedge hrest ih =>
    rename_i x z
    have hsplit : edgeRel F x z ∨ ((x = v ∧ z = u) ∨ (x = u ∧ z = v)) := by
      rcases hedge with hm | hm
      · rcases Finset.mem_insert.mp hm with he | he
        · rcases hp0 with rfl | rfl
          · exact Or.inr (Or.inl ⟨congrArg Prod.fst he, congrArg Prod.snd he⟩)
          · exact Or.inr (Or.inr ⟨congrArg Prod.fst he, congrArg Prod.snd he⟩)
        · exact Or.inl (Or.inl he)
      · rcases Finset.mem_insert.mp hm with he | he
        · rcases hp0 with rfl | rfl
          · exact Or.inr (Or.inr ⟨congrArg Prod.snd he, congrArg Prod.fst he⟩)
          · exact Or.inr (Or.inl ⟨congrArg Prod.snd he, congrArg Prod.fst he⟩)
        · exact Or.inl (Or.inr he)
    constructor
    · intro hx
      rcases hsplit with hF | (⟨hxv, hzu⟩ | ⟨hxu, hzv⟩)
      · have hz : z ∈ S := by
          rcases hF with hm | hm
          · exact (hend _ hm).2
          · exact (hend _ hm).1
        exact Relation.ReflTransGen.head hF (ih.1 hz)
      · exact absurd (hxv ▸ hx) hv
      · subst hxu
        exact ih.2 hzv
    · intro hxv
      rcases hsplit with hF | (⟨_, hzu⟩ | ⟨hxu, _⟩)
      · subst hxv
        rcases hF with hm | hm
        · exact absurd (hend _ hm).1 hv
        · exact absurd (hend _ hm).2 hv
      · subst hzu
        exact ih.1 hu
      · have huv : u = v := by rw [← hxu, hxv]
        exact absurd (huv ▸ hu) hv

theorem TreeCert.bridge {S : Finset Nat} {E : Finset (Nat × Nat)}
    (h : TreeCert S E) : ∀ p ∈ E, ¬ EReach (E.erase p) p.1 p.2 := by
  induction h with
  | single v =>
    intro p hp
    exact absurd hp (Finset.not_mem_empty p)
  | leaf v u p0 hc hv hu hp0 ih =>
    rename_i S2 E2
    intro q hq
    rcases Finset.mem_insert.mp hq with rfl | hqE
    · rw [Finset.erase_insert (hc.fresh_edge hv hp0)]
      intro hreach
      rcases hp0 with rfl | rfl
      · have := ereach_off_eq hc.endpoints hv hreach
        exact hv (this ▸ hu)
      · have := ereach_off_eq hc.endpoints hv hreach.rev
        exact hv (this ▸ hu)
    · have hqne : p0 ≠ q := fun he => hc.fresh_edge hv hp0 (he ▸ hqE)
      rw [Finset.erase_insert_of_ne hqne]
      intro hreach
      have hendE : ∀ q2 ∈ E2.erase q, q2.1 ∈ S2 ∧ q2.2 ∈ S2 :=
        fun q2 hq2 => hc.endpoints q2 (Finset.mem_of_mem_erase hq2)
      have hq12 := hc.endpoints q hqE
      exact ih q hqE
        ((reach_insert_avoid hendE hv hu hp0 q.1 q.2 hreach hq12.2).1 hq12.1)

end Maze

namespace Maze

/-! ### Structural facts about pointer chains -/

theorem PtrChain.nodup {g : Grid} {v : Nat} {l : List Nat} (h : PtrChain g v l) :
    l.Nodup := by
  induction h with
  | last v hin => exact List.nodup_singleton v
  | step v hin hptr hnb hsub hnotin ih => exact List.nodup_cons.mpr ⟨hnotin, ih⟩

theorem PtrChain.dropLast_out {g : Grid} {v : Nat} {l : List Nat}
    (h : PtrChain g v l) : ∀ x ∈ l.dropLast, (getCell g x).inMaze = false := by
  induction h with
  | last v hin =>
    intro x hx
    exact absurd hx (by simp)
  | step v hin hptr hnb hsub hnotin ih =>
    rename_i u tail
    obtain ⟨m, rfl⟩ := hsub.head_cons
    intro x hx
    rw [show (v :: u :: m).dropLast = v :: (u :: m).dropLast from rfl,
        List.mem_cons] at hx
    rcases hx with rfl | hx
    · exact hin
    · exact ih x hx

theorem PtrChain.getLast_in {g : Grid} {v : Nat} {l : List Nat}
    (h : PtrChain g v l) :
    ∃ t, l.getLast? = some t ∧ (getCell g t).inMaze = true := by
  induction h with
  | last v hin => exact ⟨v, rfl, hin⟩
  | step v hin hptr hnb hsub hnotin ih =>
    rename_i u tail
    obtain ⟨m, rfl⟩ := hsub.head_cons
    obtain ⟨t, ht1, ht2⟩ := ih
    exact ⟨t, by rw [List.getLast?_cons_cons]; exact ht1, ht2⟩

theorem PtrChain.mem_bound {g : Grid} (hwf : WF g) {v : Nat} {l : List Nat}
    (h : PtrChain g v l) (hv : v < gsize g) : ∀ x ∈ l, x < gsize g := by
  induction h with
  | last v hin =>
    intro x hx
    rw [List.mem_singleton] at hx
    exact hx ▸ hv
  | step v hin hptr hnb hsub hnotin ih =>
    rename_i u tail
    intro x hx
    rcases List.mem_cons.mp hx with rfl | hx
    · exact hv
    · obtain ⟨m, rfl⟩ := hsub.head_cons
      have hu : u < gsize g := ((wf_mem_nbhd hwf hv u).mp hnb).1
      exact ih hu x hx

/-! ### Invariance of the derived sets under `clearWalk` and walks -/

theorem walls_clearWalk (g : Grid) (i : Nat) :
    (getCell (clearWalk g) i).walls = (getCell g i).walls := by
  rw [getCell_clearWalk]

theorem inMaze_clearWalk (g : Grid) (i : Nat) :
    (getCell (clearWalk g) i).inMaze = (getCell g i).inMaze := by
  rw [getCell_clearWalk]

theorem inSet_congr {g g' : Grid} (hgs : gsize g' = gsize g)
    (hin : ∀ i, (getCell g' i).inMaze = (getCell g i).inMaze) :
    inSet g' = inSet g := by
  unfold inSet
  rw [hgs]
  exact Finset.filter_congr fun i _ => by rw [hin]

theorem inSet_clearWalk (g : Grid) : inSet (clearWalk g) = inSet g :=
  inSet_congr rfl (inMaze_clearWalk g)

theorem openEdgeSet_clearWalk (g : Grid) :
    openEdgeSet (clearWalk g) = openEdgeSet g :=
  openEdgeSet_congr rfl rfl (walls_clearWalk g)

theorem wallSym_clearWalk {g : Grid} (hsym : WallSym g) : WallSym (clearWalk g) :=
  wallSym_congr (sameSkel_clearWalk g) (walls_clearWalk g) hsym

theorem mem_inSet {g : Grid} {i : Nat} :
    i ∈ inSet g ↔ i < gsize g ∧ (getCell g i).inMaze = true := by
  unfold inSet
  rw [Finset.mem_filter, Finset.mem_range]

theorem inSet_retrace {g2 g3 : Grid} {l : List Nat} (hp : RetracePost g2 g3 l)
    (hbound : ∀ x ∈ l.dropLast, x < gsize g2) :
    inSet g3 = inSet g2 ∪ l.dropLast.toFinset := by
  have hgs : gsize g3 = gsize g2 := by
    rw [gsize, gsize, hp.skel.1, hp.skel.2.1]
  ext i
  rw [Finset.mem_union, mem_inSet, mem_inSet, hgs, hp.inM i, List.mem_toFinset]
  constructor
  · rintro ⟨hlt, hin | hmem⟩
    · exact Or.inl ⟨hlt, hin⟩
    · exact Or.inr hmem
  · rintro (⟨hlt, hin⟩ | hmem)
    · exact ⟨hlt, Or.inl hin⟩
    · exact ⟨hbound i hmem, Or.inr hmem⟩

/-! ### Growing a spanning-tree certificate by a fresh attached path -/

theorem cert_attach : ∀ (l : List Nat) (S : Finset Nat) (E : Finset (Nat × Nat)),
    TreeCert S E → l.Nodup →
    (∀ x ∈ l.dropLast, x ∉ S) →
    (∀ t, l.getLast? = some t → t ∈ S) →
    TreeCert (S ∪ l.dropLast.toFinset) (E ∪ pathEdges l) := by
  intro l
  induction l with
  | nil =>
    intro S E hcert _ _ _
    simpa [pathEdges] using hcert
  | cons a tl ih =>
    intro S E hcert hnd hdrop hlast
    cases tl with
    | nil => simpa [pathEdges] using hcert
    | cons b rest =>
      have hnd2 := List.nodup_cons.mp hnd
      have hcert2 : TreeCert (S ∪ (b :: rest).dropLast.toFinset)
          (E ∪ pathEdges (b :: rest)) := by
        refine ih S E hcert hnd2.2 ?_ ?_
        · intro x hx
          exact hdrop x (by
            rw [show (a :: b :: rest).dropLast = a :: (b :: rest).dropLast from rfl]
            exact List.mem_cons_of_mem a hx)
        · intro t ht
          exact hlast t (by rw [List.getLast?_cons_cons]; exact ht)
      have hbmem : b ∈ S ∪ (b :: rest).dropLast.toFinset := by
        cases rest with
        | nil =>
          exact Finset.mem_union_left _ (hlast b rfl)
        | cons c rest2 =>
          refine Finset.mem_union_right _ ?_
          rw [List.mem_toFinset,
              show (b :: c :: rest2).dropLast = b :: (c :: rest2).dropLast from rfl]
          exact List.mem_cons_self b _
      have hamem : a ∉ S ∪ (b :: rest).dropLast.toFinset := by
        rw [Finset.mem_union, List.mem_toFinset]
        rintro (haS | hadrop)
        · exact hdrop a (by
            rw [show (a :: b :: rest).dropLast = a :: (b :: rest).dropLast from rfl]
            exact List.mem_cons_self a _) haS
        · exact hnd2.1 ((List.dropLast_sublist (b :: rest)).subset hadrop)
      have hp : canonPair a b = (a, b) ∨ canonPair a b = (b, a) := by
        unfold canonPair
        split
        · exact Or.inl rfl
        · exact Or.inr rfl
      have := TreeCert.leaf a b (canonPair a b) hcert2 hamem hbmem hp
      rw [show (a :: b :: rest).dropLast = a :: (b :: rest).dropLast from rfl,
          List.toFinset_cons, Finset.union_insert,
          show pathEdges (a :: b :: rest) =
            insert (canonPair a b) (pathEdges (b :: rest)) from rfl,
          Finset.union_insert]
      exact this

end Maze

namespace Maze

theorem PtrChain.head_mem_dropLast {g : Grid} {v : Nat} {l : List Nat}
    (h : PtrChain g v l) (hout : (getCell g v).inMaze = false) :
    v ∈ l.dropLast := by
  cases h with
  | last _ hin =>
    rw [hin] at hout
    exact Bool.noConfusion hout
  | step _ hin hptr hnb hsub hnotin =>
    obtain ⟨m, rfl⟩ := hsub.head_cons
    exact List.mem_cons_self v _

/-- One retrace from a recorded chain, starting from a certified partial
spanning tree: the certificate extends to the enlarged in-maze set, the
walk's start joins the maze, and all other state is preserved. -/
theorem wilson_retrace_step {g2 g3 : Grid} {src : Nat} {l : List Nat} {fuel2 : Nat}
    (hwf2 : WF g2) (hsym2 : WallSym g2)
    (hcert2 : TreeCert (inSet g2) (openEdgeSet g2))
    (hsrc2 : src < gsize g2)
    (hch : PtrChain g2 src l)
    (hret : retraceLoop g2 src fuel2 = .ok g3) :
    WF g3 ∧ WallSym g3 ∧ TreeCert (inSet g3) (openEdgeSet g3) ∧
    g3.height = g2.height ∧ g3.width = g2.width ∧
    wallsLe g3 g2 ∧ inSet g2 ⊆ inSet g3 ∧ src ∈ inSet g3 ∧
    (∀ i, (getCell g3 i).entrance = (getCell g2 i).entrance) ∧
    (∀ i, (getCell g3 i).exit = (getCell g2 i).exit) ∧
    (∀ i, (getCell g3 i).visited = (getCell g2 i).visited) ∧
    (∀ i, (getCell g3 i).onPath = (getCell g2 i).onPath) := by
  have hpost := retrace_ok_spec l g2 src fuel2 g3 hwf2 hch hret
  have hlb : ∀ x ∈ l, x < gsize g2 := hch.mem_bound hwf2 hsrc2
  have hdropb : ∀ x ∈ l.dropLast, x < gsize g2 :=
    fun x hx => hlb x ((List.dropLast_sublist l).subset hx)
  have hinset3 : inSet g3 = inSet g2 ∪ l.dropLast.toFinset :=
    inSet_retrace hpost hdropb
  have hgs3 : gsize g3 = gsize g2 := by
    rw [gsize, gsize, hpost.skel.1, hpost.skel.2.1]
  have hcert3 : TreeCert (inSet g3) (openEdgeSet g3) := by
    rw [hinset3, hpost.edges]
    refine cert_attach l (inSet g2) (openEdgeSet g2) hcert2 hch.nodup ?_ ?_
    · intro x hx hmem
      rw [mem_inSet] at hmem
      rw [hch.dropLast_out x hx] at hmem
      exact Bool.noConfusion hmem.2
    · intro t ht
      obtain ⟨t0, ht0, hin0⟩ := hch.getLast_in
      rw [ht0] at ht
      injection ht with ht
      subst ht
      refine mem_inSet.mpr ⟨hlb t0 ?_, hin0⟩
      obtain ⟨hne, heq⟩ := List.mem_getLast?_eq_getLast (Option.mem_def.mpr ht0)
      exact heq ▸ List.getLast_mem hne
  refine ⟨hwf2.of_sameSkel hpost.skel, hpost.sym hsym2, hcert3,
    hpost.skel.1, hpost.skel.2.1, hpost.wmono, ?_, ?_,
    hpost.entF, hpost.exitF, hpost.vis, hpost.onP⟩
  · rw [hinset3]
    exact Finset.subset_union_left
  · rw [mem_inSet, hgs3, hpost.inM src]
    refine ⟨hsrc2, ?_⟩
    rcases hsrcin : (getCell g2 src).inMaze with _ | _
    · exact Or.inr (hch.head_mem_dropLast hsrcin)
    · exact Or.inl rfl

end Maze

namespace Maze

/-- One full Wilson iteration (clear, walk, retrace) preserves the
invariants and adds the popped start cell to the maze. -/
theorem wilson_step {g g2 g3 : Grid} {src t : Nat} {r r2 : RNG} {fuel fuel2 : Nat}
    (hwf : WF g) (hsym : WallSym g)
    (hcert : TreeCert (inSet g) (openEdgeSet g))
    (hsrc : src < gsize g)
    (hwalk : walkLoop (clearWalk g) src r fuel = .ok (g2, t, r2))
    (hret : retraceLoop g2 src fuel2 = .ok g3) :
    WF g3 ∧ WallSym g3 ∧ TreeCert (inSet g3) (openEdgeSet g3) ∧
    g3.height = g.height ∧ g3.width = g.width ∧
    wallsLe g3 g ∧ inSet g ⊆ inSet g3 ∧ src ∈ inSet g3 ∧
    (∀ i, (getCell g3 i).entrance = (getCell g i).entrance) ∧
    (∀ i, (getCell g3 i).exit = (getCell g i).exit) ∧
    (∀ i, (getCell g3 i).visited = (getCell g i).visited) ∧
    (∀ i, (getCell g3 i).onPath = (getCell g i).onPath) := by
  have hwp := walkLoop_spec fuel (clearWalk g) src r g2 t r2 hwalk
  have hwfc : WF (clearWalk g) := hwf.of_sameSkel (sameSkel_clearWalk g)
  have hwf2 : WF g2 := hwfc.of_sameSkel hwp.skel
  have hin2 : ∀ i, (getCell g2 i).inMaze = (getCell g i).inMaze :=
    fun i => (hwp.inM i).trans (inMaze_clearWalk g i)
  have hh2 : g2.height = g.height := hwp.skel.1
  have hw2 : g2.width = g.width := hwp.skel.2.1
  have hgs2 : gsize g2 = gsize g := by rw [gsize, gsize, hh2, hw2]
  have hinset2 : inSet g2 = inSet g := inSet_congr hgs2 hin2
  have hwalls2 : ∀ i, (getCell g2 i).walls = (getCell g i).walls :=
    fun i => (hwp.walls i).trans (walls_clearWalk g i)
  have hopen2 : openEdgeSet g2 = openEdgeSet g := openEdgeSet_congr hh2 hw2 hwalls2
  have hsym2 : WallSym g2 :=
    wallSym_congr (SameSkel.trans (sameSkel_clearWalk g) hwp.skel) hwalls2 hsym
  have hcert2 : TreeCert (inSet g2) (openEdgeSet g2) := by
    rw [hinset2, hopen2]
    exact hcert
  have hsrc2 : src < gsize g2 := by rw [hgs2]; exact hsrc
  have htin2 : (getCell g2 t).inMaze = true := by rw [hwp.inM t]; exact hwp.tIn
  have hent2 : ∀ i, (getCell g2 i).entrance = (getCell g i).entrance :=
    fun i => (hwp.entF i).trans (by rw [getCell_clearWalk])
  have hexit2 : ∀ i, (getCell g2 i).exit = (getCell g i).exit :=
    fun i => (hwp.exitF i).trans (by rw [getCell_clearWalk])
  have hvis2 : ∀ i, (getCell g2 i).visited = (getCell g i).visited :=
    fun i => (hwp.vis i).trans (by rw [getCell_clearWalk])
  have honp2 : ∀ i, (getCell g2 i).onPath = (getCell g i).onPath :=
    fun i => (hwp.onP i).trans (by rw [getCell_clearWalk])
  have hch : ∃ l, PtrChain g2 src l := by
    rcases hstart : (getCell g2 src).inMaze with _ | _
    · obtain ⟨W, rank, hW1, hW2, hW3⟩ := hwp.chain
      have hsrcW : src ∈ W := hW2 (by
        rw [inMaze_clearWalk, ← hin2, hstart])
      have hmem2 : ∀ v ∈ W, (getCell g2 v).inMaze = false ∧
          ∃ u, (getCell g2 v).toPtr = some u ∧ u ∈ (getCell g2 v).neighborhood ∧
            (u = t ∨ (u ∈ W ∧ rank v < rank u)) := by
        intro v hv
        obtain ⟨h1, u, h2, h3, h4⟩ := hW3 v hv
        refine ⟨by rw [hwp.inM v]; exact h1, u, h2, ?_, h4⟩
        rw [sameSkel_neighborhood hwp.skel v]
        exact h3
      obtain ⟨ltail, hchain, _⟩ := chain_extract W rank htin2 hmem2 src hsrcW
      exact ⟨src :: ltail, hchain⟩
    · exact ⟨[src], PtrChain.last src hstart⟩
  obtain ⟨l, hchain⟩ := hch
  obtain ⟨h1, h2, h3, h4, h5, h6, h7, h8, h9, h10, h11, h12⟩ :=
    wilson_retrace_step hwf2 hsym2 hcert2 hsrc2 hchain hret
  refine ⟨h1, h2, h3, h4.trans hh2, h5.trans hw2,
    wallsLe_trans h6 (wallsLe_of_sameWalls hwalls2), ?_, h8,
    fun i => (h9 i).trans (hent2 i), fun i => (h10 i).trans (hexit2 i),
    fun i => (h11 i).trans (hvis2 i), fun i => (h12 i).trans (honp2 i)⟩
  rw [← hinset2]
  exact h7

end Maze

namespace Maze

/-- The Wilson outer loop: given a certified partial spanning tree and a
stack of in-bounds start cells, a completed run keeps the certificate,
adds every stack cell to the maze, and preserves walls monotonically and
all non-maze flags. -/
theorem wilsonLoop_spec : ∀ (stack : List Nat) (g : Grid) (r : RNG) (fuel : Nat)
    (gF : Grid) (rF : RNG),
    wilsonLoop g stack r fuel = .ok (gF, rF) →
    WF g → WallSym g → TreeCert (inSet g) (openEdgeSet g) →
    (∀ s ∈ stack, s < gsize g) →
    WF gF ∧ WallSym gF ∧ TreeCert (inSet gF) (openEdgeSet gF) ∧
    gF.height = g.height ∧ gF.width = g.width ∧
    wallsLe gF g ∧
    inSet g ⊆ inSet gF ∧ (∀ s ∈ stack, s ∈ inSet gF) ∧
    (∀ i, (getCell gF i).entrance = (getCell g i).entrance) ∧
    (∀ i, (getCell gF i).exit = (getCell g i).exit) ∧
    (∀ i, (getCell gF i).visited = (getCell g i).visited) ∧
    (∀ i, (getCell gF i).onPath = (getCell g i).onPath) := by
  intro stack
  induction stack with
  | nil =>
    intro g r fuel gF rF hok hwf hsym hcert _
    have hok2 : Except.ok (ε := Abort) (g, r) = .ok (gF, rF) := hok
    injection hok2 with hpair
    have hg : g = gF := congrArg Prod.fst hpair
    subst hg
    exact ⟨hwf, hsym, hcert, rfl, rfl, fun i d h => h, Finset.Subset.refl _,
      fun s hs => absurd hs (List.not_mem_nil s), fun _ => rfl, fun _ => rfl,
      fun _ => rfl, fun _ => rfl⟩
  | cons src rest ih =>
    intro g r fuel gF rF hok hwf hsym hcert hbound
    simp only [wilsonLoop] at hok
    split at hok
    · exact Except.noConfusion hok
    · rename_i g2tr heqwalk
      split at hok
      · exact Except.noConfusion hok
      · rename_i g3 heqret
        have hsrc : src < gsize g := hbound src (List.mem_cons_self src rest)
        obtain ⟨h1, h2, h3, h4, h5, h6, h7, h8, h9, h10, h11, h12⟩ :=
          wilson_step hwf hsym hcert hsrc heqwalk heqret
        have hgs3 : gsize g3 = gsize g := by rw [gsize, gsize, h4, h5]
        obtain ⟨k1, k2, k3, k4, k5, k6, k7, k8, k9, k10, k11, k12⟩ :=
          ih g3 _ fuel gF rF hok h1 h2 h3
            (fun s hs => by rw [hgs3]; exact hbound s (List.mem_cons_of_mem src hs))
        refine ⟨k1, k2, k3, k4.trans h4, k5.trans h5,
          wallsLe_trans k6 h6, (h7.trans k7), ?_,
          fun i => (k9 i).trans (h9 i), fun i => (k10 i).trans (h10 i),
          fun i => (k11 i).trans (h11 i), fun i => (k12 i).trans (h12 i)⟩
        intro s hs
        rcases List.mem_cons.mp hs with rfl | hs2
        · exact k7 h8
        · exact k8 s hs2

end Maze

namespace Maze

/-! ### The freshly constructed grid: all walls up, all flags down -/

theorem walls_createGrid (h w i : Nat) :
    (getCell (createGrid h w) i).walls = ⟨true, true, true, true⟩ := by
  by_cases hi : i < h * w
  · rw [getCell_createGrid h w i hi]
    rfl
  · rw [getCell_oob _ i (by rw [length_createGrid]; exact hi)]
    rfl

theorem restFields_createGrid (h w i : Nat) :
    restFields (getCell (createGrid h w) i) =
      (none, false, false, false, false, false) := by
  by_cases hi : i < h * w
  · rw [getCell_createGrid h w i hi]
    rfl
  · rw [getCell_oob _ i (by rw [length_createGrid]; exact hi)]
    rfl

theorem dirWall_createGrid (h w i : Nat) (d : Dir) :
    dirWall (getCell (createGrid h w) i) d = true := by
  cases d <;> simp only [dirWall] <;> rw [walls_createGrid]

theorem openEdgeSet_createGrid (h w : Nat) : openEdgeSet (createGrid h w) = ∅ := by
  ext p
  simp only [Finset.not_mem_empty, iff_false]
  rw [mem_openEdgeSet]
  rintro (⟨h2, hlt, hc, hflag⟩ | ⟨h2, hlt, hwp, hflag⟩) <;>
    rw [walls_createGrid] at hflag <;> exact Bool.noConfusion hflag

theorem wallSym_createGrid (h w : Nat) : WallSym (createGrid h w) := by
  intro i d j _
  rw [dirWall_createGrid, dirWall_createGrid]

theorem inSet_createGrid (h w : Nat) : inSet (createGrid h w) = ∅ := by
  ext i
  simp only [Finset.not_mem_empty, iff_false, mem_inSet, not_and]
  intro _
  rw [show (getCell (createGrid h w) i).inMaze =
      (restFields (getCell (createGrid h w) i)).2.1 from rfl,
    restFields_createGrid]
  exact Bool.noConfusion

/-! ### The Fisher-Yates shuffle is a permutation: length and membership -/

theorem length_swapList (l : List Nat) (i j : Nat) :
    (swapList l i j).length = l.length := by
  unfold swapList
  rw [List.length_set, List.length_set]

theorem mem_swapList {l : List Nat} {i j : Nat} (hi : i < l.length)
    (hj : j < l.length) : ∀ x, x ∈ swapList l i j ↔ x ∈ l := by
  intro x
  have heq : swapList l i j = (l.set i (l.getD j 0)).set j (l.getD i 0) := rfl
  rw [heq]
  constructor
  · intro hx
    rw [List.mem_iff_getElem?] at hx
    obtain ⟨k, hk⟩ := hx
    by_cases hkj : k = j
    · subst hkj
      rw [List.getElem?_set_eq_of_lt _ (by rw [List.length_set]; exact hj)] at hk
      injection hk with hk
      exact hk ▸ getD_mem hi
    · rw [List.getElem?_set_ne (fun hh => hkj hh.symm)] at hk
      by_cases hki : k = i
      · subst hki
        rw [List.getElem?_set_eq_of_lt _ hi] at hk
        injection hk with hk
        exact hk ▸ getD_mem hj
      · rw [List.getElem?_set_ne (fun hh => hki hh.symm)] at hk
        exact List.mem_iff_getElem?.mpr ⟨k, hk⟩
  · intro hx
    rw [List.mem_iff_getElem?] at hx
    obtain ⟨k, hk⟩ := hx
    have hkl : k < l.length := by
      by_contra hge
      rw [List.getElem?_eq_none (by omega)] at hk
      exact Option.noConfusion hk
    rw [List.mem_iff_getElem?]
    by_cases hki : k = i
    · subst hki
      refine ⟨j, ?_⟩
      rw [List.getElem?_set_eq_of_lt _ (by rw [List.length_set]; exact hj),
          List.getD_eq_getElem?_getD, hk]
      rfl
    · by_cases hkj : k = j
      · subst hkj
        refine ⟨i, ?_⟩
        rw [List.getElem?_set_ne hki,
            List.getElem?_set_eq_of_lt _ hi,
            List.getD_eq_getElem?_getD, hk]
        rfl
      · refine ⟨k, ?_⟩
        rw [List.getElem?_set_ne (fun hh => hkj hh.symm),
            List.getElem?_set_ne (fun hh => hki hh.symm)]
        exact hk

theorem shuffleLoop_mem : ∀ (n : Nat) (l : List Nat) (r : RNG), n < l.length →
    (shuffleLoop l r n).1.length = l.length ∧
    ∀ x, x ∈ (shuffleLoop l r n).1 ↔ x ∈ l := by
  intro n
  induction n with
  | zero =>
    intro l r _
    exact ⟨rfl, fun x => Iff.rfl⟩
  | succ i ihn =>
    intro l r hlt
    have hj : (randIntn (i + 2) r).1 < l.length := by
      have : (randIntn (i + 2) r).1 < i + 2 := Nat.mod_lt _ (by omega)
      omega
    have hswlen := length_swapList l (i + 1) (randIntn (i + 2) r).1
    have hrec := ihn (swapList l (i + 1) (randIntn (i + 2) r).1)
      (randIntn (i + 2) r).2 (by rw [hswlen]; omega)
    rw [shuffleLoop]
    refine ⟨hrec.1.trans hswlen, fun x => (hrec.2 x).trans
      (mem_swapList hlt hj x)⟩

theorem shuffle_mem {l : List Nat} (hl : 0 < l.length) (r : RNG) :
    (shuffle l r).1.length = l.length ∧ ∀ x, x ∈ (shuffle l r).1 ↔ x ∈ l := by
  unfold shuffle
  exact shuffleLoop_mem (l.length - 1) l r (by omega)

theorem mem_allCells (g : Grid) (x : Nat) : x ∈ allCells g ↔ x < gsize g := by
  unfold allCells
  exact List.mem_range

end Maze

namespace Maze

/-! ### Opening a single boundary wall -/

theorem clearSingle_flags {g : Grid} {i0 : Nat} (hl : i0 < g.cells.length)
    (f : Cell → Cell) (d0 : Dir)
    (hf : ∀ c e, dirWall (f c) e = if e = d0 then false else dirWall c e) :
    ∀ i e, dirWall (getCell (modifyCell g i0 f) i) e =
      if i = i0 ∧ e = d0 then false else dirWall (getCell g i) e := by
  intro i e
  by_cases hii : i = i0
  · subst hii
    rw [getCell_modifyCell_self _ _ _ hl, hf]
    by_cases hed : e = d0
    · rw [if_pos hed, if_pos ⟨rfl, hed⟩]
    · rw [if_neg hed, if_neg (fun hc => hed hc.2)]
  · rw [getCell_modifyCell_ne _ _ _ _ hii, if_neg (fun hc => hii hc.1)]

/-- Wall symmetry survives opening a wall that faces no neighboring cell
(a boundary wall): no facing flag exists to fall out of agreement. -/
theorem wallSym_clear_boundary {g g' : Grid} (hsym : WallSym g)
    (hskel : SameSkel g g') {i0 : Nat} {d0 : Dir}
    (hflags : ∀ i e, dirWall (getCell g' i) e =
      if i = i0 ∧ e = d0 then false else dirWall (getCell g i) e)
    (hnone : dirNeighbor (getCell g i0) d0 = none)
    (hback : ∀ j, dirNeighbor (getCell g j) (oppDir d0) ≠ some i0) : WallSym g' := by
  intro i d j hj
  rw [dirNeighbor_skel hskel] at hj
  rw [hflags i d, hflags j (oppDir d)]
  by_cases h1 : i = i0 ∧ d = d0
  · rw [h1.1, h1.2] at hj
    exact absurd hj (by rw [hnone]; exact fun hc => Option.noConfusion hc)
  · rw [if_neg h1]
    by_cases h2 : j = i0 ∧ oppDir d = d0
    · exfalso
      have hd : d = oppDir d0 := by rw [← h2.2, oppDir_oppDir]
      rw [hd, h2.1] at hj
      exact hback i hj
    · rw [if_neg h2]
      exact hsym i d j hj

/-- The open-pair set ignores north and west flags, and south flags of
cells with no in-bounds southern pair. -/
theorem openEdgeSet_congr2 {g g' : Grid} (hh : g'.height = g.height)
    (hw : g'.width = g.width)
    (heast : ∀ i, (getCell g' i).walls.east = (getCell g i).walls.east)
    (hsouth : ∀ i, i + g.width < gsize g →
      (getCell g' i).walls.south = (getCell g i).walls.south) :
    openEdgeSet g' = openEdgeSet g := by
  have hgs : gsize g' = gsize g := by rw [gsize, gsize, hh, hw]
  ext p
  rw [mem_openEdgeSet, mem_openEdgeSet]
  unfold openPair openPairE openPairS
  rw [hgs, hw, heast]
  constructor
  · rintro (hE | ⟨h2, h1, hwp, hflag⟩)
    · exact Or.inl hE
    · exact Or.inr ⟨h2, h1, hwp, by rw [← hsouth p.1 h1]; exact hflag⟩
  · rintro (hE | ⟨h2, h1, hwp, hflag⟩)
    · exact Or.inl hE
    · exact Or.inr ⟨h2, h1, hwp, by rw [hsouth p.1 h1]; exact hflag⟩

theorem flat_div_row {w r c : Nat} (hw : 0 < w) (hc : c < w) :
    (r * w + c) / w = r := by
  have h1 : r * w + c = c + w * r := by ring
  rw [h1, Nat.add_mul_div_left _ _ hw, Nat.div_eq_of_lt hc, Nat.zero_add]

end Maze

namespace Maze

/-- Effect of `placeGates` on a well-formed symmetric grid of width at
least 6: entrance and exit are placed in the specified boundary column
ranges, their boundary walls open, and nothing else changes. -/
theorem placeGates_spec {g : Grid} {r : RNG} {g3 : Grid} {e x : Nat} {r3 : RNG}
    (hwf : WF g) (hsym : WallSym g)
    (hh : 1 ≤ g.height) (hw6 : 6 ≤ g.width)
    (hok : placeGates g r = .ok (g3, e, x, r3)) :
    WF g3 ∧ WallSym g3 ∧
    g3.height = g.height ∧ g3.width = g.width ∧
    openEdgeSet g3 = openEdgeSet g ∧
    wallsLe g3 g ∧
    e < g.width / 6 ∧
    (∃ xc, x = (g.height - 1) * g.width + xc ∧
      g.width - 1 - g.width / 6 < xc ∧ xc ≤ g.width - 1) ∧
    (getCell g3 e).entrance = true ∧
    (getCell g3 e).walls.north = false ∧
    (∀ i, i ≠ e → (getCell g3 i).entrance = (getCell g i).entrance) ∧
    (getCell g3 x).exit = true ∧
    (getCell g3 x).walls.south = false ∧
    (∀ i, i ≠ x → (getCell g3 i).exit = (getCell g i).exit) ∧
    (∀ i, (getCell g3 i).inMaze = (getCell g i).inMaze) ∧
    (∀ i, (getCell g3 i).visited = (getCell g i).visited) ∧
    (∀ i, (getCell g3 i).onPath = (getCell g i).onPath) ∧
    (∀ i, (getCell g3 i).toPtr = (getCell g i).toPtr) := by
  have hgate : ¬ g.width / 6 = 0 := by
    have := (Nat.one_le_div_iff (show 0 < 6 by omega)).mpr hw6
    omega
  have hwpos : 0 < g.width := by omega
  simp only [placeGates] at hok
  rw [if_neg hgate] at hok
  injection hok with hok2
  set d1 := (randIntn (g.width / 6) r).1 with hd1def
  set d2 := (randIntn (g.width / 6) (randIntn (g.width / 6) r).2).1 with hd2def
  set fE := (fun (c : Cell) => { c with entrance := true, walls.north := false }) with hfEdef
  set fX := (fun (c : Cell) => { c with exit := true, walls.south := false }) with hfXdef
  have hg3 : g3 = modifyCell (modifyCell g (0 * g.width + (0 + d1)) fE)
      ((g.height - 1) * g.width + (g.width - 1 - d2)) fX :=
    (congrArg (fun t => t.1) hok2).symm
  have hent : e = 0 * g.width + (0 + d1) :=
    (congrArg (fun t => t.2.1) hok2).symm
  have hxit : x = (g.height - 1) * g.width + (g.width - 1 - d2) :=
    (congrArg (fun t => t.2.2.1) hok2).symm
  have hg3c : g3 = modifyCell (modifyCell g e fE) x fX := by
    rw [hent, hxit]
    exact hg3
  have hd1lt : d1 < g.width / 6 := Nat.mod_lt _ (by omega)
  have hd2lt : d2 < g.width / 6 := Nat.mod_lt _ (by omega)
  have hdiv6 : g.width / 6 ≤ g.width := Nat.div_le_self _ _
  have hentval : e = d1 := by omega
  have hw1 : 1 * g.width ≤ g.height * g.width := Nat.mul_le_mul_right _ hh
  have helt : e < gsize g := by
    rw [gsize]
    omega
  have hstep : (g.height - 1) * g.width + g.width = g.height * g.width := by
    have h2 : ((g.height - 1) + 1) * g.width =
        (g.height - 1) * g.width + g.width := Nat.succ_mul _ _
    rw [← h2]
    congr 1
    omega
  have hxclt : g.width - 1 - d2 < g.width := by omega
  have hxlt : x < gsize g := by
    rw [gsize]
    omega
  have hxrow : x / g.width = g.height - 1 := by
    rw [hxit]
    exact flat_div_row hwpos hxclt
  have herow : e / g.width = 0 := by
    rw [hentval]
    exact Nat.div_eq_of_lt (by omega)
  have hne : x ≠ e := by
    rcases Nat.lt_or_ge g.height 2 with hh2 | hh2
    · have hh1 : g.height - 1 = 0 := by omega
      rw [hh1] at hxit
      omega
    · have : 1 * g.width ≤ (g.height - 1) * g.width :=
        Nat.mul_le_mul_right _ (by omega)
      omega
  have hEl : e < g.cells.length := by rw [hwf.1]; exact helt
  have hXl : x < (modifyCell g e fE).cells.length := by
    rw [length_modifyCell, hwf.1]
    exact hxlt
  have hfE : ∀ c d, dirWall (fE c) d = if d = Dir.north then false else dirWall c d := by
    intro c d
    cases d <;> simp [dirWall, hfEdef]
  have hfX : ∀ c d, dirWall (fX c) d = if d = Dir.south then false else dirWall c d := by
    intro c d
    cases d <;> simp [dirWall, hfXdef]
  have hfl1 := clearSingle_flags hEl fE Dir.north hfE
  have hfl2 := clearSingle_flags hXl fX Dir.south hfX
  have hskE : SameSkel g (modifyCell g e fE) :=
    sameSkel_modifyCell g e fE (fun _ => rfl)
  have hskX : SameSkel (modifyCell g e fE) (modifyCell (modifyCell g e fE) x fX) :=
    sameSkel_modifyCell _ x fX (fun _ => rfl)
  have hdirE : ∀ j d, dirNeighbor (getCell g j) d =
      if j < gsize g then dirNeighbor (mkCell g.height g.width j) d else none := by
    intro j d
    by_cases hj : j < gsize g
    · rw [if_pos hj]
      have hnb := (wf_fields hwf hj).2.2.1
      cases d <;> simp only [dirNeighbor] <;> rw [hnb]
    · rw [if_neg hj]
      exact dirNeighbor_oob (by rw [hwf.1]; exact hj) d
  have hnoneE : dirNeighbor (getCell g e) Dir.north = none := by
    rw [hdirE, if_pos helt,
        show dirNeighbor (mkCell g.height g.width e) Dir.north =
          (mkCell g.height g.width e).neighbors.north from rfl,
        mkCell_nbrN, herow]
    simp
  have hbackE : ∀ j, dirNeighbor (getCell g j) (oppDir Dir.north) ≠ some e := by
    intro j
    rw [show oppDir Dir.north = Dir.south from rfl, hdirE]
    split
    · rw [show dirNeighbor (mkCell g.height g.width j) Dir.south =
          (mkCell g.height g.width j).neighbors.south from rfl, mkCell_nbrS]
      split
      · intro hc
        injection hc with hc
        omega
      · exact fun hc => Option.noConfusion hc
    · exact fun hc => Option.noConfusion hc
  have hsymE : WallSym (modifyCell g e fE) :=
    wallSym_clear_boundary hsym hskE hfl1 hnoneE hbackE
  have hnoneX : dirNeighbor (getCell (modifyCell g e fE) x) Dir.south = none := by
    rw [dirNeighbor_skel hskE, hdirE, if_pos hxlt,
        show dirNeighbor (mkCell g.height g.width x) Dir.south =
          (mkCell g.height g.width x).neighbors.south from rfl,
        mkCell_nbrS, hxrow]
    simp
  have hbackX : ∀ j, dirNeighbor (getCell (modifyCell g e fE) j)
      (oppDir Dir.south) ≠ some x := by
    intro j
    rw [dirNeighbor_skel hskE, show oppDir Dir.south = Dir.north from rfl, hdirE]
    split
    case isTrue hjlt =>
      rw [show dirNeighbor (mkCell g.height g.width j) Dir.north =
          (mkCell g.height g.width j).neighbors.north from rfl, mkCell_nbrN]
      split
      case isTrue hrow =>
        intro hc
        injection hc with hc
        have hwle : g.width ≤ j := (div_pos_iff_le hwpos).mp hrow
        have hjlt2 : j < g.height * g.width := hjlt
        omega
      case isFalse hrow => exact fun hc => Option.noConfusion hc
    case isFalse hjlt => exact fun hc => Option.noConfusion hc
  have hsymX : WallSym (modifyCell (modifyCell g e fE) x fX) :=
    wallSym_clear_boundary hsymE hskX hfl2 hnoneX hbackX
  have hopenE : openEdgeSet (modifyCell g e fE) = openEdgeSet g := by
    refine openEdgeSet_congr2 rfl rfl ?_ ?_
    · exact fun i => modify_pres (fun c => c.walls.east) g e fE (fun _ => rfl) i
    · exact fun i _ => modify_pres (fun c => c.walls.south) g e fE (fun _ => rfl) i
  have hopenX : openEdgeSet (modifyCell (modifyCell g e fE) x fX) =
      openEdgeSet (modifyCell g e fE) := by
    refine openEdgeSet_congr2 rfl rfl ?_ ?_
    · exact fun i => modify_pres (fun c => c.walls.east) _ x fX (fun _ => rfl) i
    · intro i hi
      have hix : i ≠ x := by
        intro hix
        subst hix
        rw [show (modifyCell g e fE).width = g.width from rfl,
            show gsize (modifyCell g e fE) = gsize g from rfl, gsize] at hi
        omega
      rw [getCell_modifyCell_ne _ _ _ _ hix]
  refine ⟨hwf.of_sameSkel (SameSkel.trans hskE hskX) |>.of_sameSkel ?_, ?_, ?_, ?_,
    ?_, ?_, by omega, ⟨g.width - 1 - d2, hxit, by omega, by omega⟩,
    ?_, ?_, ?_, ?_, ?_, ?_, ?_, ?_, ?_, ?_⟩
  · rw [hg3c]
    exact SameSkel.refl _
  · rw [hg3c]
    exact hsymX
  · rw [hg3c]
    rfl
  · rw [hg3c]
    rfl
  · rw [hg3c, hopenX, hopenE]
  · intro i d ht
    rw [hg3c, hfl2 i d] at ht
    split at ht
    · exact Bool.noConfusion ht
    · rw [hfl1 i d] at ht
      split at ht
      · exact Bool.noConfusion ht
      · exact ht
  · rw [hg3c, getCell_modifyCell_ne _ _ _ _ (fun hc => hne hc.symm),
        getCell_modifyCell_self _ _ _ hEl]
  · rw [hg3c, getCell_modifyCell_ne _ _ _ _ (fun hc => hne hc.symm),
        getCell_modifyCell_self _ _ _ hEl]
  · intro i hie
    rw [hg3c, modify_pres (fun c => c.entrance) _ x fX (fun _ => rfl) i,
        getCell_modifyCell_ne _ _ _ _ hie]
  · rw [hg3c, getCell_modifyCell_self _ _ _ hXl]
  · rw [hg3c, getCell_modifyCell_self _ _ _ hXl]
  · intro i hix
    rw [hg3c, getCell_modifyCell_ne _ _ _ _ hix,
        modify_pres (fun c => c.exit) g e fE (fun _ => rfl) i]
  · intro i
    rw [hg3c, modify_pres (fun c => c.inMaze) _ x fX (fun _ => rfl) i,
        modify_pres (fun c => c.inMaze) g e fE (fun _ => rfl) i]
  · intro i
    rw [hg3c, modify_pres (fun c => c.visited) _ x fX (fun _ => rfl) i,
        modify_pres (fun c => c.visited) g e fE (fun _ => rfl) i]
  · intro i
    rw [hg3c, modify_pres (fun c => c.onPath) _ x fX (fun _ => rfl) i,
        modify_pres (fun c => c.onPath) g e fE (fun _ => rfl) i]
  · intro i
    rw [hg3c, modify_pres (fun c => c.toPtr) _ x fX (fun _ => rfl) i,
        modify_pres (fun c => c.toPtr) g e fE (fun _ => rfl) i]

end Maze

namespace Maze

/-! ### The solver never touches geometry, walls, gates or maze flags -/

theorem tryPushDir_pres {α : Type} (sel : Cell → α)
    (hsel : ∀ c j, sel { c with visited := true, toPtr := some j } = sel c)
    (g : Grid) (st : List Nat) (cur : Nat) (d : Dir) :
    ∀ i, sel (getCell (tryPushDir g st cur d).1 i) = sel (getCell g i) := by
  intro i
  simp only [tryPushDir]
  split
  · split
    · rfl
    · split
      · exact modify_pres sel g _ _ (fun c => hsel c cur) i
      · rfl
  · rfl

theorem tryPushDir_dims (g : Grid) (st : List Nat) (cur : Nat) (d : Dir) :
    (tryPushDir g st cur d).1.height = g.height ∧
    (tryPushDir g st cur d).1.width = g.width ∧
    (tryPushDir g st cur d).1.cells.length = g.cells.length := by
  simp only [tryPushDir]
  split
  · split
    · exact ⟨rfl, rfl, rfl⟩
    · split
      · exact ⟨rfl, rfl, length_modifyCell _ _ _⟩
      · exact ⟨rfl, rfl, rfl⟩
  · exact ⟨rfl, rfl, rfl⟩

theorem dfsLoop_pres {α : Type} (sel : Cell → α)
    (hsel : ∀ c j, sel { c with visited := true, toPtr := some j } = sel c) :
    ∀ (fuel : Nat) (g : Grid) (stack : List Nat) (g' : Grid) (st' : List Nat),
    dfsLoop g stack fuel = .ok (g', st') →
    ∀ i, sel (getCell g' i) = sel (getCell g i) := by
  intro fuel
  induction fuel with
  | zero =>
    intro g stack g' st' hok
    exact Except.noConfusion hok
  | succ n ih =>
    intro g stack g' st' hok i
    cases stack with
    | nil =>
      simp only [dfsLoop] at hok
      exact Except.noConfusion hok
    | cons top rest =>
      simp only [dfsLoop] at hok
      split at hok
      · injection hok with hp
        rw [show g' = g from (congrArg Prod.fst hp).symm]
      · split at hok
        · injection hok with hp
          rw [show g' = _ from (congrArg Prod.fst hp).symm]
          exact modify_pres sel g _ _ (fun c => hsel c top) i
        · have h4 := ih _ _ _ _ hok i
          rw [h4,
            tryPushDir_pres sel hsel _ _ top Dir.west i,
            tryPushDir_pres sel hsel _ _ top Dir.south i,
            tryPushDir_pres sel hsel _ _ top Dir.east i,
            tryPushDir_pres sel hsel _ _ top Dir.north i]

theorem dfsLoop_dims :
    ∀ (fuel : Nat) (g : Grid) (stack : List Nat) (g' : Grid) (st' : List Nat),
    dfsLoop g stack fuel = .ok (g', st') →
    g'.height = g.height ∧ g'.width = g.width ∧
    g'.cells.length = g.cells.length := by
  intro fuel
  induction fuel with
  | zero =>
    intro g stack g' st' hok
    exact Except.noConfusion hok
  | succ n ih =>
    intro g stack g' st' hok
    cases stack with
    | nil =>
      simp only [dfsLoop] at hok
      exact Except.noConfusion hok
    | cons top rest =>
      simp only [dfsLoop] at hok
      split at hok
      · injection hok with hp
        rw [show g' = g from (congrArg Prod.fst hp).symm]
        exact ⟨rfl, rfl, rfl⟩
      · split at hok
        · injection hok with hp
          rw [show g' = _ from (congrArg Prod.fst hp).symm]
          exact ⟨rfl, rfl, length_modifyCell _ _ _⟩
        · set p1 := tryPushDir g rest top Dir.north with hp1
          set p2 := tryPushDir p1.1 p1.2 top Dir.east with hp2
          set p3 := tryPushDir p2.1 p2.2 top Dir.south with hp3
          obtain ⟨k1, k2, k3⟩ := ih _ _ _ _ hok
          have t1 := tryPushDir_dims g rest top Dir.north
          have t2 := tryPushDir_dims p1.1 p1.2 top Dir.east
          have t3 := tryPushDir_dims p2.1 p2.2 top Dir.south
          have t4 := tryPushDir_dims p3.1 p3.2 top Dir.west
          exact ⟨k1.trans (t4.1.trans (t3.1.trans (t2.1.trans t1.1))),
                 k2.trans (t4.2.1.trans (t3.2.1.trans (t2.2.1.trans t1.2.1))),
                 k3.trans (t4.2.2.trans (t3.2.2.trans (t2.2.2.trans t1.2.2)))⟩

theorem markPath_pres {α : Type} (sel : Cell → α)
    (hsel : ∀ c, sel { c with onPath := true } = sel c) :
    ∀ (fuel : Nat) (g : Grid) (c? : Option Nat) (g' : Grid),
    markPath g c? fuel = .ok g' →
    ∀ i, sel (getCell g' i) = sel (getCell g i) := by
  intro fuel
  induction fuel with
  | zero =>
    intro g c? g' hok
    exact Except.noConfusion hok
  | succ n ih =>
    intro g c? g' hok i
    cases c? with
    | none =>
      simp only [markPath] at hok
      injection hok with hg
      rw [← hg]
    | some c =>
      simp only [markPath] at hok
      have h2 := ih _ _ _ hok i
      rw [h2, modify_pres sel g c _ (fun c2 => hsel c2) i]

theorem markPath_dims :
    ∀ (fuel : Nat) (g : Grid) (c? : Option Nat) (g' : Grid),
    markPath g c? fuel = .ok g' →
    g'.height = g.height ∧ g'.width = g.width ∧
    g'.cells.length = g.cells.length := by
  intro fuel
  induction fuel with
  | zero =>
    intro g c? g' hok
    exact Except.noConfusion hok
  | succ n ih =>
    intro g c? g' hok
    cases c? with
    | none =>
      simp only [markPath] at hok
      injection hok with hg
      rw [← hg]
      exact ⟨rfl, rfl, rfl⟩
    | some c =>
      simp only [markPath] at hok
      obtain ⟨k1, k2, k3⟩ := ih _ _ _ hok
      exact ⟨k1, k2, k3.trans (length_modifyCell _ _ _)⟩

/-- The whole solving phase preserves geometry, wall state, gate flags
and maze membership. -/
theorem solveGrid_pres {g : Grid} {eI xI fuel : Nat} {g' : Grid}
    (hok : solveGrid g eI xI fuel = .ok g') :
    SameSkel g g' ∧
    (∀ i, (getCell g' i).walls = (getCell g i).walls) ∧
    (∀ i, (getCell g' i).entrance = (getCell g i).entrance) ∧
    (∀ i, (getCell g' i).exit = (getCell g i).exit) ∧
    (∀ i, (getCell g' i).inMaze = (getCell g i).inMaze) := by
  simp only [solveGrid] at hok
  split at hok
  · exact Except.noConfusion hok
  · rename_i g3 st3 heqd
    set g1 := clearWalk g with hg1
    set g2 := modifyCell g1 eI (fun c => { c with visited := true }) with hg2
    have hdims3 := dfsLoop_dims _ _ _ _ _ heqd
    have hdims4 := markPath_dims _ _ _ _ hok
    have hskel2 : SameSkel g g2 := by
      refine SameSkel.trans (sameSkel_clearWalk g)
        (sameSkel_modifyCell g1 eI _ (fun _ => rfl))
    have hsk3 := dfsLoop_pres skeleton (fun _ _ => rfl) _ _ _ _ _ heqd
    have hsk4 := markPath_pres skeleton (fun _ => rfl) _ _ _ _ hok
    have hskel : SameSkel g g' := by
      refine ⟨?_, ?_, ?_, ?_⟩
      · rw [hdims4.1, hdims3.1]
        exact hskel2.1
      · rw [hdims4.2.1, hdims3.2.1]
        exact hskel2.2.1
      · rw [hdims4.2.2, hdims3.2.2]
        exact hskel2.2.2.1
      · intro i
        rw [hsk4 i, hsk3 i]
        exact hskel2.2.2.2 i
    have hcw : ∀ (α : Type) (sel : Cell → α),
        (∀ c j, sel { c with visited := true, toPtr := some j } = sel c) →
        (∀ c, sel { c with onPath := true } = sel c) →
        (∀ c, sel { c with toPtr := none } = sel c) →
        (∀ c, sel { c with visited := true } = sel c) →
        ∀ i, sel (getCell g' i) = sel (getCell g i) := by
      intro α sel hs1 hs2 hs3 hs4 i
      rw [markPath_pres sel hs2 _ _ _ _ hok i,
          dfsLoop_pres sel hs1 _ _ _ _ _ heqd i,
          modify_pres sel g1 eI _ (fun c => hs4 c) i]
      rw [hg1, getCell_clearWalk]
      exact hs3 (getCell g i)
    exact ⟨hskel,
      hcw _ (fun c => c.walls) (fun _ _ => rfl) (fun _ => rfl) (fun _ => rfl)
        (fun _ => rfl),
      hcw _ (fun c => c.entrance) (fun _ _ => rfl) (fun _ => rfl) (fun _ => rfl)
        (fun _ => rfl),
      hcw _ (fun c => c.exit) (fun _ _ => rfl) (fun _ => rfl) (fun _ => rfl)
        (fun _ => rfl),
      hcw _ (fun c => c.inMaze) (fun _ _ => rfl) (fun _ => rfl) (fun _ => rfl)
        (fun _ => rfl)⟩

end Maze

namespace Maze

/-- Master postcondition of a completed generation run: the result
satisfies `GenPost`, and when the solve flag is off the visited and
on-path flags are all still clear. -/
theorem RectangleMaze_post {h w : Nat} (hh : 1 ≤ h) (hw6 : 6 ≤ w)
    {solve : Bool} {r : RNG} {fuel : Nat}
    {rect : Rectangle} {err : Option String} {rF : RNG}
    (hok : RectangleMaze h w solve r fuel = .ok (rect, err, rF)) :
    GenPost h w rect ∧ wallsLe rect.g (createGrid h w) ∧
    (solve = false →
      ∀ i, (getCell rect.g i).visited = false ∧ (getCell rect.g i).onPath = false) := by
  have hw0 : 0 < w := by omega
  have hsz : 0 < h * w := by
    have := Nat.mul_le_mul_right w hh
    omega
  have hlenall : (allCells (createGrid h w)).length = h * w := by
    unfold allCells
    rw [List.length_range]
    rfl
  have hshuffle := shuffle_mem (l := allCells (createGrid h w))
    (by rw [hlenall]; exact hsz) r
  simp only [RectangleMaze] at hok
  split at hok
  · exact Except.noConfusion hok
  · rename_i s0 rest heqstack
    have hmemstack : ∀ v, v < h * w → v = s0 ∨ v ∈ rest := by
      intro v hv
      have : v ∈ (shuffle (allCells (createGrid h w)) r).1 :=
        (hshuffle.2 v).mpr ((mem_allCells _ v).mpr hv)
      rw [heqstack] at this
      exact List.mem_cons.mp this
    have hstackmem : ∀ v ∈ (s0 :: rest : List Nat), v < h * w := by
      intro v hv
      rw [← heqstack] at hv
      have := (hshuffle.2 v).mp hv
      exact (mem_allCells _ v).mp this
    have hs0lt : s0 < h * w := hstackmem s0 (List.mem_cons_self s0 rest)
    split at hok
    · exact Except.noConfusion hok
    · rename_i g2 r2 heqw
      split at hok
      · exact Except.noConfusion hok
      · rename_i g3 eI xI r3 heqp
        -- the grid after the initial marking
        set g1 := modifyCell (createGrid h w) s0
          (fun (c : Cell) => { c with inMaze := true }) with hg1def
        have hs0l : s0 < (createGrid h w).cells.length := by
          rw [length_createGrid]
          exact hs0lt
        have hwf1 : WF g1 :=
          (wf_createGrid h w).of_sameSkel
            (sameSkel_modifyCell (createGrid h w) s0
              (fun (c : Cell) => { c with inMaze := true }) (fun _ => rfl))
        have hwalls1 : ∀ i, (getCell g1 i).walls = (getCell (createGrid h w) i).walls :=
          fun i => modify_pres (fun c => c.walls) (createGrid h w) s0
            (fun (c : Cell) => { c with inMaze := true }) (fun _ => rfl) i
        have hsym1 : WallSym g1 :=
          wallSym_congr (sameSkel_modifyCell (createGrid h w) s0
              (fun (c : Cell) => { c with inMaze := true }) (fun _ => rfl)) hwalls1
            (wallSym_createGrid h w)
        have hopen1 : openEdgeSet g1 = ∅ := by
          rw [@openEdgeSet_congr (createGrid h w) g1 rfl rfl hwalls1,
            openEdgeSet_createGrid]
        have hinset1 : inSet g1 = {s0} := by
          ext i
          rw [mem_inSet, Finset.mem_singleton]
          constructor
          · rintro ⟨hlt, hin⟩
            by_contra hne
            rw [hg1def, getCell_modifyCell_ne _ _ _ _ hne] at hin
            rw [show (getCell (createGrid h w) i).inMaze =
                (restFields (getCell (createGrid h w) i)).2.1 from rfl,
              restFields_createGrid] at hin
            exact Bool.noConfusion hin
          · rintro rfl
            refine ⟨hs0lt, ?_⟩
            rw [hg1def, getCell_modifyCell_self _ _ _ hs0l]
        have hcert1 : TreeCert (inSet g1) (openEdgeSet g1) := by
          rw [hinset1, hopen1]
          exact TreeCert.single s0
        have hflags1 : ∀ i, (getCell g1 i).entrance = false ∧
            (getCell g1 i).exit = false ∧ (getCell g1 i).visited = false ∧
            (getCell g1 i).onPath = false := by
          intro i
          refine ⟨?_, ?_, ?_, ?_⟩
          · rw [hg1def, modify_pres (fun c => c.entrance) (createGrid h w) s0
                (fun (c : Cell) => { c with inMaze := true }) (fun _ => rfl) i,
              show (getCell (createGrid h w) i).entrance =
                (restFields (getCell (createGrid h w) i)).2.2.1 from rfl,
              restFields_createGrid]
          · rw [hg1def, modify_pres (fun c => c.exit) (createGrid h w) s0
                (fun (c : Cell) => { c with inMaze := true }) (fun _ => rfl) i,
              show (getCell (createGrid h w) i).exit =
                (restFields (getCell (createGrid h w) i)).2.2.2.1 from rfl,
              restFields_createGrid]
          · rw [hg1def, modify_pres (fun c => c.visited) (createGrid h w) s0
                (fun (c : Cell) => { c with inMaze := true }) (fun _ => rfl) i,
              show (getCell (createGrid h w) i).visited =
                (restFields (getCell (createGrid h w) i)).2.2.2.2.1 from rfl,
              restFields_createGrid]
          · rw [hg1def, modify_pres (fun c => c.onPath) (createGrid h w) s0
                (fun (c : Cell) => { c with inMaze := true }) (fun _ => rfl) i,
              show (getCell (createGrid h w) i).onPath =
                (restFields (getCell (createGrid h w) i)).2.2.2.2.2 from rfl,
              restFields_createGrid]
        obtain ⟨k1, k2, k3, k4, k5, k6, k7, k8, k9, k10, k11, k12⟩ :=
          wilsonLoop_spec rest g1 _ fuel g2 r2 heqw hwf1 hsym1 hcert1
            (fun s hs => hstackmem s (List.mem_cons_of_mem s0 hs))
        have hgs2 : gsize g2 = h * w := by
          rw [gsize, k4, k5]
          rfl
        have hinset2 : inSet g2 = Finset.range (h * w) := by
          apply Finset.Subset.antisymm
          · intro i hi
            rw [mem_inSet, hgs2] at hi
            exact Finset.mem_range.mpr hi.1
          · intro i hi
            rw [Finset.mem_range] at hi
            rcases hmemstack i hi with rfl | hmem
            · exact k7 (by rw [hinset1]; exact Finset.mem_singleton_self i)
            · exact k8 i hmem
        have hcert2 : TreeCert (Finset.range (h * w)) (openEdgeSet g2) := by
          rw [← hinset2]
          exact k3
        have hh2 : g2.height = h := by rw [k4]; rfl
        have hw2 : g2.width = w := by rw [k5]; rfl
        obtain ⟨p1, p2, p3, p4, p5, p6, p7, p8, p9, p10, p11, p12, p13, p14,
            p15, p16, p17, p18⟩ :=
          placeGates_spec k1 k2 (by rw [hh2]; exact hh) (by rw [hw2]; exact hw6) heqp
        have hcert3 : TreeCert (Finset.range (h * w)) (openEdgeSet g3) := by
          rw [p5]
          exact hcert2
        have hentCol : eI < w / 6 := by rw [← hw2]; exact p7
        have hexitCol : ∃ xc, xI = (h - 1) * w + xc ∧
            w - 1 - w / 6 < xc ∧ xc ≤ w - 1 := by
          rw [← hh2, ← hw2]
          exact p8
        have hentU : ∀ i, (getCell g3 i).entrance = true → i = eI := by
          intro i hi
          by_contra hne
          rw [p11 i hne, k9 i, (hflags1 i).1] at hi
          exact Bool.noConfusion hi
        have hexitU : ∀ i, (getCell g3 i).exit = true → i = xI := by
          intro i hi
          by_contra hne
          rw [p14 i hne, k10 i, (hflags1 i).2.1] at hi
          exact Bool.noConfusion hi
        have hwle3 : wallsLe g3 (createGrid h w) := by
          refine wallsLe_trans p6 (wallsLe_trans k6 (wallsLe_of_sameWalls hwalls1))
        have hdh3 : g3.height = h := by rw [p3]; exact hh2
        have hdw3 : g3.width = w := by rw [p4]; exact hw2
        split at hok
        · -- solve = true: the generator runs the inline solver
          split at hok
          · exact Except.noConfusion hok
          · rename_i g4 heqs
            injection hok with hok2
            have hrect : rect = Rectangle.mk g4 eI xI false :=
              (congrArg (fun t => t.1) hok2).symm
            obtain ⟨hsk, hwalls4, hent4, hexit4, _⟩ := solveGrid_pres heqs
            have hopen4 : openEdgeSet g4 = openEdgeSet g3 :=
              openEdgeSet_congr hsk.1 hsk.2.1 hwalls4
            refine ⟨?_, ?_, ?_⟩
            · rw [hrect]
              refine ⟨hh, hw6, ?_, ?_, p1.of_sameSkel hsk, ?_, ?_,
                hentCol, ?_, ?_, ?_, hexitCol, ?_, ?_, ?_, rfl⟩
              · rw [hsk.1]; exact hdh3
              · rw [hsk.2.1]; exact hdw3
              · exact wallSym_congr hsk hwalls4 p2
              · rw [hopen4]; exact hcert3
              · rw [hent4]; exact p9
              · rw [show (getCell g4 eI).walls.north =
                    ((getCell g4 eI).walls).north from rfl, hwalls4]
                exact p10
              · intro i hi
                rw [hent4] at hi
                exact hentU i hi
              · rw [hexit4]; exact p12
              · rw [show (getCell g4 xI).walls.south =
                    ((getCell g4 xI).walls).south from rfl, hwalls4]
                exact p13
              · intro i hi
                rw [hexit4] at hi
                exact hexitU i hi
            · rw [hrect]
              exact wallsLe_trans (wallsLe_of_sameWalls hwalls4) hwle3
            · intro hfalse
              rename_i hsolve _ _
              rw [hsolve] at hfalse
              exact Bool.noConfusion hfalse
        · -- solve = false
          injection hok with hok2
          have hrect : rect = Rectangle.mk g3 eI xI false :=
            (congrArg (fun t => t.1) hok2).symm
          refine ⟨?_, ?_, ?_⟩
          · rw [hrect]
            exact ⟨hh, hw6, hdh3, hdw3, p1, p2, hcert3, hentCol, p9, p10,
              hentU, hexitCol, p12, p13, hexitU, rfl⟩
          · rw [hrect]
            exact hwle3
          · intro _ i
            rw [hrect]
            exact ⟨by rw [p16 i, k11 i]; exact (hflags1 i).2.2.1,
                   by rw [p17 i, k12 i]; exact (hflags1 i).2.2.2⟩

end Maze

namespace Maze

theorem flat_mod_col {w r c : Nat} (hw : 0 < w) (hc : c < w) :
    (r * w + c) % w = c := by
  have h1 : r * w + c = c + w * r := by ring
  rw [h1, Nat.add_mul_mod_self_left, Nat.mod_eq_of_lt hc]

/-- The `Solve` method preserves the grid's geometry and wall state. -/
theorem Solve_pres {rect rect2 : Rectangle} {fuel : Nat}
    (hok : Solve rect fuel = .ok rect2) :
    SameSkel rect.g rect2.g ∧
    (∀ i, (getCell rect2.g i).walls = (getCell rect.g i).walls) := by
  simp only [Solve] at hok
  split at hok
  · injection hok with hr
    rw [← hr]
    exact ⟨SameSkel.refl _, fun _ => rfl⟩
  · split at hok
    · exact Except.noConfusion hok
    · rename_i g4 heqs
      injection hok with hr
      obtain ⟨hsk, hwalls, _, _, _⟩ := solveGrid_pres heqs
      rw [← hr]
      exact ⟨hsk, hwalls⟩

/-- Recover the full result tuple from the rectangle-projection form of a
completed run. -/
theorem run_of_proj {h w : Nat} {solve : Bool} {r : RNG} {fuel : Nat}
    {rect : Rectangle}
    (hok : (RectangleMaze h w solve r fuel).toOption.map (fun t => t.1) =
      some rect) :
    ∃ err rF, RectangleMaze h w solve r fuel = .ok (rect, err, rF) := by
  cases hrun : RectangleMaze h w solve r fuel with
  | error e =>
    rw [hrun] at hok
    exact Option.noConfusion hok
  | ok t =>
    obtain ⟨rect2, err, rF⟩ := t
    rw [hrun] at hok
    simp only [Except.toOption, Option.map_some'] at hok
    injection hok with hok
    rw [← hok]
    exact ⟨err, rF, rfl⟩

theorem solve_of_proj {rect rect2 : Rectangle} {fuel : Nat}
    (hok : (Solve rect fuel).toOption = some rect2) :
    Solve rect fuel = .ok rect2 := by
  cases hrun : Solve rect fuel with
  | error e =>
    rw [hrun] at hok
    exact Option.noConfusion hok
  | ok t =>
    rw [hrun] at hok
    injection hok with hok
    rw [hok]

end Maze

namespace Maze

/-! ### Claim C1: the generated open-passage graph is a spanning tree -/

/-- C1: for every completed generation with `2 ≤ height` and
`6 ≤ width`, on any random stream: exactly `height * width - 1`
wall-pairs are open, every cell reaches every other through open
passages, and removing any single open passage disconnects its two
endpoint cells — the open-passage graph is a spanning tree. -/
theorem claim_C1_spanning_tree (h w : Nat) (solve : Bool) (r : RNG) (fuel : Nat)
    (rect : Rectangle) (hh : 2 ≤ h) (hw : 6 ≤ w)
    (hok : (RectangleMaze h w solve r fuel).toOption.map (fun t => t.1) =
      some rect) :
    edgeCount rect.g + 1 = h * w ∧
    (∀ a, a < h * w → ∀ b, b < h * w → Reach rect.g a b) ∧
    (∀ p ∈ openEdgeSet rect.g,
      ¬ EReach ((openEdgeSet rect.g).erase p) p.1 p.2) := by
  obtain ⟨err, rF, hrun⟩ := run_of_proj hok
  obtain ⟨gp, _, _⟩ := RectangleMaze_post (by omega) hw hrun
  have hcert := gp.cert
  refine ⟨?_, ?_, hcert.bridge⟩
  · have hcard := hcert.card_eq
    rw [Finset.card_range] at hcard
    rw [edgeCount]
    omega
  · intro a ha b hb
    exact hcert.conn a (Finset.mem_range.mpr ha) b (Finset.mem_range.mpr hb)

/-- C1 witness: the concrete completed 2 by 6 run is a spanning tree of
its 12 cells. -/
theorem claim_C1_witness :
    edgeCount demoRect.g + 1 = 2 * 6 ∧
    (∀ a, a < 2 * 6 → ∀ b, b < 2 * 6 → Reach demoRect.g a b) ∧
    (∀ p ∈ openEdgeSet demoRect.g,
      ¬ EReach ((openEdgeSet demoRect.g).erase p) p.1 p.2) :=
  claim_C1_spanning_tree 2 6 false (mkRNG demoStream) 30 demoRect
    (by decide) (by decide) (by decide!)

end Maze

namespace Maze

/-! ### Claim C2: wall-state symmetry is an invariant of every operation -/

/-- C2: the two stored copies of each shared wall never disagree: the
fresh grid is symmetric, every two-sided removal during the retrace
clears both facing flags in the same step and so preserves symmetry,
every completed generation (including the boundary entrance/exit
openings, which face no neighboring cell) yields a symmetric grid, and
the solver preserves symmetry. -/
theorem claim_C2_wall_symmetry :
    (∀ h w : Nat, WallSym (createGrid h w)) ∧
    (∀ (g : Grid) (src dst : Nat), WF g → src < gsize g →
      dst ∈ (getCell g src).neighborhood → WallSym g →
      WallSym (removeWallBetween g src dst)) ∧
    (∀ (h w : Nat) (solve : Bool) (r : RNG) (fuel : Nat) (rect : Rectangle),
      1 ≤ h → 6 ≤ w →
      (RectangleMaze h w solve r fuel).toOption.map (fun t => t.1) = some rect →
      WallSym rect.g) ∧
    (∀ (rect rect2 : Rectangle) (fuel : Nat),
      (Solve rect fuel).toOption = some rect2 →
      WallSym rect.g → WallSym rect2.g) := by
  refine ⟨wallSym_createGrid, ?_, ?_, ?_⟩
  · intro g src dst hwf hsrc hmem hsym
    exact (removeWall_spec hwf hsrc hmem).sym hsym
  · intro h w solve r fuel rect hh hw hok
    obtain ⟨err, rF, hrun⟩ := run_of_proj hok
    obtain ⟨gp, _, _⟩ := RectangleMaze_post hh hw hrun
    exact gp.sym
  · intro rect rect2 fuel hok hsym
    obtain ⟨hsk, hwalls⟩ := Solve_pres (solve_of_proj hok)
    exact wallSym_congr hsk hwalls hsym

/-- C2 witness: symmetry of the fresh 2 by 2 grid, of a removal on it,
of the concrete generated maze, and of its solved form. -/
theorem claim_C2_witness :
    WallSym (createGrid 2 2) ∧
    WallSym (removeWallBetween (createGrid 2 2) 0 1) ∧
    WallSym demoRect.g ∧ WallSym demoSolved.g := by
  refine ⟨claim_C2_wall_symmetry.1 2 2,
    claim_C2_wall_symmetry.2.1 (createGrid 2 2) 0 1 (wf_createGrid 2 2)
      (by decide) (by decide) (claim_C2_wall_symmetry.1 2 2),
    claim_C2_wall_symmetry.2.2.1 2 6 false (mkRNG demoStream) 30 demoRect
      (by decide) (by decide) (by decide!),
    claim_C2_wall_symmetry.2.2.2 demoRect demoSolved 40 (by decide!)
      (claim_C2_wall_symmetry.2.2.1 2 6 false (mkRNG demoStream) 30 demoRect
        (by decide) (by decide) (by decide!))⟩

/-! ### Claim C4: entrance and exit placement -/

/-- C4: in every completed generation with width at least 6 (the claim's
premise; the code reaches this point for any height at least 1): exactly
one cell carries the entrance flag, on row 0 with column below
`width / 6` and its north wall open; exactly one cell carries the exit
flag, on row `height - 1` with column in the mirrored rightmost range
and its south wall open. -/
theorem claim_C4_gates (h w : Nat) (solve : Bool) (r : RNG) (fuel : Nat)
    (rect : Rectangle) (hh : 1 ≤ h) (hw : 6 ≤ w)
    (hok : (RectangleMaze h w solve r fuel).toOption.map (fun t => t.1) =
      some rect) :
    ((getCell rect.g rect.entrance).entrance = true ∧
     rect.entrance / w = 0 ∧ rect.entrance % w < w / 6 ∧
     (getCell rect.g rect.entrance).walls.north = false ∧
     (∀ i, (getCell rect.g i).entrance = true → i = rect.entrance)) ∧
    ((getCell rect.g rect.exit).exit = true ∧
     rect.exit / w = h - 1 ∧
     w - 1 - w / 6 < rect.exit % w ∧ rect.exit % w ≤ w - 1 ∧
     (getCell rect.g rect.exit).walls.south = false ∧
     (∀ i, (getCell rect.g i).exit = true → i = rect.exit)) := by
  obtain ⟨err, rF, hrun⟩ := run_of_proj hok
  obtain ⟨gp, _, _⟩ := RectangleMaze_post hh hw hrun
  have hw0 : 0 < w := by omega
  have hentw : rect.entrance < w :=
    lt_of_lt_of_le gp.entCol (Nat.div_le_self w 6)
  obtain ⟨xc, hxc, hxc1, hxc2⟩ := gp.exitCol
  refine ⟨⟨gp.entFlag, Nat.div_eq_of_lt hentw, ?_, gp.entWall, gp.entUnique⟩,
    ⟨gp.exitFlag, ?_, ?_, ?_, gp.exitWall, gp.exitUnique⟩⟩
  · rw [Nat.mod_eq_of_lt hentw]
    exact gp.entCol
  · rw [hxc]
    exact flat_div_row hw0 (by omega)
  · rw [hxc, flat_mod_col hw0 (by omega)]
    exact hxc1
  · rw [hxc, flat_mod_col hw0 (by omega)]
    exact hxc2

/-- C4 witness: gate placement on the concrete 2 by 6 run. -/
theorem claim_C4_witness :
    ((getCell demoRect.g demoRect.entrance).entrance = true ∧
     demoRect.entrance / 6 = 0 ∧ demoRect.entrance % 6 < 6 / 6 ∧
     (getCell demoRect.g demoRect.entrance).walls.north = false ∧
     (∀ i, (getCell demoRect.g i).entrance = true → i = demoRect.entrance)) ∧
    ((getCell demoRect.g demoRect.exit).exit = true ∧
     demoRect.exit / 6 = 2 - 1 ∧
     6 - 1 - 6 / 6 < demoRect.exit % 6 ∧ demoRect.exit % 6 ≤ 6 - 1 ∧
     (getCell demoRect.g demoRect.exit).walls.south = false ∧
     (∀ i, (getCell demoRect.g i).exit = true → i = demoRect.exit)) :=
  claim_C4_gates 2 6 false (mkRNG demoStream) 30 demoRect
    (by decide) (by decide) (by decide!)

/-! ### Claim C10: wall flags are monotone -/

/-- C10: construction raises all four wall flags of every cell; the
retrace, the gate placement, and hence a whole completed generation only
ever lower wall flags; and the solver changes no wall flag at all. -/
theorem claim_C10_wall_monotonicity :
    (∀ h w i d, dirWall (getCell (createGrid h w) i) d = true) ∧
    (∀ (g : Grid) (src : Nat) (l : List Nat) (fuel : Nat) (g' : Grid),
      WF g → PtrChain g src l → retraceLoop g src fuel = .ok g' →
      wallsLe g' g) ∧
    (∀ (g : Grid) (r : RNG) (g' : Grid) (e x : Nat) (r' : RNG),
      WF g → WallSym g → 1 ≤ g.height → 6 ≤ g.width →
      placeGates g r = .ok (g', e, x, r') → wallsLe g' g) ∧
    (∀ (h w : Nat) (solve : Bool) (r : RNG) (fuel : Nat) (rect : Rectangle),
      1 ≤ h → 6 ≤ w →
      (RectangleMaze h w solve r fuel).toOption.map (fun t => t.1) = some rect →
      wallsLe rect.g (createGrid h w)) ∧
    (∀ (rect rect2 : Rectangle) (fuel : Nat),
      (Solve rect fuel).toOption = some rect2 →
      ∀ i, (getCell rect2.g i).walls = (getCell rect.g i).walls) := by
  refine ⟨dirWall_createGrid, ?_, ?_, ?_, ?_⟩
  · intro g src l fuel g' hwf hch hok
    exact (retrace_ok_spec l g src fuel g' hwf hch hok).wmono
  · intro g r g' e x r' hwf hsym hh hw hok
    exact (placeGates_spec hwf hsym hh hw hok).2.2.2.2.2.1
  · intro h w solve r fuel rect hh hw hok
    obtain ⟨err, rF, hrun⟩ := run_of_proj hok
    exact (RectangleMaze_post hh hw hrun).2.1
  · intro rect rect2 fuel hok
    exact (Solve_pres (solve_of_proj hok)).2

/-- C10 witness: the fresh 2 by 6 grid has all walls up, the generated
maze only lowered walls, and solving it changed no wall. -/
theorem claim_C10_witness :
    (∀ d, dirWall (getCell (createGrid 2 6) 0) d = true) ∧
    wallsLe demoRect.g (createGrid 2 6) ∧
    (∀ i, (getCell demoSolved.g i).walls = (getCell demoRect.g i).walls) :=
  ⟨fun d => claim_C10_wall_monotonicity.1 2 6 0 d,
   claim_C10_wall_monotonicity.2.2.2.1 2 6 false (mkRNG demoStream) 30 demoRect
     (by decide) (by decide) (by decide!),
   claim_C10_wall_monotonicity.2.2.2.2 demoRect demoSolved 40 (by decide!)⟩

end Maze

namespace Maze

/-! ### Simple paths: basic structure, reversal -/

theorem EPath.head_shape {E : Finset (Nat × Nat)} {a b : Nat} {l : List Nat}
    (h : EPath E a b l) : ∃ m, l = a :: m := by
  cases h
  case nil => exact ⟨[], rfl⟩
  case cons => exact ⟨_, rfl⟩

theorem EPath.last_mem {E : Finset (Nat × Nat)} {a b : Nat} {l : List Nat}
    (h : EPath E a b l) : b ∈ l := by
  induction h with
  | nil a => exact List.mem_singleton_self a
  | cons a hedge hpath hnotin ih => exact List.mem_cons_of_mem _ ih

theorem EPath.snoc {E : Finset (Nat × Nat)} {a b c : Nat} {l : List Nat}
    (h : EPath E a b l) (hedge : edgeRel E b c) (hc : c ∉ l) :
    EPath E a c (l ++ [c]) := by
  induction h with
  | nil a =>
    refine EPath.cons a hedge (EPath.nil c) ?_
    intro hm
    simp only [List.append_eq, List.nil_append, List.mem_singleton] at hm
    exact hc (List.mem_singleton.mpr hm.symm)
  | cons a hedge2 hpath hnotin ih =>
    rename_i b2 c2 l2
    refine EPath.cons a hedge2
      (ih hedge (fun hm => hc (List.mem_cons_of_mem _ hm))) ?_
    intro hm
    simp only [List.append_eq, List.mem_append, List.mem_singleton] at hm
    rcases hm with hm | hm
    · exact hnotin hm
    · exact hc (by rw [← hm]; exact List.mem_cons_self a _)

theorem EPath.reverse {E : Finset (Nat × Nat)} {a b : Nat} {l : List Nat}
    (h : EPath E a b l) : EPath E b a l.reverse := by
  induction h with
  | nil a => exact EPath.nil a
  | cons a hedge hpath hnotin ih =>
    rw [List.reverse_cons]
    refine ih.snoc (edgeRel.swap hedge) ?_
    rw [List.mem_reverse]
    exact hnotin

theorem epath_self {E : Finset (Nat × Nat)} {a : Nat} {l : List Nat}
    (h : EPath E a a l) : l = [a] := by
  cases h with
  | nil => rfl
  | cons _ hedge hpath hnotin =>
    exact absurd hpath.last_mem hnotin

/-! ### Path uniqueness in a certified tree -/

theorem epath_insert_avoid {E : Finset (Nat × Nat)} {p : Nat × Nat} {v u : Nat}
    (hp : p = (v, u) ∨ p = (u, v)) {x y : Nat} {l : List Nat}
    (h : EPath (insert p E) x y l) (hv : v ∉ l) : EPath E x y l := by
  induction h with
  | nil a => exact EPath.nil a
  | cons a hedge hpath hnotin ih =>
    rename_i b c l2
    have hbl : b ∈ l2 := by
      obtain ⟨m, hm⟩ := hpath.head_shape
      rw [hm]
      exact List.mem_cons_self b m
    have hav : a ≠ v := fun hc => hv (hc ▸ List.mem_cons_self a l2)
    have hbv : b ≠ v := fun hc => hv (List.mem_cons_of_mem a (hc ▸ hbl))
    have hedge2 : edgeRel E a b := by
      rcases hedge with hm | hm
      · rcases Finset.mem_insert.mp hm with he | he
        · exfalso
          rcases hp with rfl | rfl
          · exact hav (congrArg Prod.fst he.symm).symm
          · exact hbv (congrArg Prod.snd he.symm).symm
        · exact Or.inl he
      · rcases Finset.mem_insert.mp hm with he | he
        · exfalso
          rcases hp with rfl | rfl
          · exact hbv (congrArg Prod.fst he.symm).symm
          · exact hav (congrArg Prod.snd he.symm).symm
        · exact Or.inr he
    exact EPath.cons a hedge2 (ih (fun hm => hv (List.mem_cons_of_mem a hm)))
      hnotin

theorem edge_at_pendant {S : Finset Nat} {E : Finset (Nat × Nat)}
    {p : Nat × Nat} {v u : Nat}
    (hend : ∀ q ∈ E, q.1 ∈ S ∧ q.2 ∈ S) (hv : v ∉ S) (hu : u ∈ S)
    (hp : p = (v, u) ∨ p = (u, v)) {z : Nat}
    (hedge : edgeRel (insert p E) v z) : z = u := by
  rcases hedge with hm | hm
  · rcases Finset.mem_insert.mp hm with he | he
    · rcases hp with rfl | rfl
      · rw [Prod.mk.injEq] at he
        exact he.2
      · rw [Prod.mk.injEq] at he
        exact absurd (by rw [he.1]; exact hu) hv
    · exact absurd (hend _ he).1 hv
  · rcases Finset.mem_insert.mp hm with he | he
    · rcases hp with rfl | rfl
      · rw [Prod.mk.injEq] at he
        exact absurd (by rw [he.2]; exact hu) hv
      · rw [Prod.mk.injEq] at he
        exact he.1
    · exact absurd (hend _ he).2 hv

end Maze

namespace Maze

/-- A simple path between vertices other than the pendant vertex `v`
never passes through `v`: entering and leaving `v` would both use its
single edge and repeat `u`. -/
theorem epath_not_through {S : Finset Nat} {E : Finset (Nat × Nat)}
    {p : Nat × Nat} {v u : Nat}
    (hend : ∀ q ∈ E, q.1 ∈ S ∧ q.2 ∈ S) (hv : v ∉ S) (hu : u ∈ S)
    (hp : p = (v, u) ∨ p = (u, v)) :
    ∀ {x y : Nat} {l : List Nat}, EPath (insert p E) x y l →
      x ≠ v → y ≠ v → v ∉ l := by
  intro x y l h
  induction h with
  | nil a =>
    intro hxv _ hm
    rw [List.mem_singleton] at hm
    exact hxv hm.symm
  | cons a hedge hpath hnotin ih =>
    rename_i b c l2
    intro hav hcv hm
    rcases List.mem_cons.mp hm with hm2 | hm2
    · exact hav hm2.symm
    · by_cases hbv : b = v
      · subst hbv
        have hau : a = u := by
          have : edgeRel (insert p E) b a := edgeRel.swap hedge
          exact edge_at_pendant hend hv hu hp this
        cases hpath with
        | nil => exact hcv rfl
        | cons _ hedge2 hpath2 hnotin2 =>
          rename_i bb l3
          have hbbu : bb = u := edge_at_pendant hend hv hu hp hedge2
          obtain ⟨m, hm3⟩ := hpath2.head_shape
          have hul3 : u ∈ l3 := by
            rw [hbbu] at hm3
            rw [hm3]
            exact List.mem_cons_self u _
          rw [← hau] at hul3
          exact hnotin (List.mem_cons_of_mem _ hul3)
      · exact ih hbv hcv hm2

/-- In a certified tree there is at most one simple path between any two
vertices. -/
theorem cert_epath_unique {S : Finset Nat} {E : Finset (Nat × Nat)}
    (hc : TreeCert S E) :
    ∀ (a b : Nat) (l1 l2 : List Nat),
      EPath E a b l1 → EPath E a b l2 → l1 = l2 := by
  induction hc with
  | single w0 =>
    intro a b l1 l2 h1 h2
    have hab : a = b := by
      cases h1 with
      | nil => rfl
      | cons _ hedge _ _ =>
        rcases hedge with hm | hm <;> exact absurd hm (Finset.not_mem_empty _)
    subst hab
    rw [epath_self h1, epath_self h2]
  | leaf v u p0 hcert hv hu hp0 ih =>
    rename_i S2 E2
    have hend := hcert.endpoints
    have hvstart : ∀ (b : Nat) (l1 l2 : List Nat), b ≠ v →
        EPath (insert p0 E2) v b l1 → EPath (insert p0 E2) v b l2 → l1 = l2 := by
      intro b l1 l2 hbv h1 h2
      cases h1 with
      | nil => exact absurd rfl hbv
      | cons _ hedge1 hpath1 hnotin1 =>
        rename_i b1 m1
        cases h2 with
        | nil => exact absurd rfl hbv
        | cons _ hedge2 hpath2 hnotin2 =>
          rename_i b2 m2
          have hb1 : b1 = u := edge_at_pendant hend hv hu hp0 hedge1
          have hb2 : b2 = u := edge_at_pendant hend hv hu hp0 hedge2
          rw [hb1] at hpath1
          rw [hb2] at hpath2
          have he1 : EPath E2 u b m1 := epath_insert_avoid hp0 hpath1 hnotin1
          have he2 : EPath E2 u b m2 := epath_insert_avoid hp0 hpath2 hnotin2
          rw [ih u b m1 m2 he1 he2]
    intro a b l1 l2 h1 h2
    by_cases hab : a = b
    · subst hab
      rw [epath_self h1, epath_self h2]
    · by_cases hav : a = v
      · subst hav
        exact hvstart b l1 l2 (fun hc2 => hab hc2.symm) h1 h2
      · by_cases hbv : b = v
        · subst hbv
          have hr := hvstart a l1.reverse l2.reverse (fun hc2 => hab hc2)
            h1.reverse h2.reverse
          exact List.reverse_injective hr
        · have hn1 : v ∉ l1 := epath_not_through hend hv hu hp0 h1 hav hbv
          have hn2 : v ∉ l2 := epath_not_through hend hv hu hp0 h2 hav hbv
          exact ih a b l1 l2 (epath_insert_avoid hp0 h1 hn1)
            (epath_insert_avoid hp0 h2 hn2)

end Maze

namespace Maze

/-- An open directional passage out of an in-bounds cell is an edge of
the open-pair set (using wall symmetry for the north/west readings). -/
theorem dirOpen_edge {g : Grid} (hwf : WF g) (hsym : WallSym g) {cur nb : Nat}
    {d : Dir} (hcur : cur < gsize g)
    (hnb : dirNeighbor (getCell g cur) d = some nb)
    (hop : dirIsOpen (getCell g cur) d = true) :
    edgeRel (openEdgeSet g) cur nb := by
  have hw0 : 0 < g.width := width_pos_of_flat hcur
  have hwall : dirWall (getCell g cur) d = false := by
    unfold dirIsOpen at hop
    rw [Bool.and_eq_true] at hop
    have h2 := hop.2
    rcases hb : dirWall (getCell g cur) d with _ | _
    · rfl
    · rw [hb] at h2
      exact Bool.noConfusion h2
  have hsymflag := hsym cur d nb hnb
  have hbound : nb < gsize g := (wf_nbr_symm hwf hcur hnb).1
  cases d with
  | north =>
    rw [show dirNeighbor (getCell g cur) Dir.north =
        (getCell g cur).neighbors.north from rfl,
      (wf_fields hwf hcur).2.2.1, mkCell_nbrN] at hnb
    split at hnb
    case isFalse => exact Option.noConfusion hnb
    case isTrue hr =>
    injection hnb with hnb
    have hwle : g.width ≤ cur := (div_pos_iff_le hw0).mp hr
    have heqq : nb + g.width = cur := by omega
    refine Or.inr (mem_openEdgeSet.mpr (Or.inr
      ⟨show cur = nb + g.width by omega, ?_, hw0, ?_⟩))
    · show nb + g.width < gsize g
      rw [heqq]
      exact hcur
    · show (getCell g nb).walls.south = false
      exact hsymflag.symm.trans hwall
  | east =>
    rw [show dirNeighbor (getCell g cur) Dir.east =
        (getCell g cur).neighbors.east from rfl,
      (wf_fields hwf hcur).2.2.1, mkCell_nbrE] at hnb
    split at hnb
    case isFalse => exact Option.noConfusion hnb
    case isTrue hc =>
    injection hnb with hnb
    refine Or.inl (mem_openEdgeSet.mpr (Or.inl
      ⟨show nb = cur + 1 by omega, hcur, ?_, hwall⟩))
    show cur % g.width + 1 < g.width
    omega
  | south =>
    rw [show dirNeighbor (getCell g cur) Dir.south =
        (getCell g cur).neighbors.south from rfl,
      (wf_fields hwf hcur).2.2.1, mkCell_nbrS] at hnb
    split at hnb
    case isFalse => exact Option.noConfusion hnb
    case isTrue hr =>
    injection hnb with hnb
    have hlt : cur + g.width < gsize g := by
      rw [hnb]
      exact hbound
    exact Or.inl (mem_openEdgeSet.mpr (Or.inr
      ⟨show nb = cur + g.width by omega, hlt, hw0, hwall⟩))
  | west =>
    rw [show dirNeighbor (getCell g cur) Dir.west =
        (getCell g cur).neighbors.west from rfl,
      (wf_fields hwf hcur).2.2.1, mkCell_nbrW] at hnb
    split at hnb
    case isFalse => exact Option.noConfusion hnb
    case isTrue hc =>
    injection hnb with hnb
    have hmodlt : cur % g.width < g.width := Nat.mod_lt cur hw0
    have h1 : g.width * (cur / g.width) + cur % g.width = cur :=
      Nat.div_add_mod cur g.width
    have heq : cur - 1 = (cur % g.width - 1) + g.width * (cur / g.width) := by
      omega
    have hnbmod : (cur - 1) % g.width = cur % g.width - 1 := by
      rw [heq, Nat.add_mul_mod_self_left, Nat.mod_eq_of_lt (by omega)]
    refine Or.inr (mem_openEdgeSet.mpr (Or.inl
      ⟨show cur = nb + 1 by omega, show nb < gsize g by omega, ?_, ?_⟩))
    · show nb % g.width + 1 < g.width
      rw [← hnb, hnbmod]
      omega
    · show (getCell g nb).walls.east = false
      exact hsymflag.symm.trans hwall

end Maze

namespace Maze

/-- One neighbor-push of the solver preserves the DFS invariant. -/
theorem tryPushDir_inv {E0 : Finset (Nat × Nat)} {ent : Nat} {g : Grid}
    {st : List Nat} {cur : Nat} (d : Dir)
    (hwf : WF g) (hsym : WallSym g) (hopen : openEdgeSet g = E0)
    (hinv : DfsInv E0 ent g st)
    (hcur : (getCell g cur).visited = true) (hclt : cur < gsize g)
    (hcne : (getCell g cur).exit = false) :
    WF (tryPushDir g st cur d).1 ∧ WallSym (tryPushDir g st cur d).1 ∧
    openEdgeSet (tryPushDir g st cur d).1 = E0 ∧
    DfsInv E0 ent (tryPushDir g st cur d).1 (tryPushDir g st cur d).2 ∧
    (getCell (tryPushDir g st cur d).1 cur).visited = true ∧
    (getCell (tryPushDir g st cur d).1 cur).exit = false ∧
    gsize (tryPushDir g st cur d).1 = gsize g ∧
    (∀ i, (getCell (tryPushDir g st cur d).1 i).exit = (getCell g i).exit) := by
  simp only [tryPushDir]
  split
  case isFalse =>
    exact ⟨hwf, hsym, hopen, hinv, hcur, hcne, rfl, fun _ => rfl⟩
  case isTrue hop =>
  split
  case h_1 =>
    exact ⟨hwf, hsym, hopen, hinv, hcur, hcne, rfl, fun _ => rfl⟩
  case h_2 nb heqnb =>
  split
  case isFalse =>
    exact ⟨hwf, hsym, hopen, hinv, hcur, hcne, rfl, fun _ => rfl⟩
  case isTrue hnv =>
  have hnbnv : (getCell g nb).visited = false := by
    rw [Bool.not_eq_eq_eq_not] at hnv
    exact hnv
  have hedge : edgeRel E0 cur nb := hopen ▸ dirOpen_edge hwf hsym hclt heqnb hop
  have hnbb := wf_nbr_symm hwf hclt heqnb
  have hnbl : nb < g.cells.length := by rw [hwf.1]; exact hnbb.1
  have hnecur : cur ≠ nb := fun hc => hnbb.2.2 hc.symm
  have hneent : ent ≠ nb := by
    intro hc
    rw [← hc, hinv.entVis] at hnbnv
    exact Bool.noConfusion hnbnv
  set f := (fun (x : Cell) => { x with visited := true, toPtr := some cur })
    with hfdef
  have hexitp : ∀ i, (getCell (modifyCell g nb f) i).exit = (getCell g i).exit :=
    fun i => modify_pres (fun c => c.exit) g nb f (fun _ => rfl) i
  have hvisp : ∀ i, i ≠ nb →
      (getCell (modifyCell g nb f) i).visited = (getCell g i).visited :=
    fun i hi => by rw [getCell_modifyCell_ne g nb i f hi]
  have hptrp : ∀ i, i ≠ nb →
      (getCell (modifyCell g nb f) i).toPtr = (getCell g i).toPtr :=
    fun i hi => by rw [getCell_modifyCell_ne g nb i f hi]
  have hself := getCell_modifyCell_self g nb f hnbl
  have hwallsp : ∀ i, (getCell (modifyCell g nb f) i).walls = (getCell g i).walls :=
    fun i => modify_pres (fun c => c.walls) g nb f (fun _ => rfl) i
  have hskel : SameSkel g (modifyCell g nb f) :=
    sameSkel_modifyCell g nb f (fun _ => rfl)
  refine ⟨hwf.of_sameSkel hskel, wallSym_congr hskel hwallsp hsym,
    (@openEdgeSet_congr g (modifyCell g nb f) rfl rfl hwallsp).trans hopen,
    ?_, ?_, ?_, rfl, hexitp⟩
  · refine ⟨?_, ?_, ?_, ?_, ?_, ?_⟩
    · rw [hptrp ent hneent]
      exact hinv.entNone
    · rw [hvisp ent hneent]
      exact hinv.entVis
    · rw [hexitp ent]
      exact hinv.entNoExit
    · intro v u hptr
      rw [hexitp u]
      by_cases hv : v = nb
      · rw [hv, hself] at hptr
        have : some cur = some u := hptr
        injection this with this
        rw [← this]
        exact hcne
      · rw [hptrp v hv] at hptr
        exact hinv.noExitParent v u hptr
    · obtain ⟨rank, hrank⟩ := hinv.chain
      refine ⟨fun x => if x = nb then rank cur + 1 else rank x, ?_⟩
      intro v hvis
      by_cases hv : v = nb
      · subst hv
        refine Or.inr ⟨cur, ?_, ?_, hedge, ?_, hclt, hnbb.1⟩
        · rw [hself]
        · rw [hvisp cur hnecur]
          exact hcur
        · simp only []
          rw [if_neg hnecur]
          split
          · omega
          · next hne2 => exact absurd trivial hne2
      · rw [hvisp v hv] at hvis
        rcases hrank v hvis with hvent | ⟨u, hu1, hu2, hu3, hu4, hu5, hu6⟩
        · exact Or.inl hvent
        · have hun : u ≠ nb := by
            intro hc
            rw [hc, hnbnv] at hu2
            exact Bool.noConfusion hu2
          refine Or.inr ⟨u, ?_, ?_, hu3, ?_, hu5, hu6⟩
          · rw [hptrp v hv]
            exact hu1
          · rw [hvisp u hun]
            exact hu2
          · simp only []
            rw [if_neg hun, if_neg hv]
            exact hu4
    · intro s hs
      rcases List.mem_cons.mp hs with rfl | hs2
      · refine ⟨?_, hnbb.1⟩
        rw [hself]
      · obtain ⟨hv, hb⟩ := hinv.stackVis s hs2
        refine ⟨?_, hb⟩
        by_cases hsnb : s = nb
        · rw [hsnb, hself]
        · rw [hvisp s hsnb]
          exact hv
  · rw [hvisp cur hnecur]
    exact hcur
  · rw [hexitp cur]
    exact hcne

end Maze

namespace Maze

/-- The DFS loop preserves the invariant and, when it returns, the final
stack's top cell carries the exit flag. -/
theorem dfsLoop_sound {E0 : Finset (Nat × Nat)} {ent : Nat} :
    ∀ (fuel : Nat) (g : Grid) (stack : List Nat) (gD : Grid) (stD : List Nat),
    dfsLoop g stack fuel = .ok (gD, stD) →
    WF g → WallSym g → openEdgeSet g = E0 →
    DfsInv E0 ent g stack →
    WF gD ∧ WallSym gD ∧ openEdgeSet gD = E0 ∧ DfsInv E0 ent gD stD ∧
    ∃ top rest2, stD = top :: rest2 ∧ (getCell gD top).exit = true := by
  intro fuel
  induction fuel with
  | zero =>
    intro g stack gD stD hok
    exact Except.noConfusion hok
  | succ n ih =>
    intro g stack gD stD hok hwf hsym hopen hinv
    cases stack with
    | nil =>
      simp only [dfsLoop] at hok
      exact Except.noConfusion hok
    | cons top rest =>
      obtain ⟨hvtop, hbtop⟩ := hinv.stackVis top (List.mem_cons_self top rest)
      simp only [dfsLoop] at hok
      split at hok
      case isTrue hexit =>
        injection hok with hp
        have hg : gD = g := (congrArg Prod.fst hp).symm
        have hs : stD = top :: rest := (congrArg Prod.snd hp).symm
        subst hg
        subst hs
        exact ⟨hwf, hsym, hopen, hinv, top, rest, rfl, hexit⟩
      case isFalse hnexit =>
      have hnexitb : (getCell g top).exit = false := by
        rcases hb : (getCell g top).exit with _ | _
        · rfl
        · exact absurd hb hnexit
      split at hok
      case h_1 nb heq =>
        split at heq
        case isFalse => exact Option.noConfusion heq
        case isTrue hcond =>
        rw [Bool.and_eq_true] at hcond
        have hdopen := hcond.1
        have hisexit := hcond.2
        rw [heq] at hisexit
        have hnbexit : (getCell g nb).exit = true := hisexit
        injection hok with hp
        have hg : gD = modifyCell g nb
            (fun x => { x with visited := true, toPtr := some top }) :=
          (congrArg Prod.fst hp).symm
        have hs : stD = nb :: rest := (congrArg Prod.snd hp).symm
        subst hg
        subst hs
        have hdirnb : dirNeighbor (getCell g top) Dir.south = some nb := heq
        have hedge : edgeRel E0 top nb :=
          hopen ▸ dirOpen_edge hwf hsym hbtop hdirnb hdopen
        have hnbb := wf_nbr_symm hwf hbtop hdirnb
        have hnbl : nb < g.cells.length := by rw [hwf.1]; exact hnbb.1
        have hnetop : top ≠ nb := fun hc => hnbb.2.2 hc.symm
        have hneent : ent ≠ nb := by
          intro hc
          rw [← hc, hinv.entNoExit] at hnbexit
          exact Bool.noConfusion hnbexit
        set f := (fun (x : Cell) => { x with visited := true, toPtr := some top })
          with hfdef
        have hexitp : ∀ i, (getCell (modifyCell g nb f) i).exit =
            (getCell g i).exit :=
          fun i => modify_pres (fun c => c.exit) g nb f (fun _ => rfl) i
        have hvisp : ∀ i, i ≠ nb →
            (getCell (modifyCell g nb f) i).visited = (getCell g i).visited :=
          fun i hi => by rw [getCell_modifyCell_ne g nb i f hi]
        have hptrp : ∀ i, i ≠ nb →
            (getCell (modifyCell g nb f) i).toPtr = (getCell g i).toPtr :=
          fun i hi => by rw [getCell_modifyCell_ne g nb i f hi]
        have hself := getCell_modifyCell_self g nb f hnbl
        have hwallsp : ∀ i, (getCell (modifyCell g nb f) i).walls =
            (getCell g i).walls :=
          fun i => modify_pres (fun c => c.walls) g nb f (fun _ => rfl) i
        have hskel : SameSkel g (modifyCell g nb f) :=
          sameSkel_modifyCell g nb f (fun _ => rfl)
        refine ⟨hwf.of_sameSkel hskel, wallSym_congr hskel hwallsp hsym,
          (@openEdgeSet_congr g (modifyCell g nb f) rfl rfl hwallsp).trans hopen,
          ⟨?_, ?_, ?_, ?_, ?_, ?_⟩, nb, rest, rfl, ?_⟩
        · rw [hptrp ent hneent]
          exact hinv.entNone
        · rw [hvisp ent hneent]
          exact hinv.entVis
        · rw [hexitp ent]
          exact hinv.entNoExit
        · intro v u hptr
          rw [hexitp u]
          by_cases hv : v = nb
          · rw [hv, hself] at hptr
            have h2 : some top = some u := hptr
            injection h2 with h2
            rw [← h2]
            exact hnexitb
          · rw [hptrp v hv] at hptr
            exact hinv.noExitParent v u hptr
        · obtain ⟨rank, hrank⟩ := hinv.chain
          refine ⟨fun x => if x = nb then rank top + 1 else rank x, ?_⟩
          intro v hvis
          by_cases hv : v = nb
          · subst hv
            refine Or.inr ⟨top, ?_, ?_, hedge, ?_, hbtop, hnbb.1⟩
            · rw [hself]
            · rw [hvisp top hnetop]
              exact hvtop
            · simp only []
              rw [if_neg hnetop]
              split
              · omega
              · next hne2 => exact absurd trivial hne2
          · rw [hvisp v hv] at hvis
            rcases hrank v hvis with hvent | ⟨u, hu1, hu2, hu3, hu4, hu5, hu6⟩
            · exact Or.inl hvent
            · have hun : u ≠ nb := by
                intro hc
                have := hinv.noExitParent v u hu1
                rw [hc, hnbexit] at this
                exact Bool.noConfusion this
              refine Or.inr ⟨u, ?_, ?_, hu3, ?_, hu5, hu6⟩
              · rw [hptrp v hv]
                exact hu1
              · rw [hvisp u hun]
                exact hu2
              · simp only []
                rw [if_neg hun, if_neg hv]
                exact hu4
        · intro s hs
          rcases List.mem_cons.mp hs with rfl | hs2
          · refine ⟨?_, hnbb.1⟩
            rw [hself]
          · obtain ⟨hv2, hb2⟩ := hinv.stackVis s (List.mem_cons_of_mem top hs2)
            refine ⟨?_, hb2⟩
            by_cases hsnb : s = nb
            · rw [hsnb, hself]
            · rw [hvisp s hsnb]
              exact hv2
        · rw [hexitp nb]
          exact hnbexit
      case h_2 heq =>
        have hinvR : DfsInv E0 ent g rest :=
          ⟨hinv.entNone, hinv.entVis, hinv.entNoExit, hinv.noExitParent,
            hinv.chain, fun s hs => hinv.stackVis s (List.mem_cons_of_mem top hs)⟩
        obtain ⟨a1, a2, a3, a4, a5, a6, a7, a8⟩ :=
          tryPushDir_inv Dir.north hwf hsym hopen hinvR hvtop hbtop hnexitb
        obtain ⟨b1, b2, b3, b4, b5, b6, b7, b8⟩ :=
          tryPushDir_inv Dir.east a1 a2 a3 a4 a5 (by rw [a7]; exact hbtop) a6
        obtain ⟨c1, c2, c3, c4, c5, c6, c7, c8⟩ :=
          tryPushDir_inv Dir.south b1 b2 b3 b4 b5 (by rw [b7, a7]; exact hbtop) b6
        obtain ⟨d1, d2, d3, d4, _, _, _, _⟩ :=
          tryPushDir_inv Dir.west c1 c2 c3 c4 c5
            (by rw [c7, b7, a7]; exact hbtop) c6
        exact ih _ _ _ _ hok d1 d2 d3 d4

end Maze

namespace Maze

/-- From the DFS rank invariant, the predecessor pointers lead any
visited cell down to the entrance along open passages, without repeats. -/
theorem down_extract {E0 : Finset (Nat × Nat)} {ent : Nat} {g : Grid}
    (rank : Nat → Nat)
    (hrank : ∀ v, (getCell g v).visited = true → v = ent ∨
      ∃ u, (getCell g v).toPtr = some u ∧ (getCell g u).visited = true ∧
        edgeRel E0 u v ∧ rank u < rank v ∧ u < gsize g ∧ v < gsize g)
    (hentNone : (getCell g ent).toPtr = none) :
    ∀ v, (getCell g v).visited = true →
    ∃ l, DownChain g v l ∧ EPath E0 v ent l ∧
      ∀ x ∈ l, x = ent ∨
        ((getCell g x).visited = true ∧ x < gsize g ∧ rank x ≤ rank v) := by
  have main : ∀ (k : Nat) (v : Nat), (getCell g v).visited = true →
      ((Finset.range (gsize g)).filter fun x => rank x < rank v).card ≤ k →
      ∃ l, DownChain g v l ∧ EPath E0 v ent l ∧
        ∀ x ∈ l, x = ent ∨
          ((getCell g x).visited = true ∧ x < gsize g ∧ rank x ≤ rank v) := by
    intro k
    induction k with
    | zero =>
      intro v hvis hcard
      rcases hrank v hvis with rfl | ⟨u, hu1, hu2, hu3, hu4, hu5, hu6⟩
      · exact ⟨[v], DownChain.last v hentNone, EPath.nil v,
          fun x hx => Or.inl (List.mem_singleton.mp hx)⟩
      · exfalso
        have hm : u ∈ (Finset.range (gsize g)).filter fun x => rank x < rank v :=
          Finset.mem_filter.mpr ⟨Finset.mem_range.mpr hu5, hu4⟩
        have := Finset.card_pos.mpr ⟨u, hm⟩
        omega
    | succ k ihk =>
      intro v hvis hcard
      rcases hrank v hvis with rfl | ⟨u, hu1, hu2, hu3, hu4, hu5, hu6⟩
      · exact ⟨[v], DownChain.last v hentNone, EPath.nil v,
          fun x hx => Or.inl (List.mem_singleton.mp hx)⟩
      · have hvne : v ≠ ent := by
          intro hc
          rw [hc, hentNone] at hu1
          exact Option.noConfusion hu1
        have hsub : ((Finset.range (gsize g)).filter fun x => rank x < rank u) ⊆
            (((Finset.range (gsize g)).filter fun x => rank x < rank v).erase u) := by
          intro x hx
          obtain ⟨hx1, hx2⟩ := Finset.mem_filter.mp hx
          refine Finset.mem_erase.mpr ⟨?_, Finset.mem_filter.mpr ⟨hx1, by omega⟩⟩
          intro hc
          rw [hc] at hx2
          omega
        have hcard2 :
            ((Finset.range (gsize g)).filter fun x => rank x < rank u).card ≤ k := by
          have h1 := Finset.card_le_card hsub
          have hmem : u ∈ (Finset.range (gsize g)).filter
              fun x => rank x < rank v :=
            Finset.mem_filter.mpr ⟨Finset.mem_range.mpr hu5, hu4⟩
          have h2 := Finset.card_erase_lt_of_mem hmem
          omega
        obtain ⟨l', hdc, hep, hprop⟩ := ihk u hu2 hcard2
        have hvnotin : v ∉ l' := by
          intro hvin
          rcases hprop v hvin with hc | ⟨_, _, hle⟩
          · exact hvne hc
          · omega
        refine ⟨v :: l', DownChain.step v hu1 hdc hvnotin,
          EPath.cons v (edgeRel.swap hu3) hep hvnotin, ?_⟩
        intro x hx
        rcases List.mem_cons.mp hx with rfl | hx2
        · exact Or.inr ⟨hvis, hu6, le_refl _⟩
        · rcases hprop x hx2 with hc | ⟨ha, hb, hle⟩
          · exact Or.inl hc
          · exact Or.inr ⟨ha, hb, by omega⟩
  intro v hvis
  exact main _ v hvis (le_refl _)

theorem DownChain.ofSamePtr {g g' : Grid} {v : Nat} {l : List Nat}
    (h : DownChain g v l)
    (hag : ∀ i ∈ l, (getCell g' i).toPtr = (getCell g i).toPtr) :
    DownChain g' v l := by
  induction h with
  | last v hnone =>
    exact DownChain.last v (by rw [hag v (by simp), hnone])
  | step v hptr hsub hnotin ih =>
    refine DownChain.step v ?_ (ih fun i hi => hag i (by simp [hi])) hnotin
    rw [hag v (by simp), hptr]

/-- Marking along the recorded predecessor chain sets the on-path flag
exactly on the chain's cells. -/
theorem markPath_ok_spec : ∀ (l : List Nat) (g : Grid) (v : Nat) (fuel : Nat)
    (g' : Grid), DownChain g v l → (∀ x ∈ l, x < g.cells.length) →
    markPath g (some v) fuel = .ok g' →
    ∀ i, (getCell g' i).onPath = true ↔
      ((getCell g i).onPath = true ∨ i ∈ l) := by
  intro l
  induction l with
  | nil =>
    intro g v fuel g' hch
    cases hch
  | cons a tail ih =>
    intro g v fuel g' hch hb hok i
    cases fuel with
    | zero => exact Except.noConfusion hok
    | succ n =>
    simp only [markPath] at hok
    have hal : a < g.cells.length := hb a (List.mem_cons_self a tail)
    cases hch with
    | last _ hnone =>
      rw [hnone] at hok
      cases n with
      | zero => exact Except.noConfusion hok
      | succ m =>
        simp only [markPath] at hok
        injection hok with hg
        rw [← hg]
        by_cases hia : i = a
        · rw [hia, getCell_modifyCell_self g a _ hal]
          simp
        · rw [getCell_modifyCell_ne g a i _ hia]
          constructor
          · exact Or.inl
          · rintro (hh | hh)
            · exact hh
            · rw [List.mem_singleton] at hh
              exact absurd hh hia
    | step _ hptr hsub hnotin =>
      rename_i u
      rw [hptr] at hok
      have hch1 : DownChain (modifyCell g a
          (fun x => { x with onPath := true })) u tail := by
        refine hsub.ofSamePtr fun j hj => ?_
        exact modify_pres (fun c => c.toPtr) g a
          (fun x => { x with onPath := true }) (fun _ => rfl) j
      have hb1 : ∀ x ∈ tail, x <
          (modifyCell g a (fun x => { x with onPath := true })).cells.length := by
        intro x hx
        rw [length_modifyCell]
        exact hb x (List.mem_cons_of_mem a hx)
      have hih := ih _ u n g' hch1 hb1 hok i
      rw [hih]
      have hop1 : (getCell (modifyCell g a
          (fun x => { x with onPath := true })) i).onPath = true ↔
          (i = a ∨ (getCell g i).onPath = true) := by
        by_cases hia : i = a
        · rw [hia, getCell_modifyCell_self g a _ hal]
          simp
        · rw [getCell_modifyCell_ne g a i _ hia]
          constructor
          · exact Or.inr
          · rintro (hh | hh)
            · exact absurd hh hia
            · exact hh
      rw [hop1, List.mem_cons]
      tauto

end Maze

namespace Maze

/-- Soundness of the whole solving phase on a fresh symmetric grid whose
exit flag marks exactly `exitI`: after it returns, the on-path cells are
exactly a simple open-passage path from the exit down to the entrance. -/
theorem solveGrid_sound {gS : Grid} {entI exitI fuel : Nat} {g2' : Grid}
    (hwf : WF gS) (hsym : WallSym gS)
    (hentb : entI < gsize gS)
    (hvis0 : ∀ i, (getCell gS i).visited = false)
    (honp0 : ∀ i, (getCell gS i).onPath = false)
    (hexitflag : ∀ i, (getCell gS i).exit = true ↔ i = exitI)
    (hne : entI ≠ exitI)
    (hok : solveGrid gS entI exitI fuel = .ok g2') :
    ∃ l, EPath (openEdgeSet gS) exitI entI l ∧ onPathSet g2' = l.toFinset := by
  simp only [solveGrid] at hok
  split at hok
  case h_1 => exact Except.noConfusion hok
  case h_2 g3 st3 heqd =>
  set g1 := clearWalk gS with hg1
  set fV := (fun (c : Cell) => { c with visited := true }) with hfV
  set g2 := modifyCell g1 entI fV with hg2
  have hentl : entI < g1.cells.length := by
    rw [hg1, length_clearWalk, hwf.1]
    exact hentb
  have hscl : SameSkel gS g2 :=
    SameSkel.trans (sameSkel_clearWalk gS) (sameSkel_modifyCell g1 entI fV (fun _ => rfl))
  have hwf2 : WF g2 := hwf.of_sameSkel hscl
  have hwalls2 : ∀ i, (getCell g2 i).walls = (getCell gS i).walls := by
    intro i
    rw [hg2, modify_pres (fun c => c.walls) g1 entI fV (fun _ => rfl) i, hg1,
      walls_clearWalk]
  have hsym2 : WallSym g2 := wallSym_congr hscl hwalls2 hsym
  have hopen2 : openEdgeSet g2 = openEdgeSet gS :=
    @openEdgeSet_congr gS g2 hscl.1 hscl.2.1 hwalls2
  have hexit2 : ∀ i, (getCell g2 i).exit = (getCell gS i).exit := by
    intro i
    rw [hg2, modify_pres (fun c => c.exit) g1 entI fV (fun _ => rfl) i, hg1,
      getCell_clearWalk]
  have honp2 : ∀ i, (getCell g2 i).onPath = (getCell gS i).onPath := by
    intro i
    rw [hg2, modify_pres (fun c => c.onPath) g1 entI fV (fun _ => rfl) i, hg1,
      getCell_clearWalk]
  have hvis2 : ∀ i, i ≠ entI → (getCell g2 i).visited = (getCell gS i).visited := by
    intro i hi
    rw [hg2, getCell_modifyCell_ne g1 entI i fV hi, hg1, getCell_clearWalk]
  have hself2 := getCell_modifyCell_self g1 entI fV hentl
  have hptr2 : ∀ i, (getCell g2 i).toPtr = none := by
    intro i
    by_cases hi : i = entI
    · rw [hg2, hi, hself2,
        show (fV (getCell g1 entI)).toPtr = (getCell g1 entI).toPtr from rfl,
        hg1, getCell_clearWalk]
    · rw [hg2, getCell_modifyCell_ne g1 entI i fV hi, hg1, getCell_clearWalk]
  have hinv0 : DfsInv (openEdgeSet gS) entI g2 [entI] := by
    refine ⟨hptr2 entI, ?_, ?_, ?_, ?_, ?_⟩
    · rw [hg2, hself2]
    · rw [hexit2 entI]
      rcases hb : (getCell gS entI).exit with _ | _
      · rfl
      · exact absurd ((hexitflag entI).mp hb) hne
    · intro v u hptr
      rw [hptr2 v] at hptr
      exact Option.noConfusion hptr
    · refine ⟨fun _ => 0, ?_⟩
      intro v hvisv
      left
      by_contra hvne
      rw [hvis2 v hvne, hvis0 v] at hvisv
      exact Bool.noConfusion hvisv
    · intro s hs
      rw [List.mem_singleton] at hs
      subst hs
      refine ⟨?_, hentb⟩
      rw [hg2, hself2]
  obtain ⟨wfD, symD, openD, invD, top, rest2, hst, hexitD⟩ :=
    dfsLoop_sound fuel g2 [entI] g3 st3 heqd hwf2 hsym2 hopen2 hinv0
  have hgs3 : gsize g3 = gsize gS := by
    obtain ⟨k1, k2, _⟩ := dfsLoop_dims fuel g2 [entI] g3 st3 heqd
    rw [gsize, k1, k2]
    rfl
  have hexit3 : ∀ i, (getCell g3 i).exit = (getCell gS i).exit := by
    intro i
    rw [dfsLoop_pres (fun c => c.exit) (fun _ _ => rfl) fuel g2 [entI] g3 st3
      heqd i, hexit2 i]
  have honp3 : ∀ i, (getCell g3 i).onPath = false := by
    intro i
    rw [dfsLoop_pres (fun c => c.onPath) (fun _ _ => rfl) fuel g2 [entI] g3 st3
      heqd i, honp2 i, honp0 i]
  have htopx : top = exitI := by
    refine (hexitflag top).mp ?_
    rw [← hexit3 top]
    exact hexitD
  have hxvis : (getCell g3 exitI).visited = true := by
    rw [← htopx]
    exact (invD.stackVis top (by rw [hst]; exact List.mem_cons_self top rest2)).1
  obtain ⟨rank, hrank⟩ := invD.chain
  obtain ⟨l, hdc, hep, hprop⟩ :=
    down_extract rank hrank invD.entNone exitI hxvis
  have hbl : ∀ x ∈ l, x < gsize gS := by
    intro x hx
    rcases hprop x hx with rfl | ⟨_, hb2, _⟩
    · exact hentb
    · rw [← hgs3]
      exact hb2
  have hbl3 : ∀ x ∈ l, x < g3.cells.length := by
    intro x hx
    rw [wfD.1, hgs3]
    exact hbl x hx
  have honPiff := markPath_ok_spec l g3 exitI fuel g2' hdc hbl3 hok
  have hgs4 : gsize g2' = gsize gS := by
    obtain ⟨k1, k2, _⟩ := markPath_dims fuel g3 (some exitI) g2' hok
    rw [gsize, k1, k2, ← gsize]
    exact hgs3
  refine ⟨l, hep, ?_⟩
  ext i
  rw [List.mem_toFinset]
  constructor
  · intro hi
    obtain ⟨hr, hp⟩ := Finset.mem_filter.mp hi
    refine ((honPiff i).mp hp).resolve_left ?_
    rw [honp3 i]
    exact fun hc => Bool.noConfusion hc
  · intro hi
    refine Finset.mem_filter.mpr ⟨Finset.mem_range.mpr ?_, (honPiff i).mpr (Or.inr hi)⟩
    rw [hgs4]
    exact hbl i hi

end Maze

namespace Maze

/-! ### Claim C6: the solver marks exactly the unique entrance-exit path -/

/-- C6: on every grid the generator produces (a spanning tree with its
marked entrance and exit), after the solver runs the on-path cells are
exactly the cells of a simple path from the entrance to the exit through
open passages, inclusive of both endpoints — and that path is the only
simple open-passage path between them. -/
theorem claim_C6_solution_path (h w : Nat) (r : RNG) (fuel fuel2 : Nat)
    (rect rect2 : Rectangle) (hh : 2 ≤ h) (hw : 6 ≤ w)
    (hgen : (RectangleMaze h w false r fuel).toOption.map (fun t => t.1) =
      some rect)
    (hsol : (Solve rect fuel2).toOption = some rect2) :
    ∃ l, EPath (openEdgeSet rect2.g) rect2.entrance rect2.exit l ∧
      onPathSet rect2.g = l.toFinset ∧
      ∀ l2, EPath (openEdgeSet rect2.g) rect2.entrance rect2.exit l2 →
        l2 = l := by
  obtain ⟨err, rF, hrun⟩ := run_of_proj hgen
  obtain ⟨gp, _, hflags⟩ := RectangleMaze_post (by omega) hw hrun
  have hfl := hflags rfl
  have hok2 := solve_of_proj hsol
  simp only [Solve] at hok2
  rw [gp.unsolved] at hok2
  rw [if_neg (fun hc => Bool.noConfusion hc)] at hok2
  split at hok2
  case h_1 => exact Except.noConfusion hok2
  case h_2 g4 heqs =>
  injection hok2 with hok2
  have hg4 : rect2.g = g4 := by rw [← hok2]
  have hent2 : rect2.entrance = rect.entrance := by rw [← hok2]
  have hexit2 : rect2.exit = rect.exit := by rw [← hok2]
  have hw1 : 1 * w ≤ h * w := Nat.mul_le_mul_right w (by omega)
  have hgsr : gsize rect.g = h * w := by
    rw [gsize, gp.dimH, gp.dimW]
  have hentb : rect.entrance < gsize rect.g := by
    have h1 := gp.entCol
    have h2 : w / 6 ≤ w := Nat.div_le_self w 6
    rw [hgsr]
    omega
  have hxw1 : 1 * w ≤ (h - 1) * w := Nat.mul_le_mul_right w (by omega)
  have hne : rect.entrance ≠ rect.exit := by
    obtain ⟨xc, hxc, _, _⟩ := gp.exitCol
    have h1 := gp.entCol
    have h2 : w / 6 ≤ w := Nat.div_le_self w 6
    omega
  obtain ⟨l, hep, hset⟩ := solveGrid_sound gp.wf gp.sym hentb
    (fun i => (hfl i).1) (fun i => (hfl i).2)
    (fun i => ⟨gp.exitUnique i, fun hi => hi ▸ gp.exitFlag⟩) hne heqs
  obtain ⟨hsk4, hwalls4, _, _, _⟩ := solveGrid_pres heqs
  have hopen4 : openEdgeSet g4 = openEdgeSet rect.g :=
    @openEdgeSet_congr rect.g g4 hsk4.1 hsk4.2.1 hwalls4
  refine ⟨l.reverse, ?_, ?_, ?_⟩
  · rw [hg4, hopen4, hent2, hexit2]
    exact hep.reverse
  · rw [hg4, hset, List.toFinset_reverse]
  · intro l2 hl2
    rw [hg4, hopen4, hent2, hexit2] at hl2
    exact cert_epath_unique gp.cert rect.entrance rect.exit l2 l.reverse hl2
      hep.reverse

/-- C6 witness: the concrete generated and solved 2 by 6 maze. -/
theorem claim_C6_witness :
    ∃ l, EPath (openEdgeSet demoSolved.g) demoSolved.entrance demoSolved.exit l ∧
      onPathSet demoSolved.g = l.toFinset ∧
      ∀ l2, EPath (openEdgeSet demoSolved.g) demoSolved.entrance
        demoSolved.exit l2 → l2 = l :=
  claim_C6_solution_path 2 6 (mkRNG demoStream) 30 40 demoRect demoSolved
    (by decide) (by decide) (by decide!) (by decide!)

end Maze
